import Mathlib

/-!
# A limit order book: shallow embedding and verification

The development embeds `order.hpp`, `order_modify.hpp`, `trade.hpp`,
`level_info.hpp`, `order_book_level_infos.hpp` and `order_book.hpp`.

Conventions of the embedding.

* `std::map<Price, OrderPointers, Cmp>` is a list of `(price, bucket)` pairs kept
  in the iteration order of the map (`std::greater` for bids, `std::less` for
  asks); `begin()` is the head and `rbegin()` the last element.
* `std::unordered_map` is an association list; a new key is appended.
* An `Order` object is shared between its bucket node and its `OrderEntry` in
  `_orders`.  Both places hold a copy of the record and every `fill` is applied
  to both.
* The source reads through references whose referent has been destroyed, in three
  places that the embedding keeps apart.
  In the inner loop of `matchOrders`, `bid` and `ask` are read after `pop_front`;
  these reads find the released node as it was, and they are given the value the
  reference was bound to.
  The members of `Trade` are references to temporaries that end with the statement
  that builds the `Trade`; `Trade` holds two `Reference`s, and a leg of a stored
  `Trade` cannot be read (`Trade.getBidTrade`, `Trade.getAskTrade`).
  `cancelOrderInternal` binds `order` and `iterator` to the entry it erases in its
  next statement, then erases through the iterator and copies the `shared_ptr` out
  of the erased entry, and `matchOrder` reads `existingOrder` after its
  `cancelOrder`.  `cancelOrderInternal`, `cancelOrder`, `cancelOrders`,
  `pruneGoodForDayOrders` and `matchOrder` compute what these statements compute
  from the values the references were bound to, which is what the text of the
  functions intends; `cancelOrderInternalStrict` and the definitions built on it
  follow the lifetime of the entry and have no result for an indexed id.
* `Quantity` is unsigned and of fixed width: arithmetic on the level cache wraps
  modulo `quantityModulus`.
* `std::mutex` is not recursive.  `_ordersMutex` is a flag; acquiring it while
  it is held has no defined result, and neither has `front()` of an empty list,
  `at` of an absent key, or an exception.  All of these are `none`.
-/

/-- Modelled from the spec: `usings.hpp` is absent; prices are only compared, so an
integer stands for every signed integral `Price`. -/
abbrev Price := Int

/-- Modelled from the spec: `usings.hpp` is absent; a `Quantity` is a non-negative
integer below `quantityModulus`. -/
abbrev Quantity := Nat

/-- Modelled from the spec: `usings.hpp` is absent; an opaque identifier. -/
abbrev OrderId := Nat

/-- Modelled from the spec: `usings.hpp` is absent; `Quantity` is taken to be the
32-bit unsigned integer type, so its arithmetic is modulo `2 ^ 32`. -/
def quantityModulus : Nat := 4294967296

/-- Modelled from the spec: `side.hpp` is absent; the two enumerators used by the code. -/
inductive Side where
  | BUY
  | SELL
deriving DecidableEq, Repr

/-- Modelled from the spec: `order_type.hpp` is absent; the five enumerators used by the code. -/
inductive OrderType where
  | GOODTILLCANCEL
  | FILLANDKILL
  | FILLORKILL
  | GOODFORDAY
  | MARKET
deriving DecidableEq, Repr

/-- The class `Order` of `order.hpp`. -/
structure Order where
  _orderType : OrderType
  _orderId : OrderId
  _side : Side
  _price : Price
  _initialQuantity : Quantity
  _remainingQuantity : Quantity
deriving DecidableEq, Repr

/-- The constructor `Order(orderType, orderId, side, price, quantity)`. -/
def Order.new (orderType : OrderType) (orderId : OrderId) (side : Side) (price : Price)
    (quantity : Quantity) : Order :=
  { _orderType := orderType, _orderId := orderId, _side := side, _price := price,
    _initialQuantity := quantity, _remainingQuantity := quantity }

/-- The member `Order::getFilledQuantity` (unsigned subtraction). -/
def Order.getFilledQuantity (o : Order) : Quantity :=
  (o._initialQuantity + (quantityModulus - o._remainingQuantity % quantityModulus)) % quantityModulus

/-- The member `Order::isFilled`. -/
def Order.isFilled (o : Order) : Bool := o._remainingQuantity == 0

/-- The member `Order::fill`; `none` is the `std::logic_error`. -/
def Order.fill (o : Order) (quantity : Quantity) : Option Order :=
  if quantity > o._remainingQuantity then none
  else some { o with _remainingQuantity := o._remainingQuantity - quantity }

/-- The member `Order::toGoodTillCancel`; `none` is the `std::logic_error`. -/
def Order.toGoodTillCancel (o : Order) (price : Price) : Option Order :=
  if o._orderType ≠ OrderType.MARKET then none
  else some { o with _price := price, _orderType := OrderType.GOODTILLCANCEL }

/-- The class `OrderModify` of `order_modify.hpp`. -/
structure OrderModify where
  _orderId : OrderId
  _price : Price
  _side : Side
  _quantity : Quantity
deriving DecidableEq, Repr

/-- The member `OrderModify::toOrderPointer`. -/
def OrderModify.toOrderPointer (m : OrderModify) (type : OrderType) : Order :=
  Order.new type m._orderId m._side m._price m._quantity

/-- Modelled from the spec: `trade_info.hpp` is absent; one leg of a trade, built in
`matchOrders` from an order id, a price and a quantity. -/
structure TradeInfo where
  _orderId : OrderId
  _price : Price
  _quantity : Quantity
deriving DecidableEq, Repr

/-- A reference: the object it was bound to, and whether that object still exists. -/
structure Reference (α : Type) where
  referent : α
  alive : Bool
deriving DecidableEq, Repr

/-- Reading through a reference; when the referent has been destroyed there is no defined
result, which is `none`. -/
def Reference.read {α : Type} (r : Reference α) : Option α :=
  if r.alive then some r.referent else none

/-- The reference once its referent has been destroyed. -/
def Reference.expire {α : Type} (r : Reference α) : Reference α :=
  { r with alive := false }

/-- The class `Trade` of `trade.hpp`: its two members are `const TradeInfo&`. -/
structure Trade where
  _bidTrade : Reference TradeInfo
  _askTrade : Reference TradeInfo
deriving DecidableEq, Repr

/-- The constructor `Trade(bidTrade, askTrade)`: the members are bound to the arguments. -/
def Trade.new (bidTrade askTrade : Reference TradeInfo) : Trade :=
  { _bidTrade := bidTrade, _askTrade := askTrade }

/-- The member `Trade::getBidTrade`, followed by a read of the `TradeInfo` it refers to. -/
def Trade.getBidTrade (t : Trade) : Option TradeInfo := t._bidTrade.read

/-- The member `Trade::getAskTrade`, followed by a read of the `TradeInfo` it refers to. -/
def Trade.getAskTrade (t : Trade) : Option TradeInfo := t._askTrade.read

/-- The element a statement `trades.push_back(Trade{ TradeInfo{ … }, TradeInfo{ … } })` leaves
in the vector: the `Trade` is constructed on the two temporaries, copied, and at the end of
the statement the temporaries are destroyed while the copy keeps its two references. -/
def Trade.ofTemporaries (bidTrade askTrade : TradeInfo) : Trade :=
  let built := Trade.new { referent := bidTrade, alive := true }
    { referent := askTrade, alive := true }
  { _bidTrade := built._bidTrade.expire, _askTrade := built._askTrade.expire }

abbrev Trades := List Trade

/-- The struct `LevelInfo` of `level_info.hpp`. -/
structure LevelInfo where
  _price : Price
  _quantity : Quantity
deriving DecidableEq, Repr

/-- The struct `Orderbook::LevelData`. -/
structure LevelData where
  _quantity : Quantity
  _count : Quantity
deriving DecidableEq, Repr

/-- The enumeration `Orderbook::LevelData::Action`. -/
inductive LevelData.Action where
  | ADD
  | REMOVE
  | MATCH
deriving DecidableEq, Repr

abbrev OrderPointers := List Order

/-- A price ladder, `std::map<Price, OrderPointers, Cmp>`, in iteration order. -/
abbrev Ladder := List (Price × OrderPointers)

/-- The class `Orderbook`: level cache, both ladders, order index and the mutex flag. -/
structure Orderbook where
  _data : List (Price × LevelData)
  _bids : Ladder
  _asks : Ladder
  _orders : List (OrderId × Order)
  _ordersMutex : Bool
deriving DecidableEq, Repr

/-- The book right after construction. -/
def Orderbook.empty : Orderbook :=
  { _data := [], _bids := [], _asks := [], _orders := [], _ordersMutex := false }

/-! ### Containers -/

/-- Erasing a key from a map: `erase(key)`. -/
def eraseKey {α β : Type} [DecidableEq α] (k : α) (m : List (α × β)) : List (α × β) :=
  m.filter (fun e => decide (e.1 ≠ k))

/-- Writing through a reference to the value stored at an existing key. -/
def setKey {α β : Type} [DecidableEq α] (k : α) (v : β) (m : List (α × β)) : List (α × β) :=
  m.map (fun e => if e.1 = k then (e.1, v) else e)

/-- Lookup of a key: `find` and `at`. -/
def findKey {α β : Type} [DecidableEq α] (k : α) : List (α × β) → Option β
  | [] => none
  | e :: rest => if e.1 = k then some e.2 else findKey k rest

/-- Storing a value in an unordered map: overwrite an existing key, else append. -/
def putKey {α β : Type} [DecidableEq α] (k : α) (v : β) (m : List (α × β)) : List (α × β) :=
  match findKey k m with
  | some _ => setKey k v m
  | none => m ++ [(k, v)]

/-- The statement `ladder[price].push_back(order)` on a map ordered by `before`. -/
def pushBack (before : Price → Price → Bool) (price : Price) (order : Order) : Ladder → Ladder
  | [] => [(price, [order])]
  | (p, bucket) :: rest =>
    if p = price then (p, bucket ++ [order]) :: rest
    else if before price p then (price, [order]) :: (p, bucket) :: rest
    else (p, bucket) :: pushBack before price order rest

/-- Erasing the node an iterator designates: the node holding the order `orderId`. -/
def eraseNode (orderId : OrderId) : OrderPointers → OrderPointers
  | [] => []
  | o :: rest => if o._orderId = orderId then rest else o :: eraseNode orderId rest

/-- Ordering of the bid ladder, `std::greater<Price>`. -/
def bidBefore (a b : Price) : Bool := decide (a > b)

/-- Ordering of the ask ladder, `std::less<Price>`. -/
def askBefore (a b : Price) : Bool := decide (a < b)

/-! ### The level cache -/

/-- The member `Orderbook::updateLevelData`, on the cache alone. The `int` values `-1`, `1`
and `0` added to `_count` are converted to `Quantity`, so `-1` is `quantityModulus - 1`; a
missing entry is value-initialised by `_data[price]`. -/
def updateLevelData (data : List (Price × LevelData)) (price : Price) (quantity : Quantity)
    (action : LevelData.Action) : List (Price × LevelData) :=
  let entry : LevelData := (findKey price data).getD { _quantity := 0, _count := 0 }
  let count : Quantity :=
    ((if action = LevelData.Action.REMOVE then quantityModulus - 1
      else if action = LevelData.Action.ADD then 1 else 0) + entry._count) % quantityModulus
  let quantity1 : Quantity :=
    if action = LevelData.Action.REMOVE ∨ action = LevelData.Action.MATCH then
      (entry._quantity + (quantityModulus - quantity % quantityModulus)) % quantityModulus
    else (entry._quantity + quantity) % quantityModulus
  if count = 0 then eraseKey price data
  else putKey price { _quantity := quantity1, _count := count } data

/-- The member `Orderbook::onOrderMatched`, on the cache alone. -/
def onOrderMatched (data : List (Price × LevelData)) (price : Price) (quantity : Quantity)
    (isFullyFilled : Bool) : List (Price × LevelData) :=
  updateLevelData data price quantity (if isFullyFilled then LevelData.Action.REMOVE else LevelData.Action.MATCH)

namespace Orderbook

/-- The member `Orderbook::onOrderCancelled`. -/
def onOrderCancelled (s : Orderbook) (order : Order) : Orderbook :=
  { s with _data := updateLevelData s._data order._price order._remainingQuantity LevelData.Action.REMOVE }

/-- The member `Orderbook::onOrderAdded`. -/
def onOrderAdded (s : Orderbook) (order : Order) : Orderbook :=
  { s with _data := updateLevelData s._data order._price order._remainingQuantity LevelData.Action.ADD }

/-- The member `Orderbook::size`. -/
def size (s : Orderbook) : Nat := s._orders.length

/-! ### Cancellation -/

/-- The bucket part of `cancelOrderInternal` on one ladder: `at(price)`, `erase(iterator)` and
the removal of a bucket that became empty. -/
def removeFromLadder (ladder : Ladder) (price : Price) (orderId : OrderId) : Option Ladder :=
  match findKey price ladder with
  | none => none
  | some orders =>
    if orders.any (fun o => decide (o._orderId = orderId)) then
      let orders1 := eraseNode orderId orders
      if orders1.isEmpty then some (eraseKey price ladder)
      else some (setKey price orders1 ladder)
    else none

/-- The member `Orderbook::cancelOrderInternal`, computed from the values `order` and
`iterator` were bound to before the entry was erased; `cancelOrderInternalStrict` follows the
lifetime of the entry. -/
def cancelOrderInternal (s : Orderbook) (orderId : OrderId) : Option Orderbook :=
  match findKey orderId s._orders with
  | none => some s
  | some order =>
    let s1 : Orderbook := { s with _orders := eraseKey orderId s._orders }
    if order._side = Side.SELL then
      (removeFromLadder s1._asks order._price orderId).map
        (fun asks => onOrderCancelled { s1 with _asks := asks } order)
    else
      (removeFromLadder s1._bids order._price orderId).map
        (fun bids => onOrderCancelled { s1 with _bids := bids } order)

/-- The guard object `std::scoped_lock ordersLock{ _ordersMutex }` around a member body. -/
def withLock {α : Type} (s : Orderbook) (body : Orderbook → Option (α × Orderbook)) :
    Option (α × Orderbook) :=
  if s._ordersMutex then none
  else (body { s with _ordersMutex := true }).map
    (fun r => (r.1, { r.2 with _ordersMutex := false }))

/-- The member `Orderbook::cancelOrder`. -/
def cancelOrder (s : Orderbook) (orderId : OrderId) : Option Orderbook :=
  (withLock s (fun s1 => (cancelOrderInternal s1 orderId).map (fun s2 => ((), s2)))).map
    (fun r => r.2)

/-- The loop of `Orderbook::cancelOrders`, under the lock. -/
def cancelAll : List OrderId → Orderbook → Option Orderbook
  | [], s => some s
  | orderId :: rest, s => (cancelOrderInternal s orderId).bind (cancelAll rest)

/-- The member `Orderbook::cancelOrders`. -/
def cancelOrders (s : Orderbook) (orderIds : List OrderId) : Option Orderbook :=
  (withLock s (fun s1 => (cancelAll orderIds s1).map (fun s2 => ((), s2)))).map (fun r => r.2)

/-! ### Admission checks -/

/-- The member `Orderbook::canMatch`. -/
def canMatch (s : Orderbook) (side : Side) (price : Price) : Bool :=
  if side = Side.BUY then
    match s._asks with
    | [] => false
    | (bestAsk, _) :: _ => decide (price ≥ bestAsk)
  else
    match s._bids with
    | [] => false
    | (bestBid, _) :: _ => decide (price ≤ bestBid)

/-- The `for` loop of `Orderbook::canFullyFill` over the entries of `_data`; `threshold` always
holds a value when the loop is entered. -/
def canFullyFillLoop (side : Side) (threshold price : Price) :
    List (Price × LevelData) → Quantity → Bool
  | [], _ => false
  | (levelPrice, levelData) :: rest, quantity =>
    if (side = Side.BUY ∧ threshold > levelPrice) ∨ (side = Side.SELL ∧ threshold < levelPrice) then
      canFullyFillLoop side threshold price rest quantity
    else if (side = Side.BUY ∧ levelPrice > price) ∨ (side = Side.SELL ∧ levelPrice < price) then
      canFullyFillLoop side threshold price rest quantity
    else if quantity ≤ levelData._quantity then true
    else canFullyFillLoop side threshold price rest (quantity - levelData._quantity)

/-- The member `Orderbook::canFullyFill`. -/
def canFullyFill (s : Orderbook) (side : Side) (price : Price) (quantity : Quantity) : Bool :=
  if !canMatch s side price then false
  else
    let ladder := if side = Side.BUY then s._asks else s._bids
    match ladder with
    | [] => false
    | (threshold, _) :: _ => canFullyFillLoop side threshold price s._data quantity

/-! ### Matching -/

/-- The condition `bids.size() && asks.size()` of the inner loop of `matchOrders`, where
`bids` and `asks` are the buckets of `*_bids.begin()` and `*_asks.begin()`. -/
def bothFronts (s : Orderbook) : Bool :=
  match s._bids, s._asks with
  | (_, _ :: _) :: _, (_, _ :: _) :: _ => true
  | _, _ => false

/-- The `push_back` statement of one pass of the inner loop of `matchOrders`: the element it
leaves in `trades`, built on the temporaries `TradeInfo{ bid id, bid price, quantity }` and
`TradeInfo{ ask id, ask price, quantity }`. -/
def frontTrade (bid ask : Order) (quantity : Quantity) : Trade :=
  Trade.ofTemporaries
    { _orderId := bid._orderId, _price := bid._price, _quantity := quantity }
    { _orderId := ask._orderId, _price := ask._price, _quantity := quantity }

/-- The statements of the inner loop of `matchOrders` that follow the two `fill` calls: the
two `pop_front`/`erase` blocks and the two `onOrderMatched` calls. `bid` and `ask` are the
two front orders after `fill`. -/
def settleFront (s : Orderbook) (bidPrice : Price) (bid : Order) (bidsTail : OrderPointers)
    (bidLevels : Ladder) (askPrice : Price) (ask : Order) (asksTail : OrderPointers)
    (askLevels : Ladder) (quantity : Quantity) : Orderbook :=
  let orders0 := setKey ask._orderId ask (setKey bid._orderId bid s._orders)
  let bids := if bid.isFilled then bidsTail else bid :: bidsTail
  let orders1 := if bid.isFilled then eraseKey bid._orderId orders0 else orders0
  let asks := if ask.isFilled then asksTail else ask :: asksTail
  let orders2 := if ask.isFilled then eraseKey ask._orderId orders1 else orders1
  let data1 := onOrderMatched s._data bid._price quantity bid.isFilled
  let data2 := onOrderMatched data1 ask._price quantity ask.isFilled
  { s with _data := data2, _bids := (bidPrice, bids) :: bidLevels,
           _asks := (askPrice, asks) :: askLevels, _orders := orders2 }

/-- One pass through the body of the inner loop of `matchOrders`. -/
def fillFront (s : Orderbook) (trades : Trades) : Option (Orderbook × Trades) :=
  match s._bids, s._asks with
  | (bidPrice, bid0 :: bidsTail) :: bidLevels, (askPrice, ask0 :: asksTail) :: askLevels =>
    let quantity := min bid0._remainingQuantity ask0._remainingQuantity
    (bid0.fill quantity).bind fun bid =>
    (ask0.fill quantity).bind fun ask =>
    some (settleFront s bidPrice bid bidsTail bidLevels askPrice ask asksTail askLevels quantity,
          trades ++ [frontTrade bid ask quantity])
  | _, _ => none

/-- The inner loop `while(bids.size() && asks.size())` of `matchOrders`; the first argument
bounds the number of passes, and `matchInner_total` shows that the bound `frontSize` used by
`matchLoop` is never exhausted. -/
def matchInner : Nat → Orderbook → Trades → Option (Orderbook × Trades)
  | 0, s, trades => if bothFronts s then none else some (s, trades)
  | fuel + 1, s, trades =>
    if bothFronts s then (fillFront s trades).bind fun r => matchInner fuel r.1 r.2
    else some (s, trades)

/-- The statements `if(bids.empty()) { _bids.erase(bidPrice); _data.erase(bidPrice); }` after
the inner loop, `bids` being the bucket of the first bid level. -/
def dropEmptyBid (s : Orderbook) : Orderbook :=
  match s._bids with
  | (bidPrice, []) :: _ =>
    { s with _bids := eraseKey bidPrice s._bids, _data := eraseKey bidPrice s._data }
  | _ => s

/-- The statements `if(asks.empty()) { _asks.erase(askPrice); _data.erase(askPrice); }` after
the inner loop, `asks` being the bucket that was first in the ask ladder when the pass began. -/
def dropEmptyAsk (s : Orderbook) : Orderbook :=
  match s._asks with
  | (askPrice, []) :: _ =>
    { s with _asks := eraseKey askPrice s._asks, _data := eraseKey askPrice s._data }
  | _ => s

/-- Number of orders in the two first buckets: a bound on the passes of the inner loop. -/
def frontSize (s : Orderbook) : Nat :=
  (match s._bids with | [] => 0 | (_, b) :: _ => b.length) +
  (match s._asks with | [] => 0 | (_, a) :: _ => a.length)

/-- The outer loop `while(true)` of `matchOrders`; the first argument bounds the number of
passes, and `matchLoop_total` shows that the bound used by `matchOrders`, the number of price
levels plus one, is never exhausted. -/
def matchLoop : Nat → Orderbook → Trades → Option (Orderbook × Trades)
  | 0, _, _ => none
  | fuel + 1, s, trades =>
    match s._bids, s._asks with
    | [], _ => some (s, trades)
    | _ :: _, [] => some (s, trades)
    | (bidPrice, _) :: _, (askPrice, _) :: _ =>
      if bidPrice < askPrice then some (s, trades)
      else
        (matchInner (frontSize s) s trades).bind fun r =>
          matchLoop fuel (dropEmptyAsk (dropEmptyBid r.1)) r.2

/-- The FILLANDKILL check after the loop on one ladder: the first order of the first bucket
is cancelled through the public `cancelOrder`. -/
def killFront (s : Orderbook) (ladder : Ladder) : Option Orderbook :=
  match ladder with
  | [] => some s
  | (_, []) :: _ => none
  | (_, order :: _) :: _ =>
    if order._orderType = OrderType.FILLANDKILL then cancelOrder s order._orderId
    else some s

/-- The member `Orderbook::matchOrders`: the loop, then the FILLANDKILL check on the bid
ladder and on the ask ladder. -/
def matchOrders (s : Orderbook) : Option (Trades × Orderbook) :=
  (matchLoop (s._bids.length + s._asks.length + 1) s []).bind fun r =>
  (killFront r.1 r.1._bids).bind fun s1 =>
  (killFront s1 s1._asks).map fun s2 => (r.2, s2)

/-! ### Admission -/

/-- The MARKET branch of `addOrder`: the order is repriced to the last key of the opposite
ladder; the outer `none` is the rejection `return { }`. -/
def convertMarket (s : Orderbook) (order : Order) : Option (Option Order) :=
  if order._side = Side.BUY ∧ s._asks ≠ [] then
    match s._asks.getLast? with
    | some (worstAsk, _) => some (order.toGoodTillCancel worstAsk)
    | none => some none
  else if order._side = Side.SELL ∧ s._bids ≠ [] then
    match s._bids.getLast? with
    | some (worstBid, _) => some (order.toGoodTillCancel worstBid)
    | none => some none
  else none

/-- The insertion part of `addOrder`: bucket, order index, level cache. -/
def insertOrder (s : Orderbook) (order : Order) : Orderbook :=
  let s1 : Orderbook :=
    if order._side = Side.BUY then
      { s with _bids := pushBack bidBefore order._price order s._bids }
    else
      { s with _asks := pushBack askBefore order._price order s._asks }
  let s2 : Orderbook :=
    { s1 with _orders :=
        match findKey order._orderId s1._orders with
        | some _ => s1._orders
        | none => s1._orders ++ [(order._orderId, order)] }
  onOrderAdded s2 order

/-- The body of `addOrder` from the FILLANDKILL check on, for an order that has a price. -/
def admitOrder (s : Orderbook) (order : Order) : Option (Trades × Orderbook) :=
  if order._orderType = OrderType.FILLANDKILL ∧ !canMatch s order._side order._price then
    some ([], s)
  else if order._orderType = OrderType.FILLORKILL ∧
      !canFullyFill s order._side order._price order._initialQuantity then
    some ([], s)
  else matchOrders (insertOrder s order)

/-- The body of `addOrder` under the lock. -/
def addOrderLocked (s : Orderbook) (order : Order) : Option (Trades × Orderbook) :=
  match findKey order._orderId s._orders with
  | some _ => some ([], s)
  | none =>
    if order._orderType = OrderType.MARKET then
      match convertMarket s order with
      | none => some ([], s)
      | some none => none
      | some (some order1) => admitOrder s order1
    else admitOrder s order

/-- The member `Orderbook::addOrder`. -/
def addOrder (s : Orderbook) (order : Order) : Option (Trades × Orderbook) :=
  withLock s (fun s1 => addOrderLocked s1 order)

/-- The member `Orderbook::matchOrder` taking an `OrderModify`, computed from the value
`existingOrder` was bound to before `cancelOrder`; `matchOrderStrict` follows the lifetime of
the entry. -/
def matchOrder (s : Orderbook) (order : OrderModify) : Option (Trades × Orderbook) :=
  match findKey order._orderId s._orders with
  | none => some ([], s)
  | some existingOrder =>
    (cancelOrder s order._orderId).bind fun s1 =>
      addOrder s1 (order.toOrderPointer existingOrder._orderType)

end Orderbook

/-! ### Reachable books -/

/-- Books reachable from the empty book by `addOrder`, `cancelOrder` and `matchOrder` calls
that return. -/
inductive Reachable : Orderbook → Prop
  | init : Reachable Orderbook.empty
  | add (s s1 : Orderbook) (order : Order) (trades : Trades) :
      Reachable s → Orderbook.addOrder s order = some (trades, s1) → Reachable s1
  | cancel (s s1 : Orderbook) (orderId : OrderId) :
      Reachable s → Orderbook.cancelOrder s orderId = some s1 → Reachable s1
  | modify (s s1 : Orderbook) (order : OrderModify) (trades : Trades) :
      Reachable s → Orderbook.matchOrder s order = some (trades, s1) → Reachable s1

/-- Feeds a list of orders to `addOrder`, one after the other, dropping the trades. -/
def addOrders : List Order → Orderbook → Option Orderbook
  | [], s => some s
  | o :: os, s => (Orderbook.addOrder s o).bind fun r => addOrders os r.2

/-- Total quantity of a list of trades: the sum of the quantities of the `TradeInfo`
temporaries the bid legs were bound to (the two temporaries of a trade carry the same
quantity). -/
def tradedQuantity (trades : Trades) : Nat :=
  (trades.map fun t => t._bidTrade.referent._quantity).sum

/-- All orders of a ladder, best level first and in arrival order within a level. -/
def ladderOrders (ladder : Ladder) : List Order :=
  (ladder.map Prod.snd).flatten

/-- Sum of the remaining quantities of a list of orders. -/
def remainingSum (orders : List Order) : Nat :=
  (orders.map fun o => o._remainingQuantity).sum

/-- The orders resting at one price, bids first. -/
def restingAt (s : Orderbook) (price : Price) : List Order :=
  (ladderOrders s._bids ++ ladderOrders s._asks).filter fun o => decide (o._price = price)

/-- The three orders of the partial-fill scenario: two bids at 100 and an ask of 7 at 100. -/
def partialCrossOrders : List Order :=
  [Order.new OrderType.GOODTILLCANCEL 1 Side.BUY 100 10,
   Order.new OrderType.GOODTILLCANCEL 2 Side.BUY 100 5,
   Order.new OrderType.GOODTILLCANCEL 3 Side.SELL 100 7]

/-- The book the partial-fill scenario ends in: bids 1 (remaining 3) and 2 (remaining 5) at
100, no asks, and an empty level cache. -/
def partialCrossBook : Orderbook :=
  { _data := [],
    _bids := [(100, [{ _orderType := OrderType.GOODTILLCANCEL, _orderId := 1, _side := Side.BUY,
                       _price := 100, _initialQuantity := 10, _remainingQuantity := 3 },
                     { _orderType := OrderType.GOODTILLCANCEL, _orderId := 2, _side := Side.BUY,
                       _price := 100, _initialQuantity := 5, _remainingQuantity := 5 }])],
    _asks := [],
    _orders := [(1, { _orderType := OrderType.GOODTILLCANCEL, _orderId := 1, _side := Side.BUY,
                      _price := 100, _initialQuantity := 10, _remainingQuantity := 3 }),
                (2, { _orderType := OrderType.GOODTILLCANCEL, _orderId := 2, _side := Side.BUY,
                      _price := 100, _initialQuantity := 5, _remainingQuantity := 5 })],
    _ordersMutex := false }

/-- The four situations in which `addOrder` returns early with `{ }`. -/
def Orderbook.rejects (s : Orderbook) (order : Order) : Prop :=
  findKey order._orderId s._orders ≠ none ∨
  (order._orderType = OrderType.MARKET ∧
    ((order._side = Side.BUY ∧ s._asks = []) ∨ (order._side = Side.SELL ∧ s._bids = []))) ∨
  (order._orderType = OrderType.FILLANDKILL ∧ canMatch s order._side order._price = false) ∨
  (order._orderType = OrderType.FILLORKILL ∧
    canFullyFill s order._side order._price order._initialQuantity = false)

/-- The front bid after the pass of the inner loop that meets the front ask `a0`. -/
def bidAfter (b0 a0 : Order) : Order :=
  { b0 with _remainingQuantity :=
      b0._remainingQuantity - min b0._remainingQuantity a0._remainingQuantity }

/-- The front ask after the pass of the inner loop that meets the front bid `b0`. -/
def askAfter (b0 a0 : Order) : Order :=
  { a0 with _remainingQuantity :=
      a0._remainingQuantity - min b0._remainingQuantity a0._remainingQuantity }

/-- The condition under which the outer loop of `matchOrders` breaks: a ladder is empty or
the first bid price is below the first ask price. -/
def Orderbook.quiet (s : Orderbook) : Prop :=
  match s._bids, s._asks with
  | (bidPrice, _) :: _, (askPrice, _) :: _ => bidPrice < askPrice
  | _, _ => True

/-- Number of price levels of both ladders: a bound on the passes of the outer loop. -/
def Orderbook.levels (s : Orderbook) : Nat := s._bids.length + s._asks.length

/-! ### Well-formed books -/

/-- All resting orders: the bid ladder, then the ask ladder. -/
def Orderbook.restingOrders (s : Orderbook) : List Order :=
  ladderOrders s._bids ++ ladderOrders s._asks

/-- Every order of a ladder sits in the bucket of its own price and has the ladder's side. -/
def keyed (side : Side) (ladder : Ladder) : Prop :=
  ∀ e ∈ ladder, ∀ o ∈ e.2, o._price = e.1 ∧ o._side = side

/-- An order index agrees with a list of resting orders: no key and no order id occurs
twice, and the entries are exactly the resting orders under their own ids. -/
def Indexed (index : List (OrderId × Order)) (resting : List Order) : Prop :=
  (index.map Prod.fst).Nodup ∧
  (resting.map fun o => o._orderId).Nodup ∧
  ∀ (orderId : OrderId) (o : Order), (orderId, o) ∈ index ↔ o ∈ resting ∧ o._orderId = orderId

/-- Structure kept by every operation, also in the middle of `matchOrders`: both ladders
are strictly sorted (bids falling, asks rising), buckets hold orders of their price and
side, and the order index agrees with the ladders. -/
structure Orderbook.WellFormed (s : Orderbook) : Prop where
  bidsSorted : (s._bids.map Prod.fst).Pairwise (fun a b => a > b)
  asksSorted : (s._asks.map Prod.fst).Pairwise (fun a b => a < b)
  bidsKeyed : keyed Side.BUY s._bids
  asksKeyed : keyed Side.SELL s._asks
  indexed : Indexed s._orders s.restingOrders

/-- Every bid price is below every ask price. -/
def Orderbook.uncrossed (s : Orderbook) : Prop :=
  ∀ b ∈ s._bids, ∀ a ∈ s._asks, b.1 < a.1

/-- No bucket of either ladder is empty. -/
def Orderbook.noEmptyBucket (s : Orderbook) : Prop :=
  ∀ e ∈ s._bids ++ s._asks, e.2 ≠ []

/-- No FILLANDKILL order rests. -/
def Orderbook.noFillAndKill (s : Orderbook) : Prop :=
  ∀ o ∈ s.restingOrders, o._orderType ≠ OrderType.FILLANDKILL

/-- A book with one bid below one ask: BUY 1 99x10 and SELL 2 101x5. -/
def twoSidedBook : Orderbook :=
  { _data := [(99, { _quantity := 10, _count := 1 }), (101, { _quantity := 5, _count := 1 })],
    _bids := [(99, [Order.new OrderType.GOODTILLCANCEL 1 Side.BUY 99 10])],
    _asks := [(101, [Order.new OrderType.GOODTILLCANCEL 2 Side.SELL 101 5])],
    _orders := [(1, Order.new OrderType.GOODTILLCANCEL 1 Side.BUY 99 10),
                (2, Order.new OrderType.GOODTILLCANCEL 2 Side.SELL 101 5)],
    _ordersMutex := false }

/-! ### An incoming order against a queue of resting orders

The functions below describe, on plain lists, what the matching loop does when one side of
the crossing consists of a single incoming order with `remaining` units and the other side
is the queue `queue` of resting orders in priority order. -/

/-- What the incoming order still has after meeting the queue; `none` when it has been
filled and removed. -/
def sweepLeft (remaining : Quantity) : List Order → Option Quantity
  | [] => some remaining
  | a :: rest =>
    if a._remainingQuantity < remaining then sweepLeft (remaining - a._remainingQuantity) rest
    else none

/-- The fills, in order: the resting order met and the quantity traded with it. -/
def sweepFills (remaining : Quantity) : List Order → List (Order × Quantity)
  | [] => []
  | a :: rest =>
    if a._remainingQuantity < remaining then
      (a, a._remainingQuantity) :: sweepFills (remaining - a._remainingQuantity) rest
    else [(a, remaining)]

/-- What is left of the queue. -/
def sweepRest (remaining : Quantity) : List Order → List Order
  | [] => []
  | a :: rest =>
    if a._remainingQuantity < remaining then sweepRest (remaining - a._remainingQuantity) rest
    else if a._remainingQuantity = remaining then rest
    else { a with _remainingQuantity := a._remainingQuantity - remaining } :: rest

/-- The bucket of the incoming order `x` after the sweep. -/
def leftover (x : Order) : Option Quantity → List Order
  | none => []
  | some q => [{ x with _remainingQuantity := q }]

/-- The ladder of the incoming order `x` after the sweep: `x` is back on top of the levels
`levels` with what it has left, or gone. -/
def ladderWith (price : Price) (x : Order) (levels : Ladder) : Option Quantity → Ladder
  | none => levels
  | some q => (price, [{ x with _remainingQuantity := q }]) :: levels

/-! ### Both sides at once -/

/-- The ladder an order of the given side matches against. -/
def Orderbook.opposite (s : Orderbook) (side : Side) : Ladder :=
  if side = Side.BUY then s._asks else s._bids

/-- The ladder an order of the given side rests in. -/
def Orderbook.own (s : Orderbook) (side : Side) : Ladder :=
  if side = Side.BUY then s._bids else s._asks

/-- The map ordering of the ladder of the given side. -/
def ownBefore (side : Side) : Price → Price → Bool :=
  if side = Side.BUY then bidBefore else askBefore

/-- A resting price an order of the given side with limit price `limit` may trade at:
asks at or below the limit for a BUY, bids at or above it for a SELL. -/
def admissible (side : Side) (limit : Price) (price : Price) : Bool :=
  if side = Side.BUY then decide (price ≤ limit) else decide (limit ≤ price)

/-- The trade between the incoming order `x` and the resting order `f.1` for `f.2` units. -/
def tradeOf (x : Order) (f : Order × Quantity) : Trade :=
  if x._side = Side.BUY then Orderbook.frontTrade x f.1 f.2 else Orderbook.frontTrade f.1 x f.2

/-- The resting orders an incoming order `x` can reach: the opposite levels from the top
down to the limit price of `x`, in priority order. -/
def reachQueue (s : Orderbook) (x : Order) : List Order :=
  ladderOrders ((s.opposite x._side).takeWhile fun e => admissible x._side x._price e.1)

/-- The opposite-side orders beyond the reach of `x`. -/
def beyondReach (s : Orderbook) (x : Order) : List Order :=
  ladderOrders ((s.opposite x._side).dropWhile fun e => admissible x._side x._price e.1)

/-- The order `addOrder` goes on with after its MARKET branch: a MARKET order repriced to
the last price of the opposite ladder and turned into GOODTILLCANCEL, any other order as
it is. -/
def Orderbook.effective (s : Orderbook) (order : Order) : Order :=
  if order._orderType = OrderType.MARKET then
    match Orderbook.convertMarket s order with
    | some (some order1) => order1
    | _ => order
  else order

/-- The invariant of reachable books: well formed, uncrossed, unlocked, without empty
buckets and without resting FILLANDKILL orders. -/
structure Orderbook.Good (s : Orderbook) : Prop where
  wellFormed : s.WellFormed
  uncrossed : s.uncrossed
  unlocked : s._ordersMutex = false
  noEmptyBucket : s.noEmptyBucket
  noFillAndKill : s.noFillAndKill

/-- The book with two bids at 100: BUY 1 100x10 and BUY 2 100x5. -/
def twoBidsBook : Orderbook :=
  { _data := [(100, { _quantity := 15, _count := 2 })],
    _bids := [(100, [Order.new OrderType.GOODTILLCANCEL 1 Side.BUY 100 10,
                     Order.new OrderType.GOODTILLCANCEL 2 Side.BUY 100 5])],
    _asks := [],
    _orders := [(1, Order.new OrderType.GOODTILLCANCEL 1 Side.BUY 100 10),
                (2, Order.new OrderType.GOODTILLCANCEL 2 Side.BUY 100 5)],
    _ordersMutex := false }

/-- The book with two asks: SELL 1 100x5 and SELL 2 105x5. -/
def twoAsksBook : Orderbook :=
  { _data := [(100, { _quantity := 5, _count := 1 }), (105, { _quantity := 5, _count := 1 })],
    _bids := [],
    _asks := [(100, [Order.new OrderType.GOODTILLCANCEL 1 Side.SELL 100 5]),
              (105, [Order.new OrderType.GOODTILLCANCEL 2 Side.SELL 105 5])],
    _orders := [(1, Order.new OrderType.GOODTILLCANCEL 1 Side.SELL 100 5),
                (2, Order.new OrderType.GOODTILLCANCEL 2 Side.SELL 105 5)],
    _ordersMutex := false }

/-- The trade of the partial-fill scenario: 7 units between bid 1 and ask 3 at 100. -/
def partialCrossTrade : Trade :=
  Trade.ofTemporaries { _orderId := 1, _price := 100, _quantity := 7 }
    { _orderId := 3, _price := 100, _quantity := 7 }

/-- The MARKET BUY of 7 units with id 3 of the market scenario; its price field is not
read. -/
def marketBuy : Order := Order.new OrderType.MARKET 3 Side.BUY 0 7

/-- The trades of the market scenario: 5 units with ask 1 at 100, then 2 units with ask 2
at 105; the bid legs carry the converted price 105. -/
def marketBuyTrades : Trades :=
  [Trade.ofTemporaries { _orderId := 3, _price := 105, _quantity := 5 }
     { _orderId := 1, _price := 100, _quantity := 5 },
   Trade.ofTemporaries { _orderId := 3, _price := 105, _quantity := 2 }
     { _orderId := 2, _price := 105, _quantity := 2 }]

/-- The book the market scenario ends in: ask 2 rests at 105 with 3 remaining. -/
def marketBuyBook : Orderbook :=
  { _data := [],
    _bids := [],
    _asks := [(105, [{ _orderType := OrderType.GOODTILLCANCEL, _orderId := 2, _side := Side.SELL,
                       _price := 105, _initialQuantity := 5, _remainingQuantity := 3 }])],
    _orders := [(2, { _orderType := OrderType.GOODTILLCANCEL, _orderId := 2, _side := Side.SELL,
                      _price := 105, _initialQuantity := 5, _remainingQuantity := 3 })],
    _ordersMutex := false }

/-- The book holding the single bid BUY 1 100x5. -/
def oneBidBook : Orderbook :=
  { _data := [(100, { _quantity := 5, _count := 1 })],
    _bids := [(100, [Order.new OrderType.GOODTILLCANCEL 1 Side.BUY 100 5])],
    _asks := [],
    _orders := [(1, Order.new OrderType.GOODTILLCANCEL 1 Side.BUY 100 5)],
    _ordersMutex := false }

/-- The three `addOrder` calls of `main.cpp`: BUY 1 100x10, SELL 2 100x10, BUY 1 100x10. -/
def mainOrders : List Order :=
  [Order.new OrderType.GOODTILLCANCEL 1 Side.BUY 100 10,
   Order.new OrderType.GOODTILLCANCEL 2 Side.SELL 100 10,
   Order.new OrderType.GOODTILLCANCEL 1 Side.BUY 100 10]

/-- The book of `main.cpp` before its `cancelOrder(1)`: the bid BUY 1 100x10 rests alone. -/
def mainBook : Orderbook :=
  { _data := [(100, { _quantity := 10, _count := 1 })],
    _bids := [(100, [Order.new OrderType.GOODTILLCANCEL 1 Side.BUY 100 10])],
    _asks := [],
    _orders := [(1, Order.new OrderType.GOODTILLCANCEL 1 Side.BUY 100 10)],
    _ordersMutex := false }

/-- Two bids of `2 ^ 31` units each at 100: BUY 1 and BUY 2; the level cache has wrapped. -/
def wideBidsBook : Orderbook :=
  { _data := [(100, { _quantity := 0, _count := 2 })],
    _bids := [(100, [Order.new OrderType.GOODTILLCANCEL 1 Side.BUY 100 2147483648,
                     Order.new OrderType.GOODTILLCANCEL 2 Side.BUY 100 2147483648])],
    _asks := [],
    _orders := [(1, Order.new OrderType.GOODTILLCANCEL 1 Side.BUY 100 2147483648),
                (2, Order.new OrderType.GOODTILLCANCEL 2 Side.BUY 100 2147483648)],
    _ordersMutex := false }

/-- The orders of the pruning example: GOODFORDAY BUY 1 100x5, GOODTILLCANCEL BUY 2 100x3 and
GOODFORDAY SELL 3 105x2. -/
def dayOrders : List Order :=
  [Order.new OrderType.GOODFORDAY 1 Side.BUY 100 5,
   Order.new OrderType.GOODTILLCANCEL 2 Side.BUY 100 3,
   Order.new OrderType.GOODFORDAY 3 Side.SELL 105 2]

/-- The book in which the three orders of `dayOrders` rest. -/
def dayBook : Orderbook :=
  { _data := [(100, { _quantity := 8, _count := 2 }), (105, { _quantity := 2, _count := 1 })],
    _bids := [(100, [Order.new OrderType.GOODFORDAY 1 Side.BUY 100 5,
                     Order.new OrderType.GOODTILLCANCEL 2 Side.BUY 100 3])],
    _asks := [(105, [Order.new OrderType.GOODFORDAY 3 Side.SELL 105 2])],
    _orders := [(1, Order.new OrderType.GOODFORDAY 1 Side.BUY 100 5),
                (2, Order.new OrderType.GOODTILLCANCEL 2 Side.BUY 100 3),
                (3, Order.new OrderType.GOODFORDAY 3 Side.SELL 105 2)],
    _ordersMutex := false }

/-- The book `dayBook` after pruning: only BUY 2 100x3 rests. -/
def dayBookPruned : Orderbook :=
  { _data := [(100, { _quantity := 3, _count := 1 })],
    _bids := [(100, [Order.new OrderType.GOODTILLCANCEL 2 Side.BUY 100 3])],
    _asks := [],
    _orders := [(2, Order.new OrderType.GOODTILLCANCEL 2 Side.BUY 100 3)],
    _ordersMutex := false }

/-- The trade of the basic cross: 10 units between bid 1 and ask 2, both at 100. -/
def basicCrossTrade : Trade :=
  Trade.ofTemporaries { _orderId := 1, _price := 100, _quantity := 10 }
    { _orderId := 2, _price := 100, _quantity := 10 }

/-- A fresh bid of 10 units: BUY 1 100x10. -/
def tenLotBid : Order := Order.new OrderType.GOODTILLCANCEL 1 Side.BUY 100 10

/-- The class `OrderbookLevelInfos` of `order_book_level_infos.hpp`. -/
structure OrderbookLevelInfos where
  _bids : List LevelInfo
  _asks : List LevelInfo
deriving DecidableEq, Repr

/-- The lambda `createLevelInfos` of `Orderbook::getOrderInfo`: `std::accumulate` over the
bucket, the running sum being a `Quantity`. -/
def createLevelInfos (price : Price) (orders : OrderPointers) : LevelInfo :=
  { _price := price,
    _quantity := orders.foldl
      (fun runningSum order => (runningSum + order._remainingQuantity) % quantityModulus) 0 }

/-- The member `Orderbook::getOrderInfo`. -/
def Orderbook.getOrderInfo (s : Orderbook) : OrderbookLevelInfos :=
  { _bids := s._bids.map fun e => createLevelInfos e.1 e.2,
    _asks := s._asks.map fun e => createLevelInfos e.1 e.2 }

/-- The loop over `_orders` in `Orderbook::pruneGoodForDayOrders` that collects `orderIds`. -/
def Orderbook.goodForDayIds (s : Orderbook) : List OrderId :=
  (s._orders.filter fun e => decide (e.2._orderType = OrderType.GOODFORDAY)).map
    fun e => e.2._orderId

/-- One timed wake-up of `Orderbook::pruneGoodForDayOrders`: the ids are collected under the
lock, the lock is released, and `cancelOrders` is called on the list. -/
def Orderbook.pruneGoodForDayOrders (s : Orderbook) : Option Orderbook :=
  (Orderbook.withLock s fun s1 => some (Orderbook.goodForDayIds s1, s1)).bind fun r =>
    Orderbook.cancelOrders r.2 r.1

/-- A sequence of `fill` calls on one order object; a call that throws has not written to the
object, which stays as it was. -/
def Order.fills (o : Order) : List Quantity → Order
  | [] => o
  | quantity :: rest => Order.fills ((o.fill quantity).getD o) rest

/-- The member `Orderbook::cancelOrderInternal` with the lifetime of the entry followed.
`const auto& [order, iterator] = _orders.at(orderId)` binds `order` and `iterator` to the
members of the entry of `orderId`, and `_orders.erase(orderId)` destroys that entry in the
next statement. What follows reads `order` for the side and the price, erases through
`iterator`, and copies `order` into the parameter of `onOrderCancelled`: each of these goes
through the expired reference. -/
def Orderbook.cancelOrderInternalStrict (s : Orderbook) (orderId : OrderId) :
    Option Orderbook :=
  match findKey orderId s._orders with
  | none => some s
  | some order =>
    let entry : Reference Order := { referent := order, alive := true }
    let s1 : Orderbook := { s with _orders := eraseKey orderId s._orders }
    let entry1 : Reference Order := entry.expire
    entry1.read.bind fun order1 =>
      if order1._side = Side.SELL then
        (Orderbook.removeFromLadder s1._asks order1._price orderId).map
          (fun asks => Orderbook.onOrderCancelled { s1 with _asks := asks } order1)
      else
        (Orderbook.removeFromLadder s1._bids order1._price orderId).map
          (fun bids => Orderbook.onOrderCancelled { s1 with _bids := bids } order1)

/-- The member `Orderbook::cancelOrder`, on `cancelOrderInternalStrict`. -/
def Orderbook.cancelOrderStrict (s : Orderbook) (orderId : OrderId) : Option Orderbook :=
  (Orderbook.withLock s
    (fun s1 => (Orderbook.cancelOrderInternalStrict s1 orderId).map (fun s2 => ((), s2)))).map
    (fun r => r.2)

/-- The loop of `Orderbook::cancelOrders`, on `cancelOrderInternalStrict`. -/
def Orderbook.cancelAllStrict : List OrderId → Orderbook → Option Orderbook
  | [], s => some s
  | orderId :: rest, s =>
    (Orderbook.cancelOrderInternalStrict s orderId).bind (Orderbook.cancelAllStrict rest)

/-- The member `Orderbook::cancelOrders`, on `cancelOrderInternalStrict`. -/
def Orderbook.cancelOrdersStrict (s : Orderbook) (orderIds : List OrderId) : Option Orderbook :=
  (Orderbook.withLock s
    (fun s1 => (Orderbook.cancelAllStrict orderIds s1).map (fun s2 => ((), s2)))).map
    (fun r => r.2)

/-- One timed wake-up of `Orderbook::pruneGoodForDayOrders`, on `cancelOrdersStrict`. -/
def Orderbook.pruneGoodForDayOrdersStrict (s : Orderbook) : Option Orderbook :=
  (Orderbook.withLock s fun s1 => some (Orderbook.goodForDayIds s1, s1)).bind fun r =>
    Orderbook.cancelOrdersStrict r.2 r.1

/-- The member `Orderbook::matchOrder` taking an `OrderModify`, with the lifetime of the entry
followed: `existingOrder` is bound to a member of the entry of the id, `cancelOrder` destroys
that entry, and the type is then read through `existingOrder`. -/
def Orderbook.matchOrderStrict (s : Orderbook) (order : OrderModify) :
    Option (Trades × Orderbook) :=
  match findKey order._orderId s._orders with
  | none => some ([], s)
  | some existingOrder =>
    let entry : Reference Order := { referent := existingOrder, alive := true }
    (Orderbook.cancelOrderStrict s order._orderId).bind fun s1 =>
      entry.expire.read.bind fun existing1 =>
        Orderbook.addOrder s1 (order.toOrderPointer existing1._orderType)

open Orderbook


/-! ### Association lists -/

theorem mem_eraseKey {α β : Type} [DecidableEq α] (k : α) (m : List (α × β)) (e : α × β) :
    e ∈ eraseKey k m ↔ e ∈ m ∧ e.1 ≠ k := by
  simp [eraseKey]

theorem eraseKey_sublist {α β : Type} [DecidableEq α] (k : α) (m : List (α × β)) :
    (eraseKey k m).Sublist m := by
  unfold eraseKey; exact List.filter_sublist m

theorem eraseKey_keys_sublist {α β : Type} [DecidableEq α] (k : α) (m : List (α × β)) :
    ((eraseKey k m).map Prod.fst).Sublist (m.map Prod.fst) :=
  (eraseKey_sublist k m).map Prod.fst

theorem eraseKey_of_not_mem {α β : Type} [DecidableEq α] (k : α) (m : List (α × β))
    (h : k ∉ m.map Prod.fst) : eraseKey k m = m := by
  unfold eraseKey
  rw [List.filter_eq_self]
  intro e he
  have : e.1 ≠ k := fun hk => h (hk ▸ List.mem_map_of_mem Prod.fst he)
  simpa using this

theorem eraseKey_cons_self {α β : Type} [DecidableEq α] (k : α) (v : β) (m : List (α × β)) :
    eraseKey k ((k, v) :: m) = eraseKey k m := by
  simp [eraseKey]

theorem keys_setKey {α β : Type} [DecidableEq α] (k : α) (v : β) (m : List (α × β)) :
    (setKey k v m).map Prod.fst = m.map Prod.fst := by
  induction m with
  | nil => rfl
  | cons e rest ih =>
    simp only [setKey, List.map_cons] at ih ⊢
    rw [ih]
    by_cases h : e.1 = k <;> simp [h]

theorem findKey_mem {α β : Type} [DecidableEq α] (k : α) (v : β) (m : List (α × β))
    (h : findKey k m = some v) : (k, v) ∈ m := by
  induction m with
  | nil => simp [findKey] at h
  | cons e rest ih =>
    unfold findKey at h
    by_cases hk : e.1 = k
    · simp only [hk, if_true, Option.some.injEq] at h
      subst hk; subst h
      exact List.mem_cons_self _ _
    · simp only [hk, if_false] at h
      exact List.mem_cons_of_mem _ (ih h)

theorem findKey_eq_none {α β : Type} [DecidableEq α] (k : α) (m : List (α × β)) :
    findKey k m = none ↔ k ∉ m.map Prod.fst := by
  induction m with
  | nil => simp [findKey]
  | cons e rest ih =>
    unfold findKey
    by_cases hk : e.1 = k
    · simp [hk]
    · simp only [hk, if_false, ih, List.map_cons, List.mem_cons, not_or]
      constructor
      · intro h; exact ⟨fun h2 => hk h2.symm, h⟩
      · intro h; exact h.2

theorem findKey_of_mem_nodup {α β : Type} [DecidableEq α] (k : α) (v : β) (m : List (α × β))
    (hn : (m.map Prod.fst).Nodup) (h : (k, v) ∈ m) : findKey k m = some v := by
  induction m with
  | nil => simp at h
  | cons e rest ih =>
    unfold findKey
    simp only [List.map_cons, List.nodup_cons] at hn
    rcases List.mem_cons.mp h with h | h
    · subst h; simp
    · have : e.1 ≠ k := fun hk => hn.1 (hk ▸ List.mem_map_of_mem Prod.fst h)
      simp only [this, if_false]
      exact ih hn.2 h

/-! ### The two loops of `matchOrders` -/

theorem bothFronts_iff (s : Orderbook) :
    bothFronts s = true ↔
      ∃ bp b0 bt bl ap a0 at0 al,
        s._bids = (bp, b0 :: bt) :: bl ∧ s._asks = (ap, a0 :: at0) :: al := by
  unfold bothFronts
  constructor
  · intro h
    split at h
    · next bp b0 bt bl ap a0 at0 al hb ha => exact ⟨_, _, _, _, _, _, _, _, hb, ha⟩
    · simp at h
  · rintro ⟨bp, b0, bt, bl, ap, a0, at0, al, hb, ha⟩
    simp [hb, ha]

theorem Order.fill_le (o : Order) (q : Quantity) (h : q ≤ o._remainingQuantity) :
    o.fill q = some { o with _remainingQuantity := o._remainingQuantity - q } := by
  unfold Order.fill
  simp [Nat.not_lt.mpr h]

theorem fillFront_eq (s : Orderbook) (t : Trades) (bp : Price) (b0 : Order) (bt : OrderPointers)
    (bl : Ladder) (ap : Price) (a0 : Order) (at0 : OrderPointers) (al : Ladder)
    (hb : s._bids = (bp, b0 :: bt) :: bl) (ha : s._asks = (ap, a0 :: at0) :: al) :
    fillFront s t =
      some (settleFront s bp (bidAfter b0 a0) bt bl ap (askAfter b0 a0) at0 al
              (min b0._remainingQuantity a0._remainingQuantity),
            t ++ [frontTrade (bidAfter b0 a0) (askAfter b0 a0)
              (min b0._remainingQuantity a0._remainingQuantity)]) := by
  unfold fillFront
  rw [hb, ha]
  simp only [Order.fill_le b0 _ (Nat.min_le_left _ _), Order.fill_le a0 _ (Nat.min_le_right _ _),
    Option.bind_some, Option.some_bind, bidAfter, askAfter]

theorem bidAfter_or_askAfter_filled (b0 a0 : Order) :
    (bidAfter b0 a0).isFilled = true ∨ (askAfter b0 a0).isFilled = true := by
  unfold bidAfter askAfter Order.isFilled
  rcases Nat.le_total b0._remainingQuantity a0._remainingQuantity with h | h
  · left; simp [Nat.min_eq_left h]
  · right; simp [Nat.min_eq_right h]

/-! ### Passes of the matching loops -/

theorem settleFront_bids (s : Orderbook) (bp : Price) (b : Order) (bt : OrderPointers)
    (bl : Ladder) (ap : Price) (a : Order) (at0 : OrderPointers) (al : Ladder) (q : Quantity) :
    (settleFront s bp b bt bl ap a at0 al q)._bids
      = (bp, if b.isFilled then bt else b :: bt) :: bl := rfl

theorem settleFront_asks (s : Orderbook) (bp : Price) (b : Order) (bt : OrderPointers)
    (bl : Ladder) (ap : Price) (a : Order) (at0 : OrderPointers) (al : Ladder) (q : Quantity) :
    (settleFront s bp b bt bl ap a at0 al q)._asks
      = (ap, if a.isFilled then at0 else a :: at0) :: al := rfl

theorem settleFront_mutex (s : Orderbook) (bp : Price) (b : Order) (bt : OrderPointers)
    (bl : Ladder) (ap : Price) (a : Order) (at0 : OrderPointers) (al : Ladder) (q : Quantity) :
    (settleFront s bp b bt bl ap a at0 al q)._ordersMutex = s._ordersMutex := rfl

/-- Induction over the passes of the inner loop: a property kept by every pass holds when the
loop ends, and then one of the two front buckets is empty. -/
theorem matchInner_induct (P : Orderbook → Trades → Prop)
    (hstep : ∀ s t bp b0 bt bl ap a0 at0 al, P s t →
      s._bids = (bp, b0 :: bt) :: bl → s._asks = (ap, a0 :: at0) :: al →
      P (settleFront s bp (bidAfter b0 a0) bt bl ap (askAfter b0 a0) at0 al
            (min b0._remainingQuantity a0._remainingQuantity))
        (t ++ [frontTrade (bidAfter b0 a0) (askAfter b0 a0)
            (min b0._remainingQuantity a0._remainingQuantity)])) :
    ∀ (fuel : Nat) (s : Orderbook) (t : Trades) (r : Orderbook × Trades),
      P s t → matchInner fuel s t = some r → P r.1 r.2 ∧ bothFronts r.1 = false := by
  intro fuel
  induction fuel with
  | zero =>
    intro s t r hP h
    unfold matchInner at h
    by_cases hb : bothFronts s = true
    · simp [hb] at h
    · simp only [hb, if_false, Option.some.injEq, Bool.false_eq_true] at h
      subst h
      exact ⟨hP, by simpa using hb⟩
  | succ n ih =>
    intro s t r hP h
    unfold matchInner at h
    by_cases hb : bothFronts s = true
    · obtain ⟨bp, b0, bt, bl, ap, a0, at0, al, hbids, hasks⟩ := (bothFronts_iff s).mp hb
      simp only [hb, if_true, fillFront_eq s t bp b0 bt bl ap a0 at0 al hbids hasks,
        Option.some_bind] at h
      exact ih _ _ r (hstep s t bp b0 bt bl ap a0 at0 al hP hbids hasks) h
    · simp only [hb, if_false, Option.some.injEq, Bool.false_eq_true] at h
      subst h
      exact ⟨hP, by simpa using hb⟩

theorem frontSize_settleFront (s : Orderbook) (bp : Price) (b0 : Order) (bt : OrderPointers)
    (bl : Ladder) (ap : Price) (a0 : Order) (at0 : OrderPointers) (al : Ladder)
    (hb : s._bids = (bp, b0 :: bt) :: bl) (ha : s._asks = (ap, a0 :: at0) :: al) :
    frontSize (settleFront s bp (bidAfter b0 a0) bt bl ap (askAfter b0 a0) at0 al
      (min b0._remainingQuantity a0._remainingQuantity)) < frontSize s := by
  unfold frontSize
  rw [settleFront_bids, settleFront_asks, hb, ha]
  simp only
  rcases bidAfter_or_askAfter_filled b0 a0 with h | h
  · simp only [h, if_true, List.length_cons]
    split <;> (try simp only [List.length_cons]) <;> omega
  · simp only [h, if_true, List.length_cons]
    split <;> (try simp only [List.length_cons]) <;> omega

/-- The inner loop ends: the number of orders in the two front buckets bounds its passes. -/
theorem matchInner_total : ∀ (fuel : Nat) (s : Orderbook) (t : Trades),
    frontSize s ≤ fuel → ∃ r, matchInner fuel s t = some r := by
  intro fuel
  induction fuel with
  | zero =>
    intro s t h
    unfold matchInner
    by_cases hb : bothFronts s = true
    · obtain ⟨bp, b0, bt, bl, ap, a0, at0, al, hbids, hasks⟩ := (bothFronts_iff s).mp hb
      unfold frontSize at h
      rw [hbids, hasks] at h
      simp at h
    · simp [hb]
  | succ n ih =>
    intro s t h
    unfold matchInner
    by_cases hb : bothFronts s = true
    · obtain ⟨bp, b0, bt, bl, ap, a0, at0, al, hbids, hasks⟩ := (bothFronts_iff s).mp hb
      simp only [hb, if_true, fillFront_eq s t bp b0 bt bl ap a0 at0 al hbids hasks,
        Option.some_bind]
      apply ih
      have := frontSize_settleFront s bp b0 bt bl ap a0 at0 al hbids hasks
      omega
    · simp [hb]

theorem dropEmptyBid_asks (s : Orderbook) : (dropEmptyBid s)._asks = s._asks := by
  unfold dropEmptyBid; split <;> rfl

theorem dropEmptyBid_orders (s : Orderbook) : (dropEmptyBid s)._orders = s._orders := by
  unfold dropEmptyBid; split <;> rfl

theorem dropEmptyBid_mutex (s : Orderbook) : (dropEmptyBid s)._ordersMutex = s._ordersMutex := by
  unfold dropEmptyBid; split <;> rfl

theorem dropEmptyAsk_bids (s : Orderbook) : (dropEmptyAsk s)._bids = s._bids := by
  unfold dropEmptyAsk; split <;> rfl

theorem dropEmptyAsk_orders (s : Orderbook) : (dropEmptyAsk s)._orders = s._orders := by
  unfold dropEmptyAsk; split <;> rfl

theorem dropEmptyAsk_mutex (s : Orderbook) : (dropEmptyAsk s)._ordersMutex = s._ordersMutex := by
  unfold dropEmptyAsk; split <;> rfl

theorem dropEmptyBid_of_empty (s : Orderbook) (bp : Price) (rest : Ladder)
    (h : s._bids = (bp, []) :: rest) :
    dropEmptyBid s = { s with _bids := eraseKey bp rest, _data := eraseKey bp s._data } := by
  unfold dropEmptyBid
  simp [h, eraseKey_cons_self]

theorem dropEmptyBid_of_front (s : Orderbook) (bp : Price) (b0 : Order) (bt : OrderPointers)
    (rest : Ladder) (h : s._bids = (bp, b0 :: bt) :: rest) : dropEmptyBid s = s := by
  unfold dropEmptyBid
  simp [h]

theorem dropEmptyBid_of_nil (s : Orderbook) (h : s._bids = []) : dropEmptyBid s = s := by
  unfold dropEmptyBid
  simp [h]

theorem dropEmptyAsk_of_empty (s : Orderbook) (ap : Price) (rest : Ladder)
    (h : s._asks = (ap, []) :: rest) :
    dropEmptyAsk s = { s with _asks := eraseKey ap rest, _data := eraseKey ap s._data } := by
  unfold dropEmptyAsk
  simp [h, eraseKey_cons_self]

theorem dropEmptyAsk_of_front (s : Orderbook) (ap : Price) (a0 : Order) (at0 : OrderPointers)
    (rest : Ladder) (h : s._asks = (ap, a0 :: at0) :: rest) : dropEmptyAsk s = s := by
  unfold dropEmptyAsk
  simp [h]

theorem dropEmptyAsk_of_nil (s : Orderbook) (h : s._asks = []) : dropEmptyAsk s = s := by
  unfold dropEmptyAsk
  simp [h]

theorem dropEmptyBid_sublist (s : Orderbook) : (dropEmptyBid s)._bids.Sublist s._bids := by
  match h : s._bids with
  | [] => rw [dropEmptyBid_of_nil s h, h]
  | (bp, []) :: rest =>
    rw [dropEmptyBid_of_empty s bp rest h]
    exact (eraseKey_sublist _ _).trans (List.sublist_cons_self _ _)
  | (bp, b0 :: bt) :: rest => rw [dropEmptyBid_of_front s bp b0 bt rest h, h]

theorem dropEmptyAsk_sublist (s : Orderbook) : (dropEmptyAsk s)._asks.Sublist s._asks := by
  match h : s._asks with
  | [] => rw [dropEmptyAsk_of_nil s h, h]
  | (ap, []) :: rest =>
    rw [dropEmptyAsk_of_empty s ap rest h]
    exact (eraseKey_sublist _ _).trans (List.sublist_cons_self _ _)
  | (ap, a0 :: at0) :: rest => rw [dropEmptyAsk_of_front s ap a0 at0 rest h, h]

/-- Induction over the passes of the outer loop: a property kept by every pass that does
not break holds when the loop ends, and the loop ends on its break condition. -/
theorem matchLoop_induct (Q : Orderbook → Trades → Prop)
    (hpass : ∀ s t r bp bb bl ap ab al, Q s t →
      s._bids = (bp, bb) :: bl → s._asks = (ap, ab) :: al → ¬ bp < ap →
      matchInner (frontSize s) s t = some r →
      Q (dropEmptyAsk (dropEmptyBid r.1)) r.2) :
    ∀ (fuel : Nat) (s : Orderbook) (t : Trades) (r : Orderbook × Trades),
      Q s t → matchLoop fuel s t = some r → Q r.1 r.2 ∧ r.1.quiet := by
  intro fuel
  induction fuel with
  | zero => intro s t r _ h; simp [matchLoop] at h
  | succ n ih =>
    intro s t r hQ h
    unfold matchLoop at h
    split at h
    · next hb =>
      simp only [Option.some.injEq] at h; subst h
      exact ⟨hQ, by simp [Orderbook.quiet, hb]⟩
    · next hb ha =>
      simp only [Option.some.injEq] at h; subst h
      exact ⟨hQ, by simp [Orderbook.quiet, hb, ha]⟩
    · next bp bb bl ap ab al hb ha =>
      by_cases hlt : bp < ap
      · simp only [hlt, if_true, Option.some.injEq] at h; subst h
        exact ⟨hQ, by simp [Orderbook.quiet, hb, ha, hlt]⟩
      · simp only [hlt, if_false] at h
        cases hi : matchInner (frontSize s) s t with
        | none => simp [hi] at h
        | some r1 =>
          simp only [hi, Option.some_bind] at h
          exact ih _ _ r (hpass s t r1 bp bb bl ap ab al hQ hb ha hlt hi) h

theorem matchInner_lengths (fuel : Nat) (s : Orderbook) (t : Trades) (r : Orderbook × Trades)
    (h : matchInner fuel s t = some r) :
    r.1._bids.length = s._bids.length ∧ r.1._asks.length = s._asks.length := by
  refine (matchInner_induct
    (fun s1 _ => s1._bids.length = s._bids.length ∧ s1._asks.length = s._asks.length)
    ?_ fuel s t r ⟨rfl, rfl⟩ h).1
  intro s1 t1 bp b0 bt bl ap a0 at0 al hP hb ha
  rw [settleFront_bids, settleFront_asks]
  rw [hb, ha] at hP
  simpa using hP

theorem dropEmptyAsk_asks_congr (s s1 : Orderbook) (h : s._asks = s1._asks) :
    (dropEmptyAsk s)._asks = (dropEmptyAsk s1)._asks := by
  match h1 : s1._asks with
  | [] => rw [dropEmptyAsk_of_nil s1 h1, dropEmptyAsk_of_nil s (h.trans h1), h]
  | (ap, []) :: rest =>
    rw [dropEmptyAsk_of_empty s1 ap rest h1, dropEmptyAsk_of_empty s ap rest (h.trans h1)]
  | (ap, a0 :: at0) :: rest =>
    rw [dropEmptyAsk_of_front s1 ap a0 at0 rest h1,
      dropEmptyAsk_of_front s ap a0 at0 rest (h.trans h1), h]

theorem levels_after_pass (s : Orderbook) (h : bothFronts s = false)
    (hb : s._bids ≠ []) (ha : s._asks ≠ []) :
    (dropEmptyAsk (dropEmptyBid s)).levels < s.levels := by
  have h1 := (dropEmptyBid_sublist s).length_le
  have h2 := (dropEmptyAsk_sublist s).length_le
  unfold Orderbook.levels
  rw [dropEmptyAsk_bids, dropEmptyAsk_asks_congr _ s (dropEmptyBid_asks s)]
  match hbs : s._bids, has : s._asks with
  | [], _ => exact absurd hbs hb
  | _ :: _, [] => exact absurd has ha
  | (bp, []) :: bl, a :: al =>
    have h3 : (dropEmptyBid s)._bids.length ≤ bl.length := by
      rw [dropEmptyBid_of_empty s bp bl hbs]; exact (eraseKey_sublist _ _).length_le
    rw [has] at h2
    simp only [List.length_cons] at *
    omega
  | (bp, b0 :: bt) :: bl, (ap, []) :: al =>
    have h3 : (dropEmptyAsk s)._asks.length ≤ al.length := by
      rw [dropEmptyAsk_of_empty s ap al has]; exact (eraseKey_sublist _ _).length_le
    rw [hbs] at h1
    simp only [List.length_cons] at *
    omega
  | (bp, b0 :: bt) :: bl, (ap, a0 :: at0) :: al =>
    simp [bothFronts, hbs, has] at h

/-- The outer loop ends: the number of price levels bounds its passes. -/
theorem matchLoop_total : ∀ (fuel : Nat) (s : Orderbook) (t : Trades),
    s.levels < fuel → ∃ r, matchLoop fuel s t = some r := by
  intro fuel
  induction fuel with
  | zero => intro s t h; omega
  | succ n ih =>
    intro s t h
    unfold matchLoop
    split
    · exact ⟨_, rfl⟩
    · exact ⟨_, rfl⟩
    · next bp bb bl ap ab al hb ha =>
      by_cases hlt : bp < ap
      · simp [hlt]
      · simp only [hlt, if_false]
        obtain ⟨r1, hr1⟩ := matchInner_total (frontSize s) s t (le_refl _)
        simp only [hr1, Option.some_bind]
        apply ih
        have hlen := matchInner_lengths _ _ _ _ hr1
        have hq := (matchInner_induct (fun _ _ => True) (by intros; trivial) _ s t r1
          trivial hr1).2
        have hne1 : r1.1._bids ≠ [] := by
          intro h0; rw [h0, hb] at hlen; simp at hlen
        have hne2 : r1.1._asks ≠ [] := by
          intro h0; rw [h0, ha] at hlen; simp at hlen
        have := levels_after_pass r1.1 hq hne1 hne2
        unfold Orderbook.levels at *
        omega

/-! ### The order index against the resting orders -/

theorem mem_setKey {α β : Type} [DecidableEq α] (k : α) (v : β) (m : List (α × β))
    (e : α × β) :
    e ∈ setKey k v m ↔ (e.1 = k ∧ e.2 = v ∧ k ∈ m.map Prod.fst) ∨ (e.1 ≠ k ∧ e ∈ m) := by
  unfold setKey
  rw [List.mem_map]
  constructor
  · rintro ⟨x, hx, hfx⟩
    by_cases hk : x.1 = k
    · rw [if_pos hk] at hfx
      subst hfx
      exact Or.inl ⟨hk, rfl, hk ▸ List.mem_map_of_mem Prod.fst hx⟩
    · rw [if_neg hk] at hfx
      subst hfx
      exact Or.inr ⟨hk, hx⟩
  · rintro (⟨h1, h2, h3⟩ | ⟨h1, h2⟩)
    · obtain ⟨x, hx, hxk⟩ := List.mem_map.mp h3
      refine ⟨x, hx, ?_⟩
      rw [if_pos hxk]
      exact Prod.ext (hxk.trans h1.symm) h2.symm
    · exact ⟨e, h2, by rw [if_neg h1]⟩

theorem Indexed.perm {index : List (OrderId × Order)} {r1 r2 : List Order}
    (h : Indexed index r1) (hp : r1.Perm r2) : Indexed index r2 := by
  refine ⟨h.1, ?_, ?_⟩
  · exact (List.Perm.nodup_iff (hp.map _)).mp h.2.1
  · intro k o
    rw [h.2.2 k o, hp.mem_iff]

theorem Indexed.update {index : List (OrderId × Order)} {x0 x1 : Order} {rest : List Order}
    (h : Indexed index (x0 :: rest)) (hid : x1._orderId = x0._orderId) :
    Indexed (setKey x0._orderId x1 index) (x1 :: rest) := by
  obtain ⟨h1, h2, h3⟩ := h
  have hx0 : (x0._orderId, x0) ∈ index := (h3 _ _).mpr ⟨List.mem_cons_self _ _, rfl⟩
  simp only [List.map_cons, List.nodup_cons] at h2
  refine ⟨by rw [keys_setKey]; exact h1, ?_, ?_⟩
  · simp only [List.map_cons, List.nodup_cons, hid]
    exact h2
  · intro k o
    rw [mem_setKey]
    simp only [List.mem_cons]
    constructor
    · rintro (⟨hk, ho, _⟩ | ⟨hk, hm⟩)
      · have ho : o = x1 := ho
        have hk : k = x0._orderId := hk
        subst ho
        exact ⟨Or.inl rfl, by rw [hid, hk]⟩
      · simp only [ne_eq] at hk
        obtain ⟨hm1, hm2⟩ := (h3 k o).mp hm
        rcases List.mem_cons.mp hm1 with hm1 | hm1
        · subst hm1; exact absurd hm2.symm hk
        · exact ⟨Or.inr hm1, hm2⟩
    · rintro ⟨ho | ho, hk⟩
      · subst ho
        left
        exact ⟨by rw [← hk, hid], rfl, List.mem_map_of_mem Prod.fst hx0⟩
      · right
        have hne : k ≠ x0._orderId := by
          intro hk2
          apply h2.1
          rw [← hk2, ← hk]
          exact List.mem_map_of_mem (fun o => o._orderId) ho
        exact ⟨hne, (h3 k o).mpr ⟨List.mem_cons_of_mem _ ho, hk⟩⟩

theorem Indexed.remove {index : List (OrderId × Order)} {x0 : Order} {rest : List Order}
    (h : Indexed index (x0 :: rest)) :
    Indexed (eraseKey x0._orderId index) rest := by
  obtain ⟨h1, h2, h3⟩ := h
  simp only [List.map_cons, List.nodup_cons] at h2
  refine ⟨h1.sublist (eraseKey_keys_sublist _ _), h2.2, ?_⟩
  intro k o
  rw [mem_eraseKey, h3]
  simp only [List.mem_cons, ne_eq]
  constructor
  · rintro ⟨⟨ho | ho, hk⟩, hne⟩
    · subst ho; exact absurd hk.symm hne
    · exact ⟨ho, hk⟩
  · rintro ⟨ho, hk⟩
    refine ⟨⟨Or.inr ho, hk⟩, ?_⟩
    intro hk2
    apply h2.1
    rw [← hk2, ← hk]
    exact List.mem_map_of_mem (fun o => o._orderId) ho

theorem Indexed.insert {index : List (OrderId × Order)} {x : Order} {rest : List Order}
    (h : Indexed index rest) (hf : findKey x._orderId index = none) :
    Indexed (index ++ [(x._orderId, x)]) (x :: rest) := by
  obtain ⟨h1, h2, h3⟩ := h
  have hk : x._orderId ∉ index.map Prod.fst := (findKey_eq_none _ _).mp hf
  have hr : x._orderId ∉ rest.map (fun o => o._orderId) := by
    intro hm
    obtain ⟨o, ho, hoid⟩ := List.mem_map.mp hm
    exact hk (List.mem_map_of_mem Prod.fst ((h3 _ o).mpr ⟨ho, hoid⟩))
  refine ⟨?_, ?_, ?_⟩
  · rw [List.map_append, List.nodup_append]
    refine ⟨h1, by simp, ?_⟩
    intro a ha hb
    simp at hb
    subst hb
    exact hk ha
  · simp only [List.map_cons, List.nodup_cons]
    exact ⟨hr, h2⟩
  · intro k o
    rw [List.mem_append, List.mem_singleton, List.mem_cons, Prod.mk.injEq, h3]
    constructor
    · rintro (⟨ho, hko⟩ | ⟨hko, ho⟩)
      · exact ⟨Or.inr ho, hko⟩
      · subst ho; exact ⟨Or.inl rfl, hko.symm⟩
    · rintro ⟨ho | ho, hko⟩
      · right; subst ho; exact ⟨hko.symm, rfl⟩
      · left; exact ⟨ho, hko⟩

theorem Indexed.update_self {index : List (OrderId × Order)} {x0 x1 : Order}
    {rest : List Order} (h : Indexed index (x0 :: rest)) (hid : x1._orderId = x0._orderId) :
    Indexed (setKey x1._orderId x1 index) (x1 :: rest) := by
  rw [hid]; exact h.update hid

theorem Indexed.remove_mid {index : List (OrderId × Order)} {x0 : Order}
    {front rest : List Order} (h : Indexed index (front ++ x0 :: rest)) :
    Indexed (eraseKey x0._orderId index) (front ++ rest) :=
  (h.perm List.perm_middle).remove

theorem Indexed.update_mid {index : List (OrderId × Order)} {x0 x1 : Order}
    {front rest : List Order} (h : Indexed index (front ++ x0 :: rest))
    (hid : x1._orderId = x0._orderId) :
    Indexed (setKey x1._orderId x1 index) (front ++ x1 :: rest) :=
  ((h.perm List.perm_middle).update_self hid).perm List.perm_middle.symm

/-- The index part of one pass of the inner loop, on plain lists. -/
theorem indexed_settle (index : List (OrderId × Order)) (b0 a0 b1 a1 : Order)
    (B A : List Order) (hb : b1._orderId = b0._orderId) (ha : a1._orderId = a0._orderId)
    (h : Indexed index ((b0 :: B) ++ (a0 :: A))) :
    Indexed
      (if a1.isFilled then
          eraseKey a1._orderId
            (if b1.isFilled then
              eraseKey b1._orderId (setKey a1._orderId a1 (setKey b1._orderId b1 index))
             else setKey a1._orderId a1 (setKey b1._orderId b1 index))
        else
          (if b1.isFilled then
              eraseKey b1._orderId (setKey a1._orderId a1 (setKey b1._orderId b1 index))
           else setKey a1._orderId a1 (setKey b1._orderId b1 index)))
      ((if b1.isFilled then B else b1 :: B) ++ (if a1.isFilled then A else a1 :: A)) := by
  have h1 : Indexed (setKey b1._orderId b1 index) ((b1 :: B) ++ (a0 :: A)) :=
    @Indexed.update_self index b0 b1 (B ++ a0 :: A) h hb
  have h2 : Indexed (setKey a1._orderId a1 (setKey b1._orderId b1 index))
      ((b1 :: B) ++ (a1 :: A)) := h1.update_mid ha
  by_cases hbf : b1.isFilled = true
  · have h3 : Indexed (eraseKey b1._orderId (setKey a1._orderId a1
        (setKey b1._orderId b1 index))) (B ++ (a1 :: A)) :=
      @Indexed.remove _ b1 (B ++ a1 :: A) h2
    by_cases haf : a1.isFilled = true
    · simp only [hbf, haf, if_true]
      exact h3.remove_mid
    · simp only [hbf, haf, if_true, if_false, Bool.false_eq_true]
      exact h3
  · by_cases haf : a1.isFilled = true
    · simp only [hbf, haf, if_true, if_false, Bool.false_eq_true]
      exact h2.remove_mid
    · simp only [hbf, haf, if_false, Bool.false_eq_true]
      exact h2

theorem ladderOrders_cons (p : Price) (bucket : OrderPointers) (rest : Ladder) :
    ladderOrders ((p, bucket) :: rest) = bucket ++ ladderOrders rest := by
  simp [ladderOrders]

theorem ladderOrders_nil : ladderOrders [] = [] := rfl

theorem mem_ladderOrders (o : Order) (ladder : Ladder) :
    o ∈ ladderOrders ladder ↔ ∃ e ∈ ladder, o ∈ e.2 := by
  simp [ladderOrders, List.mem_flatten]
  constructor
  · rintro ⟨l, ⟨p, hp⟩, ho⟩
    exact ⟨p, l, hp, ho⟩
  · rintro ⟨p, l, hp, ho⟩
    exact ⟨l, ⟨p, hp⟩, ho⟩

theorem settleFront_orders (s : Orderbook) (bp : Price) (b : Order) (bt : OrderPointers)
    (bl : Ladder) (ap : Price) (a : Order) (at0 : OrderPointers) (al : Ladder) (q : Quantity) :
    (settleFront s bp b bt bl ap a at0 al q)._orders =
      (if a.isFilled then
          eraseKey a._orderId
            (if b.isFilled then
              eraseKey b._orderId (setKey a._orderId a (setKey b._orderId b s._orders))
             else setKey a._orderId a (setKey b._orderId b s._orders))
        else
          (if b.isFilled then
              eraseKey b._orderId (setKey a._orderId a (setKey b._orderId b s._orders))
           else setKey a._orderId a (setKey b._orderId b s._orders))) := rfl

/-- One pass of the inner loop keeps a book well formed. -/
theorem wellFormed_settleFront (s : Orderbook) (bp : Price) (b0 : Order) (bt : OrderPointers)
    (bl : Ladder) (ap : Price) (a0 : Order) (at0 : OrderPointers) (al : Ladder) (q : Quantity)
    (hw : s.WellFormed)
    (hb : s._bids = (bp, b0 :: bt) :: bl) (ha : s._asks = (ap, a0 :: at0) :: al) :
    (settleFront s bp (bidAfter b0 a0) bt bl ap (askAfter b0 a0) at0 al q).WellFormed := by
  obtain ⟨hbs, has, hbk, hak, hidx⟩ := hw
  refine ⟨?_, ?_, ?_, ?_, ?_⟩
  · rw [settleFront_bids]; rw [hb] at hbs; exact hbs
  · rw [settleFront_asks]; rw [ha] at has; exact has
  · rw [settleFront_bids]
    rw [hb] at hbk
    intro e he o ho
    rcases List.mem_cons.mp he with he | he
    · subst he
      have hb0 := hbk (bp, b0 :: bt) (List.mem_cons_self _ _)
      by_cases hf : (bidAfter b0 a0).isFilled = true
      · simp only [hf, if_true] at ho
        exact hb0 o (List.mem_cons_of_mem _ ho)
      · simp only [hf, if_false, Bool.false_eq_true] at ho
        rcases List.mem_cons.mp ho with ho | ho
        · subst ho; exact hb0 b0 (List.mem_cons_self _ _)
        · exact hb0 o (List.mem_cons_of_mem _ ho)
    · exact hbk e (List.mem_cons_of_mem _ he) o ho
  · rw [settleFront_asks]
    rw [ha] at hak
    intro e he o ho
    rcases List.mem_cons.mp he with he | he
    · subst he
      have ha0 := hak (ap, a0 :: at0) (List.mem_cons_self _ _)
      by_cases hf : (askAfter b0 a0).isFilled = true
      · simp only [hf, if_true] at ho
        exact ha0 o (List.mem_cons_of_mem _ ho)
      · simp only [hf, if_false, Bool.false_eq_true] at ho
        rcases List.mem_cons.mp ho with ho | ho
        · subst ho; exact ha0 a0 (List.mem_cons_self _ _)
        · exact ha0 o (List.mem_cons_of_mem _ ho)
    · exact hak e (List.mem_cons_of_mem _ he) o ho
  · unfold Orderbook.restingOrders at hidx ⊢
    rw [settleFront_bids, settleFront_asks, settleFront_orders, ladderOrders_cons,
      ladderOrders_cons]
    rw [hb, ha, ladderOrders_cons, ladderOrders_cons] at hidx
    have key := indexed_settle s._orders b0 a0 (bidAfter b0 a0) (askAfter b0 a0)
      (bt ++ ladderOrders bl) (at0 ++ ladderOrders al) rfl rfl
      (by simpa using hidx)
    by_cases hbf : (bidAfter b0 a0).isFilled = true <;>
    by_cases haf : (askAfter b0 a0).isFilled = true <;>
    simpa [hbf, haf] using key

theorem eraseKey_head_desc (bp : Price) (bucket : OrderPointers) (rest : Ladder)
    (h : (((bp, bucket) :: rest).map Prod.fst).Pairwise (fun a b => a > b)) :
    eraseKey bp rest = rest := by
  apply eraseKey_of_not_mem
  intro hm
  simp only [List.map_cons, List.pairwise_cons] at h
  exact lt_irrefl _ (h.1 bp hm)

theorem eraseKey_head_asc (ap : Price) (bucket : OrderPointers) (rest : Ladder)
    (h : (((ap, bucket) :: rest).map Prod.fst).Pairwise (fun a b => a < b)) :
    eraseKey ap rest = rest := by
  apply eraseKey_of_not_mem
  intro hm
  simp only [List.map_cons, List.pairwise_cons] at h
  exact lt_irrefl _ (h.1 ap hm)

theorem dropEmptyBid_bids_eq (s : Orderbook) (hw : s.WellFormed) (bp : Price) (rest : Ladder)
    (h : s._bids = (bp, []) :: rest) : (dropEmptyBid s)._bids = rest := by
  rw [dropEmptyBid_of_empty s bp rest h]
  exact eraseKey_head_desc bp [] rest (h ▸ hw.bidsSorted)

theorem dropEmptyAsk_asks_eq (s : Orderbook) (hw : s.WellFormed) (ap : Price) (rest : Ladder)
    (h : s._asks = (ap, []) :: rest) : (dropEmptyAsk s)._asks = rest := by
  rw [dropEmptyAsk_of_empty s ap rest h]
  exact eraseKey_head_asc ap [] rest (h ▸ hw.asksSorted)

theorem keyed_sublist (side : Side) (l1 l2 : Ladder) (h : l1.Sublist l2) (hk : keyed side l2) :
    keyed side l1 := fun e he => hk e (h.subset he)

theorem ladderOrders_dropEmptyBid (s : Orderbook) (hw : s.WellFormed) :
    ladderOrders (dropEmptyBid s)._bids = ladderOrders s._bids := by
  match h : s._bids with
  | [] => rw [dropEmptyBid_of_nil s h, h]
  | (bp, []) :: rest =>
    rw [dropEmptyBid_bids_eq s hw bp rest h, ladderOrders_cons]; rfl
  | (bp, b0 :: bt) :: rest => rw [dropEmptyBid_of_front s bp b0 bt rest h, h]

theorem ladderOrders_dropEmptyAsk (s : Orderbook) (hw : s.WellFormed) :
    ladderOrders (dropEmptyAsk s)._asks = ladderOrders s._asks := by
  match h : s._asks with
  | [] => rw [dropEmptyAsk_of_nil s h, h]
  | (ap, []) :: rest =>
    rw [dropEmptyAsk_asks_eq s hw ap rest h, ladderOrders_cons]; rfl
  | (ap, a0 :: at0) :: rest => rw [dropEmptyAsk_of_front s ap a0 at0 rest h, h]

theorem wellFormed_dropEmptyBid (s : Orderbook) (hw : s.WellFormed) :
    (dropEmptyBid s).WellFormed := by
  have hsub := dropEmptyBid_sublist s
  refine ⟨hw.bidsSorted.sublist (hsub.map Prod.fst), ?_, keyed_sublist _ _ _ hsub hw.bidsKeyed,
    ?_, ?_⟩
  · rw [dropEmptyBid_asks]; exact hw.asksSorted
  · rw [dropEmptyBid_asks]; exact hw.asksKeyed
  · unfold Orderbook.restingOrders
    rw [dropEmptyBid_asks, dropEmptyBid_orders, ladderOrders_dropEmptyBid s hw]
    exact hw.indexed

theorem wellFormed_dropEmptyAsk (s : Orderbook) (hw : s.WellFormed) :
    (dropEmptyAsk s).WellFormed := by
  have hsub := dropEmptyAsk_sublist s
  refine ⟨?_, hw.asksSorted.sublist (hsub.map Prod.fst), ?_,
    keyed_sublist _ _ _ hsub hw.asksKeyed, ?_⟩
  · rw [dropEmptyAsk_bids]; exact hw.bidsSorted
  · rw [dropEmptyAsk_bids]; exact hw.bidsKeyed
  · unfold Orderbook.restingOrders
    rw [dropEmptyAsk_bids, dropEmptyAsk_orders, ladderOrders_dropEmptyAsk s hw]
    exact hw.indexed

theorem wellFormed_matchInner (fuel : Nat) (s : Orderbook) (t : Trades)
    (r : Orderbook × Trades) (hw : s.WellFormed) (h : matchInner fuel s t = some r) :
    r.1.WellFormed :=
  (matchInner_induct (fun s1 _ => s1.WellFormed)
    (fun s1 _ bp b0 bt bl ap a0 at0 al hw1 hb ha =>
      wellFormed_settleFront s1 bp b0 bt bl ap a0 at0 al _ hw1 hb ha) fuel s t r hw h).1

/-- The outer loop keeps a book well formed and ends with the first bid price below the
first ask price, or with an empty ladder. -/
theorem wellFormed_matchLoop (fuel : Nat) (s : Orderbook) (t : Trades)
    (r : Orderbook × Trades) (hw : s.WellFormed) (h : matchLoop fuel s t = some r) :
    r.1.WellFormed ∧ r.1.quiet :=
  matchLoop_induct (fun s1 _ => s1.WellFormed)
    (fun s1 t1 r1 _ _ _ _ _ _ hw1 _ _ _ hi =>
      wellFormed_dropEmptyAsk _ (wellFormed_dropEmptyBid _
        (wellFormed_matchInner _ s1 t1 r1 hw1 hi))) fuel s t r hw h

/-- In a well-formed book the break condition of the outer loop means that no bid price
reaches an ask price. -/
theorem uncrossed_of_quiet (s : Orderbook) (hw : s.WellFormed) (hq : s.quiet) :
    s.uncrossed := by
  intro b hb a ha
  unfold Orderbook.quiet at hq
  have hbs := hw.bidsSorted
  have has := hw.asksSorted
  match hbids : s._bids, hasks : s._asks with
  | [], _ => rw [hbids] at hb; simp at hb
  | _ :: _, [] => rw [hasks] at ha; simp at ha
  | (bp, bb) :: bl, (ap, ab) :: al =>
    rw [hbids, hasks] at hq
    simp only at hq
    rw [hbids] at hb hbs
    rw [hasks] at ha has
    simp only [List.map_cons, List.pairwise_cons] at hbs has
    have h1 : b.1 ≤ bp := by
      rcases List.mem_cons.mp hb with hb | hb
      · subst hb; exact le_refl _
      · exact le_of_lt (hbs.1 b.1 (List.mem_map_of_mem Prod.fst hb))
    have h2 : ap ≤ a.1 := by
      rcases List.mem_cons.mp ha with ha | ha
      · subst ha; exact le_refl _
      · exact le_of_lt (has.1 a.1 (List.mem_map_of_mem Prod.fst ha))
    exact lt_of_le_of_lt h1 (lt_of_lt_of_le hq h2)

/-! ### Insertion into a ladder -/

theorem pushBack_keys_subset (before : Price → Price → Bool) (price : Price) (order : Order)
    (l : Ladder) : ∀ k ∈ (pushBack before price order l).map Prod.fst,
      k = price ∨ k ∈ l.map Prod.fst := by
  induction l with
  | nil => intro k hk; simp [pushBack] at hk; exact Or.inl hk
  | cons e rest ih =>
    obtain ⟨p, bucket⟩ := e
    intro k hk
    unfold pushBack at hk
    by_cases h1 : p = price
    · simp only [h1, if_true, List.map_cons, List.mem_cons] at hk ⊢
      rcases hk with hk | hk
      · exact Or.inl hk
      · exact Or.inr (Or.inr hk)
    · simp only [h1, if_false] at hk
      by_cases h2 : before price p = true
      · simp only [h2, if_true, List.map_cons, List.mem_cons] at hk ⊢
        rcases hk with hk | hk | hk
        · exact Or.inl hk
        · exact Or.inr (Or.inl hk)
        · exact Or.inr (Or.inr hk)
      · simp only [h2, if_false, List.map_cons, List.mem_cons, Bool.false_eq_true] at hk ⊢
        rcases hk with hk | hk
        · exact Or.inr (Or.inl hk)
        · rcases ih k hk with h | h
          · exact Or.inl h
          · exact Or.inr (Or.inr h)

theorem pushBack_sorted (before : Price → Price → Bool)
    (htrans : ∀ a b c, before a b = true → before b c = true → before a c = true)
    (htotal : ∀ a b, a ≠ b → before a b ≠ true → before b a = true)
    (price : Price) (order : Order) (l : Ladder)
    (h : (l.map Prod.fst).Pairwise (fun a b => before a b = true)) :
    ((pushBack before price order l).map Prod.fst).Pairwise (fun a b => before a b = true) := by
  induction l with
  | nil => simp [pushBack]
  | cons e rest ih =>
    obtain ⟨p, bucket⟩ := e
    simp only [List.map_cons, List.pairwise_cons] at h
    unfold pushBack
    by_cases h1 : p = price
    · simp only [h1, if_true, List.map_cons, List.pairwise_cons]
      subst h1
      exact h
    · simp only [h1, if_false]
      by_cases h2 : before price p = true
      · simp only [h2, if_true, List.map_cons, List.pairwise_cons, List.mem_cons]
        refine ⟨?_, h⟩
        rintro k (hk | hk)
        · rw [hk]; exact h2
        · exact htrans _ _ _ h2 (h.1 k hk)
      · simp only [h2, if_false, List.map_cons, List.pairwise_cons, Bool.false_eq_true]
        refine ⟨?_, ih h.2⟩
        intro k hk
        rcases pushBack_keys_subset before price order rest k hk with hk | hk
        · rw [hk]; exact htotal _ _ (fun h => h1 h.symm) h2
        · exact h.1 k hk

theorem pushBack_perm (before : Price → Price → Bool) (price : Price) (order : Order)
    (l : Ladder) : (ladderOrders (pushBack before price order l)).Perm (order :: ladderOrders l) := by
  induction l with
  | nil => simp [pushBack, ladderOrders]
  | cons e rest ih =>
    obtain ⟨p, bucket⟩ := e
    unfold pushBack
    by_cases h1 : p = price
    · simp only [h1, if_true, ladderOrders_cons]
      rw [List.append_assoc]
      exact @List.perm_middle _ order bucket (ladderOrders rest)
    · simp only [h1, if_false]
      by_cases h2 : before price p = true
      · simp only [h2, if_true, ladderOrders_cons]
        exact List.Perm.refl _
      · simp only [h2, if_false, ladderOrders_cons, Bool.false_eq_true]
        exact ((List.Perm.append_left bucket ih).trans List.perm_middle)

theorem pushBack_keyed (before : Price → Price → Bool) (side : Side) (order : Order)
    (l : Ladder) (hk : keyed side l) (hs : order._side = side) :
    keyed side (pushBack before order._price order l) := by
  induction l with
  | nil =>
    intro e he o ho
    simp [pushBack] at he
    subst he
    simp at ho
    subst ho
    exact ⟨rfl, hs⟩
  | cons e rest ih =>
    obtain ⟨p, bucket⟩ := e
    have hrest : keyed side rest := fun e he => hk e (List.mem_cons_of_mem _ he)
    have hhead := hk (p, bucket) (List.mem_cons_self _ _)
    unfold pushBack
    by_cases h1 : p = order._price
    · simp only [h1, if_true]
      intro e he o ho
      rcases List.mem_cons.mp he with he | he
      · subst he
        rcases List.mem_append.mp ho with ho | ho
        · have := hhead o ho
          exact ⟨this.1.trans h1, this.2⟩
        · simp at ho; subst ho; exact ⟨rfl, hs⟩
      · exact hrest e he o ho
    · simp only [h1, if_false]
      by_cases h2 : before order._price p = true
      · simp only [h2, if_true]
        intro e he o ho
        rcases List.mem_cons.mp he with he | he
        · subst he; simp at ho; subst ho; exact ⟨rfl, hs⟩
        · exact hk e he o ho
      · simp only [h2, if_false, Bool.false_eq_true]
        intro e he o ho
        rcases List.mem_cons.mp he with he | he
        · subst he; exact hhead o ho
        · exact ih hrest e he o ho

theorem bidBefore_trans (a b c : Price) (h1 : bidBefore a b = true) (h2 : bidBefore b c = true) :
    bidBefore a c = true := by
  simp only [bidBefore, decide_eq_true_eq] at *
  exact lt_trans h2 h1

theorem bidBefore_total (a b : Price) (h1 : a ≠ b) (h2 : bidBefore a b ≠ true) :
    bidBefore b a = true := by
  simp only [bidBefore, decide_eq_true_eq, ne_eq, not_lt, gt_iff_lt] at *
  exact lt_of_le_of_ne h2 h1

theorem askBefore_trans (a b c : Price) (h1 : askBefore a b = true) (h2 : askBefore b c = true) :
    askBefore a c = true := by
  simp only [askBefore, decide_eq_true_eq] at *
  exact lt_trans h1 h2

theorem askBefore_total (a b : Price) (h1 : a ≠ b) (h2 : askBefore a b ≠ true) :
    askBefore b a = true := by
  simp only [askBefore, decide_eq_true_eq, ne_eq, not_lt] at *
  exact lt_of_le_of_ne h2 (fun h => h1 h.symm)

theorem pushBack_bids_sorted (price : Price) (order : Order) (l : Ladder)
    (h : (l.map Prod.fst).Pairwise (fun a b => a > b)) :
    ((pushBack bidBefore price order l).map Prod.fst).Pairwise (fun a b => a > b) := by
  have := pushBack_sorted bidBefore bidBefore_trans bidBefore_total price order l
    (by simpa [bidBefore] using h)
  simpa [bidBefore] using this

theorem pushBack_asks_sorted (price : Price) (order : Order) (l : Ladder)
    (h : (l.map Prod.fst).Pairwise (fun a b => a < b)) :
    ((pushBack askBefore price order l).map Prod.fst).Pairwise (fun a b => a < b) := by
  have := pushBack_sorted askBefore askBefore_trans askBefore_total price order l
    (by simpa [askBefore] using h)
  simpa [askBefore] using this

theorem insertOrder_bids (s : Orderbook) (order : Order) :
    (insertOrder s order)._bids =
      if order._side = Side.BUY then pushBack bidBefore order._price order s._bids
      else s._bids := by
  unfold insertOrder onOrderAdded
  by_cases h : order._side = Side.BUY <;> simp [h]

theorem insertOrder_asks (s : Orderbook) (order : Order) :
    (insertOrder s order)._asks =
      if order._side = Side.BUY then s._asks
      else pushBack askBefore order._price order s._asks := by
  unfold insertOrder onOrderAdded
  by_cases h : order._side = Side.BUY <;> simp [h]

theorem insertOrder_orders (s : Orderbook) (order : Order)
    (hf : findKey order._orderId s._orders = none) :
    (insertOrder s order)._orders = s._orders ++ [(order._orderId, order)] := by
  unfold insertOrder onOrderAdded
  by_cases h : order._side = Side.BUY <;> simp [h, hf]

theorem insertOrder_mutex (s : Orderbook) (order : Order) :
    (insertOrder s order)._ordersMutex = s._ordersMutex := by
  unfold insertOrder onOrderAdded
  by_cases h : order._side = Side.BUY <;> simp [h]

theorem side_sell_of_ne_buy (side : Side) (h : side ≠ Side.BUY) : side = Side.SELL := by
  cases side
  · exact absurd rfl h
  · rfl

/-- Inserting an order whose id is not in the index keeps a book well formed. -/
theorem wellFormed_insertOrder (s : Orderbook) (order : Order) (hw : s.WellFormed)
    (hf : findKey order._orderId s._orders = none) : (insertOrder s order).WellFormed := by
  obtain ⟨hbs, has, hbk, hak, hidx⟩ := hw
  by_cases h : order._side = Side.BUY
  · refine ⟨?_, ?_, ?_, ?_, ?_⟩
    · rw [insertOrder_bids, if_pos h]; exact pushBack_bids_sorted _ _ _ hbs
    · rw [insertOrder_asks, if_pos h]; exact has
    · rw [insertOrder_bids, if_pos h]; exact pushBack_keyed _ _ _ _ hbk h
    · rw [insertOrder_asks, if_pos h]; exact hak
    · unfold Orderbook.restingOrders
      rw [insertOrder_bids, insertOrder_asks, insertOrder_orders s order hf, if_pos h, if_pos h]
      exact (hidx.insert hf).perm
        ((pushBack_perm bidBefore order._price order s._bids).symm.append_right _)
  · have hs := side_sell_of_ne_buy _ h
    refine ⟨?_, ?_, ?_, ?_, ?_⟩
    · rw [insertOrder_bids, if_neg h]; exact hbs
    · rw [insertOrder_asks, if_neg h]; exact pushBack_asks_sorted _ _ _ has
    · rw [insertOrder_bids, if_neg h]; exact hbk
    · rw [insertOrder_asks, if_neg h]; exact pushBack_keyed _ _ _ _ hak hs
    · unfold Orderbook.restingOrders
      rw [insertOrder_bids, insertOrder_asks, insertOrder_orders s order hf, if_neg h, if_neg h]
      refine (hidx.insert hf).perm ?_
      refine List.Perm.trans ?_
        ((pushBack_perm askBefore order._price order s._asks).symm.append_left _)
      exact List.perm_middle.symm

/-! ### Removal from a ladder -/

theorem findKey_split {α β : Type} [DecidableEq α] (k : α) (v : β) (m : List (α × β))
    (h : findKey k m = some v) :
    ∃ m1 m2, m = m1 ++ (k, v) :: m2 ∧ k ∉ m1.map Prod.fst := by
  induction m with
  | nil => simp [findKey] at h
  | cons e rest ih =>
    unfold findKey at h
    by_cases hk : e.1 = k
    · simp only [hk, if_true, Option.some.injEq] at h
      refine ⟨[], rest, ?_, by simp⟩
      simp only [List.nil_append, List.cons.injEq, and_true]
      exact Prod.ext hk h
    · simp only [hk, if_false] at h
      obtain ⟨m1, m2, hm, hn⟩ := ih h
      refine ⟨e :: m1, m2, by rw [hm]; rfl, ?_⟩
      simp only [List.map_cons, List.mem_cons, not_or]
      exact ⟨fun h => hk h.symm, hn⟩

theorem setKey_of_not_mem {α β : Type} [DecidableEq α] (k : α) (v : β) (m : List (α × β))
    (h : k ∉ m.map Prod.fst) : setKey k v m = m := by
  unfold setKey
  conv_rhs => rw [← List.map_id m]
  apply List.map_congr_left
  intro e he
  have : e.1 ≠ k := fun hk => h (hk ▸ List.mem_map_of_mem Prod.fst he)
  simp [this]

theorem setKey_split {α β : Type} [DecidableEq α] (k : α) (v0 v : β) (m1 m2 : List (α × β))
    (h1 : k ∉ m1.map Prod.fst) (h2 : k ∉ m2.map Prod.fst) :
    setKey k v (m1 ++ (k, v0) :: m2) = m1 ++ (k, v) :: m2 := by
  have e1 := setKey_of_not_mem k v m1 h1
  have e2 := setKey_of_not_mem k v m2 h2
  unfold setKey at *
  rw [List.map_append, List.map_cons, e1, e2]
  simp

theorem eraseKey_split {α β : Type} [DecidableEq α] (k : α) (v0 : β) (m1 m2 : List (α × β))
    (h1 : k ∉ m1.map Prod.fst) (h2 : k ∉ m2.map Prod.fst) :
    eraseKey k (m1 ++ (k, v0) :: m2) = m1 ++ m2 := by
  have e1 := eraseKey_of_not_mem k m1 h1
  have e2 := eraseKey_of_not_mem k m2 h2
  unfold eraseKey at *
  rw [List.filter_append, List.filter_cons, e1, e2]
  simp

theorem eraseNode_split (orderId : OrderId) (bucket : OrderPointers)
    (h : bucket.any (fun o => decide (o._orderId = orderId)) = true) :
    ∃ front x back, bucket = front ++ x :: back ∧ x._orderId = orderId ∧
      (∀ o ∈ front, o._orderId ≠ orderId) ∧ eraseNode orderId bucket = front ++ back := by
  induction bucket with
  | nil => simp at h
  | cons o rest ih =>
    unfold eraseNode
    by_cases ho : o._orderId = orderId
    · exact ⟨[], o, rest, rfl, ho, by simp, by simp [ho]⟩
    · simp only [List.any_cons, ho, decide_False, Bool.false_or] at h
      obtain ⟨front, x, back, hb, hx, hfr, he⟩ := ih h
      refine ⟨o :: front, x, back, by rw [hb]; rfl, hx, ?_, by simp [ho, he]⟩
      intro o1 ho1
      rcases List.mem_cons.mp ho1 with ho1 | ho1
      · subst ho1; exact ho
      · exact hfr o1 ho1

/-- What `removeFromLadder` does to a ladder without repeated prices: one order leaves its
bucket, and the bucket leaves the ladder if it was the only one. -/
theorem removeFromLadder_spec (ladder ladder1 : Ladder) (price : Price) (orderId : OrderId)
    (hn : (ladder.map Prod.fst).Nodup)
    (h : removeFromLadder ladder price orderId = some ladder1) :
    ∃ L1 L2 front x back,
      ladder = L1 ++ (price, front ++ x :: back) :: L2 ∧ x._orderId = orderId ∧
      (∀ o ∈ front, o._orderId ≠ orderId) ∧
      ((front ++ back = [] ∧ ladder1 = L1 ++ L2) ∨
       (front ++ back ≠ [] ∧ ladder1 = L1 ++ (price, front ++ back) :: L2)) := by
  unfold removeFromLadder at h
  cases hf : findKey price ladder with
  | none => simp [hf] at h
  | some bucket =>
    simp only [hf] at h
    by_cases hany : bucket.any (fun o => decide (o._orderId = orderId)) = true
    · simp only [hany, if_true] at h
      obtain ⟨L1, L2, hl, hn1⟩ := findKey_split price bucket ladder hf
      obtain ⟨front, x, back, hb, hx, hfr, he⟩ := eraseNode_split orderId bucket hany
      have hn2 : price ∉ L2.map Prod.fst := by
        rw [hl, List.map_append, List.map_cons, List.nodup_append] at hn
        exact (List.nodup_cons.mp hn.2.1).1
      refine ⟨L1, L2, front, x, back, by rw [hl, hb], hx, hfr, ?_⟩
      rw [he] at h
      by_cases hemp : front ++ back = []
      · left
        simp only [hemp, List.isEmpty_nil, if_true, Option.some.injEq] at h
        rw [← h, hl, eraseKey_split price bucket L1 L2 hn1 hn2]
        exact ⟨hemp, rfl⟩
      · right
        have : (front ++ back).isEmpty = false := by
          cases hfb : front ++ back with
          | nil => exact absurd hfb hemp
          | cons _ _ => rfl
        simp only [this, if_false, Option.some.injEq, Bool.false_eq_true] at h
        rw [← h, hl, setKey_split price bucket (front ++ back) L1 L2 hn1 hn2]
        exact ⟨hemp, rfl⟩
    · simp [hany] at h

theorem ladderOrders_append (l1 l2 : Ladder) :
    ladderOrders (l1 ++ l2) = ladderOrders l1 ++ ladderOrders l2 := by
  simp [ladderOrders]

theorem nodup_of_desc (l : List Price) (h : l.Pairwise (fun a b => a > b)) : l.Nodup :=
  h.imp (fun hab => ne_of_gt hab)

theorem nodup_of_asc (l : List Price) (h : l.Pairwise (fun a b => a < b)) : l.Nodup :=
  h.imp (fun hab => ne_of_lt hab)

/-- Consequences of `removeFromLadder_spec` used by the invariants: the prices of the result
are a sublist, its buckets are parts of old buckets, and its orders are the old ones minus
one order with the given id. -/
theorem removeFromLadder_facts (ladder ladder1 : Ladder) (price : Price) (orderId : OrderId)
    (hn : (ladder.map Prod.fst).Nodup)
    (h : removeFromLadder ladder price orderId = some ladder1) :
    (ladder1.map Prod.fst).Sublist (ladder.map Prod.fst) ∧
    (∀ e ∈ ladder1, ∃ e0 ∈ ladder, e0.1 = e.1 ∧ e.2.Sublist e0.2) ∧
    (∃ x, x._orderId = orderId ∧ (ladderOrders ladder).Perm (x :: ladderOrders ladder1)) ∧
    (ladderOrders ladder1).Sublist (ladderOrders ladder) := by
  obtain ⟨L1, L2, front, x, back, hl, hx, _, hcase⟩ :=
    removeFromLadder_spec ladder ladder1 price orderId hn h
  have hsubb : (front ++ back).Sublist (front ++ x :: back) :=
    List.Sublist.append_left (List.sublist_cons_self x back) front
  rcases hcase with ⟨hemp, hl1⟩ | ⟨_, hl1⟩
  · refine ⟨?_, ?_, ⟨x, hx, ?_⟩, ?_⟩
    · rw [hl, hl1]
      exact (List.Sublist.append_left (List.sublist_cons_self _ _) L1).map Prod.fst
    · intro e he
      refine ⟨e, ?_, rfl, List.Sublist.refl _⟩
      rw [hl]; rw [hl1] at he
      rcases List.mem_append.mp he with he | he
      · exact List.mem_append_left _ he
      · exact List.mem_append_right _ (List.mem_cons_of_mem _ he)
    · have hf : front = [] := (List.append_eq_nil.mp hemp).1
      have hb : back = [] := (List.append_eq_nil.mp hemp).2
      rw [hl, hl1, ladderOrders_append, ladderOrders_append, ladderOrders_cons, hf, hb]
      simp only [List.nil_append]
      exact List.perm_middle
    · rw [hl, hl1, ladderOrders_append, ladderOrders_append, ladderOrders_cons]
      exact List.Sublist.append_left (List.sublist_append_right _ _) _
  · refine ⟨?_, ?_, ⟨x, hx, ?_⟩, ?_⟩
    · rw [hl, hl1]; simp
    · intro e he
      rw [hl1] at he
      rcases List.mem_append.mp he with he | he
      · exact ⟨e, by rw [hl]; exact List.mem_append_left _ he, rfl, List.Sublist.refl _⟩
      · rcases List.mem_cons.mp he with he | he
        · subst he
          exact ⟨(price, front ++ x :: back),
            by rw [hl]; exact List.mem_append_right _ (List.mem_cons_self _ _), rfl, hsubb⟩
        · exact ⟨e, by rw [hl]; exact List.mem_append_right _ (List.mem_cons_of_mem _ he),
            rfl, List.Sublist.refl _⟩
    · rw [hl, hl1, ladderOrders_append, ladderOrders_append, ladderOrders_cons,
        ladderOrders_cons]
      have : (ladderOrders L1 ++ ((front ++ x :: back) ++ ladderOrders L2)) =
          (ladderOrders L1 ++ front) ++ x :: (back ++ ladderOrders L2) := by simp
      rw [this]
      refine List.perm_middle.trans ?_
      simp
    · rw [hl, hl1, ladderOrders_append, ladderOrders_append, ladderOrders_cons,
        ladderOrders_cons]
      exact List.Sublist.append_left (List.Sublist.append_right hsubb _) _

theorem keyed_of_parts (side : Side) (l l1 : Ladder) (hk : keyed side l)
    (h : ∀ e ∈ l1, ∃ e0 ∈ l, e0.1 = e.1 ∧ e.2.Sublist e0.2) : keyed side l1 := by
  intro e he o ho
  obtain ⟨e0, he0, hp, hs⟩ := h e he
  rw [← hp]
  exact hk e0 he0 o (hs.subset ho)

theorem cancelOrderInternal_fields (s s1 : Orderbook) (orderId : OrderId)
    (h : cancelOrderInternal s orderId = some s1) :
    s1 = s ∨
    (∃ order, findKey orderId s._orders = some order ∧
      s1._orders = eraseKey orderId s._orders ∧ s1._ordersMutex = s._ordersMutex ∧
      s1._data = updateLevelData s._data order._price order._remainingQuantity
        LevelData.Action.REMOVE ∧
      ((order._side = Side.SELL ∧ s1._bids = s._bids ∧
          removeFromLadder s._asks order._price orderId = some s1._asks) ∨
       (order._side ≠ Side.SELL ∧ s1._asks = s._asks ∧
          removeFromLadder s._bids order._price orderId = some s1._bids))) := by
  unfold cancelOrderInternal at h
  cases hf : findKey orderId s._orders with
  | none =>
    simp only [hf, Option.some.injEq] at h
    exact Or.inl h.symm
  | some order =>
    simp only [hf] at h
    right
    refine ⟨order, rfl, ?_⟩
    by_cases hside : order._side = Side.SELL
    · simp only [hside, if_true] at h
      cases hr : removeFromLadder s._asks order._price orderId with
      | none => simp [hr] at h
      | some asks1 =>
        simp only [hr, Option.map_some', Option.some.injEq] at h
        subst h
        refine ⟨?_, ?_, ?_, Or.inl ⟨hside, ?_, ?_⟩⟩
        · simp only [onOrderCancelled]
        · simp only [onOrderCancelled]
        · simp only [onOrderCancelled]
        · simp only [onOrderCancelled]
        · simp only [onOrderCancelled]
    · simp only [hside, if_false] at h
      cases hr : removeFromLadder s._bids order._price orderId with
      | none => simp [hr] at h
      | some bids1 =>
        simp only [hr, Option.map_some', Option.some.injEq] at h
        subst h
        refine ⟨?_, ?_, ?_, Or.inr ⟨hside, ?_, ?_⟩⟩
        · simp only [onOrderCancelled]
        · simp only [onOrderCancelled]
        · simp only [onOrderCancelled]
        · simp only [onOrderCancelled]
        · simp only [onOrderCancelled]

/-- What `cancelOrderInternal` keeps and what it may change. -/
theorem cancelOrderInternal_facts (s s1 : Orderbook) (orderId : OrderId) (hw : s.WellFormed)
    (h : cancelOrderInternal s orderId = some s1) :
    s1.WellFormed ∧ s1._ordersMutex = s._ordersMutex ∧
    (s1._bids.map Prod.fst).Sublist (s._bids.map Prod.fst) ∧
    (s1._asks.map Prod.fst).Sublist (s._asks.map Prod.fst) ∧
    (∀ e ∈ s1._bids ++ s1._asks, ∃ e0 ∈ s._bids ++ s._asks, e0.1 = e.1 ∧ e.2.Sublist e0.2) ∧
    (ladderOrders s1._bids).Sublist (ladderOrders s._bids) ∧
    (ladderOrders s1._asks).Sublist (ladderOrders s._asks) := by
  rcases cancelOrderInternal_fields s s1 orderId h with h | ⟨order, hf, ho, hm, _, hcase⟩
  · subst h
    exact ⟨hw, rfl, List.Sublist.refl _, List.Sublist.refl _,
      fun e he => ⟨e, he, rfl, List.Sublist.refl _⟩, List.Sublist.refl _, List.Sublist.refl _⟩
  · obtain ⟨hbs, has, hbk, hak, hidx⟩ := hw
    unfold Orderbook.restingOrders at hidx
    rcases hcase with ⟨_, hb, hr⟩ | ⟨_, ha, hr⟩
    · obtain ⟨h1, h2, ⟨x, hx, hperm⟩, h4⟩ :=
        removeFromLadder_facts s._asks s1._asks order._price orderId (nodup_of_asc _ has) hr
      refine ⟨⟨?_, has.sublist h1, ?_, keyed_of_parts _ _ _ hak h2, ?_⟩, hm,
          ?_, h1, ?_, ?_, h4⟩
      · rw [hb]; exact hbs
      · rw [hb]; exact hbk
      · unfold Orderbook.restingOrders
        rw [hb, ho]
        have hp : (ladderOrders s._bids ++ ladderOrders s._asks).Perm
            (x :: (ladderOrders s._bids ++ ladderOrders s1._asks)) :=
          (List.Perm.append_left _ hperm).trans List.perm_middle
        have := (hidx.perm hp).remove
        rwa [hx] at this
      · rw [hb]
      · intro e he
        rw [hb] at he
        rcases List.mem_append.mp he with he | he
        · exact ⟨e, List.mem_append_left _ he, rfl, List.Sublist.refl _⟩
        · obtain ⟨e0, he0, hh⟩ := h2 e he
          exact ⟨e0, List.mem_append_right _ he0, hh⟩
      · rw [hb]
    · obtain ⟨h1, h2, ⟨x, hx, hperm⟩, h4⟩ :=
        removeFromLadder_facts s._bids s1._bids order._price orderId (nodup_of_desc _ hbs) hr
      refine ⟨⟨hbs.sublist h1, ?_, keyed_of_parts _ _ _ hbk h2, ?_, ?_⟩, hm,
          h1, ?_, ?_, h4, ?_⟩
      · rw [ha]; exact has
      · rw [ha]; exact hak
      · unfold Orderbook.restingOrders
        rw [ha, ho]
        have hp : (ladderOrders s._bids ++ ladderOrders s._asks).Perm
            (x :: (ladderOrders s1._bids ++ ladderOrders s._asks)) :=
          List.Perm.append_right _ hperm
        have := (hidx.perm hp).remove
        rwa [hx] at this
      · rw [ha]
      · intro e he
        rw [ha] at he
        rcases List.mem_append.mp he with he | he
        · obtain ⟨e0, he0, hh⟩ := h2 e he
          exact ⟨e0, List.mem_append_left _ he0, hh⟩
        · exact ⟨e, List.mem_append_right _ he, rfl, List.Sublist.refl _⟩
      · rw [ha]

/-! ### The operations keep the book well formed and uncrossed -/

theorem wellFormed_congr (s s1 : Orderbook) (hb : s1._bids = s._bids) (ha : s1._asks = s._asks)
    (ho : s1._orders = s._orders) (hw : s.WellFormed) : s1.WellFormed := by
  obtain ⟨h1, h2, h3, h4, h5⟩ := hw
  unfold Orderbook.restingOrders at h5
  refine ⟨?_, ?_, ?_, ?_, ?_⟩
  · rw [hb]; exact h1
  · rw [ha]; exact h2
  · rw [hb]; exact h3
  · rw [ha]; exact h4
  · unfold Orderbook.restingOrders; rw [hb, ha, ho]; exact h5

theorem uncrossed_congr (s s1 : Orderbook) (hb : s1._bids = s._bids) (ha : s1._asks = s._asks)
    (hu : s.uncrossed) : s1.uncrossed := by
  unfold Orderbook.uncrossed at *
  rw [hb, ha]; exact hu

theorem matchInner_mutex (fuel : Nat) (s : Orderbook) (t : Trades) (r : Orderbook × Trades)
    (h : matchInner fuel s t = some r) : r.1._ordersMutex = s._ordersMutex :=
  (matchInner_induct (fun s1 _ => s1._ordersMutex = s._ordersMutex)
    (fun s1 _ bp b0 bt bl ap a0 at0 al h1 _ _ => by
      show (settleFront _ _ _ _ _ _ _ _ _ _)._ordersMutex = _
      rw [settleFront_mutex]; exact h1)
    fuel s t r rfl h).1

theorem matchLoop_mutex (fuel : Nat) (s : Orderbook) (t : Trades) (r : Orderbook × Trades)
    (h : matchLoop fuel s t = some r) : r.1._ordersMutex = s._ordersMutex :=
  (matchLoop_induct (fun s1 _ => s1._ordersMutex = s._ordersMutex)
    (fun s1 t1 r1 _ _ _ _ _ _ h1 _ _ _ hi => by
      show (dropEmptyAsk (dropEmptyBid r1.1))._ordersMutex = _
      rw [dropEmptyAsk_mutex, dropEmptyBid_mutex, matchInner_mutex _ s1 t1 r1 hi]; exact h1)
    fuel s t r rfl h).1

theorem cancelOrder_locked (s : Orderbook) (orderId : OrderId) (h : s._ordersMutex = true) :
    cancelOrder s orderId = none := by
  unfold cancelOrder withLock
  simp [h]

/-- Under the lock of `addOrder` the FILLANDKILL check either finds no such order at the
front, and changes nothing, or has no result. -/
theorem killFront_locked (s s1 : Orderbook) (ladder : Ladder) (hm : s._ordersMutex = true)
    (h : killFront s ladder = some s1) :
    s1 = s ∧ (ladder = [] ∨ ∃ p o rest more, ladder = (p, o :: rest) :: more ∧
      o._orderType ≠ OrderType.FILLANDKILL) := by
  unfold killFront at h
  split at h
  · simp only [Option.some.injEq] at h
    exact ⟨h.symm, Or.inl rfl⟩
  · simp at h
  · next p o rest more =>
    by_cases ht : o._orderType = OrderType.FILLANDKILL
    · simp [ht, cancelOrder_locked s _ hm] at h
    · simp only [ht, if_false, Option.some.injEq] at h
      exact ⟨h.symm, Or.inr ⟨p, o, rest, more, rfl, ht⟩⟩

/-- Under the lock, a `matchOrders` that returns is its loop: the clean-up changed nothing. -/
theorem matchOrders_locked (s s1 : Orderbook) (t : Trades) (hm : s._ordersMutex = true)
    (h : matchOrders s = some (t, s1)) :
    matchLoop (s._bids.length + s._asks.length + 1) s [] = some (s1, t) ∧
    killFront s1 s1._bids = some s1 ∧ killFront s1 s1._asks = some s1 := by
  unfold matchOrders at h
  cases hl : matchLoop (s._bids.length + s._asks.length + 1) s [] with
  | none => simp [hl] at h
  | some r =>
    simp only [hl, Option.some_bind] at h
    have hmr : r.1._ordersMutex = true := (matchLoop_mutex _ _ _ _ hl).trans hm
    cases hk1 : killFront r.1 r.1._bids with
    | none => simp [hk1] at h
    | some s2 =>
      simp only [hk1, Option.some_bind] at h
      have e2 := (killFront_locked r.1 s2 _ hmr hk1).1
      subst e2
      cases hk2 : killFront r.1 r.1._asks with
      | none => simp [hk2] at h
      | some s3 =>
        simp only [hk2, Option.map_some', Option.some.injEq, Prod.mk.injEq] at h
        have e3 := (killFront_locked r.1 s3 _ hmr hk2).1
        subst e3
        obtain ⟨h1, h2⟩ := h
        subst h1; subst h2
        exact ⟨rfl, hk1, hk2⟩

theorem matchOrders_invariant (s s1 : Orderbook) (t : Trades) (hm : s._ordersMutex = true)
    (hw : s.WellFormed) (h : matchOrders s = some (t, s1)) :
    s1.WellFormed ∧ s1.uncrossed ∧ s1._ordersMutex = true := by
  obtain ⟨hl, _, _⟩ := matchOrders_locked s s1 t hm h
  obtain ⟨hw1, hq⟩ := wellFormed_matchLoop _ s [] (s1, t) hw hl
  exact ⟨hw1, uncrossed_of_quiet s1 hw1 hq, (matchLoop_mutex _ _ _ _ hl).trans hm⟩

theorem admitOrder_invariant (s s1 : Orderbook) (order : Order) (t : Trades)
    (hm : s._ordersMutex = true) (hw : s.WellFormed) (hu : s.uncrossed)
    (hf : findKey order._orderId s._orders = none)
    (h : admitOrder s order = some (t, s1)) :
    s1.WellFormed ∧ s1.uncrossed ∧ s1._ordersMutex = true := by
  unfold admitOrder at h
  split at h
  · simp only [Option.some.injEq, Prod.mk.injEq] at h
    obtain ⟨_, h⟩ := h; subst h
    exact ⟨hw, hu, hm⟩
  · split at h
    · simp only [Option.some.injEq, Prod.mk.injEq] at h
      obtain ⟨_, h⟩ := h; subst h
      exact ⟨hw, hu, hm⟩
    · exact matchOrders_invariant _ s1 t ((insertOrder_mutex s order).trans hm)
        (wellFormed_insertOrder s order hw hf) h

theorem toGoodTillCancel_id (order order1 : Order) (price : Price)
    (h : order.toGoodTillCancel price = some order1) :
    order1 = { order with _price := price, _orderType := OrderType.GOODTILLCANCEL } ∧
    order._orderType = OrderType.MARKET := by
  unfold Order.toGoodTillCancel at h
  by_cases ht : order._orderType = OrderType.MARKET
  · simp only [ht, ne_eq, not_true_eq_false, if_false, Option.some.injEq] at h
    exact ⟨h.symm, ht⟩
  · simp [ht] at h

theorem convertMarket_some (s : Orderbook) (order order1 : Order)
    (h : convertMarket s order = some (some order1)) :
    ∃ price, order1 = { order with _price := price, _orderType := OrderType.GOODTILLCANCEL } ∧
      ((order._side = Side.BUY ∧ ∃ bucket, s._asks.getLast? = some (price, bucket)) ∨
       (order._side = Side.SELL ∧ ∃ bucket, s._bids.getLast? = some (price, bucket))) := by
  unfold convertMarket at h
  by_cases h1 : order._side = Side.BUY ∧ s._asks ≠ []
  · rw [if_pos h1] at h
    cases hl : s._asks.getLast? with
    | none => simp [hl] at h
    | some e =>
      obtain ⟨worstAsk, bucket⟩ := e
      simp only [hl, Option.some.injEq] at h
      exact ⟨worstAsk, (toGoodTillCancel_id _ _ _ h).1, Or.inl ⟨h1.1, bucket, rfl⟩⟩
  · rw [if_neg h1] at h
    by_cases h2 : order._side = Side.SELL ∧ s._bids ≠ []
    · rw [if_pos h2] at h
      cases hl : s._bids.getLast? with
      | none => simp [hl] at h
      | some e =>
        obtain ⟨worstBid, bucket⟩ := e
        simp only [hl, Option.some.injEq] at h
        exact ⟨worstBid, (toGoodTillCancel_id _ _ _ h).1, Or.inr ⟨h2.1, bucket, rfl⟩⟩
    · rw [if_neg h2] at h
      simp at h

theorem addOrderLocked_invariant (s s1 : Orderbook) (order : Order) (t : Trades)
    (hm : s._ordersMutex = true) (hw : s.WellFormed) (hu : s.uncrossed)
    (h : addOrderLocked s order = some (t, s1)) :
    s1.WellFormed ∧ s1.uncrossed ∧ s1._ordersMutex = true := by
  unfold addOrderLocked at h
  cases hf : findKey order._orderId s._orders with
  | some o =>
    simp only [hf, Option.some.injEq, Prod.mk.injEq] at h
    obtain ⟨_, h⟩ := h; subst h
    exact ⟨hw, hu, hm⟩
  | none =>
    simp only [hf] at h
    by_cases ht : order._orderType = OrderType.MARKET
    · simp only [ht, if_true] at h
      cases hc : convertMarket s order with
      | none =>
        simp only [hc, Option.some.injEq, Prod.mk.injEq] at h
        obtain ⟨_, h⟩ := h; subst h
        exact ⟨hw, hu, hm⟩
      | some oo =>
        cases oo with
        | none => simp [hc] at h
        | some order1 =>
          simp only [hc] at h
          obtain ⟨price, ho, _⟩ := convertMarket_some s order order1 hc
          have hid : order1._orderId = order._orderId := by rw [ho]
          exact admitOrder_invariant s s1 order1 t hm hw hu (by rw [hid]; exact hf) h
    · simp only [ht, if_false] at h
      exact admitOrder_invariant s s1 order t hm hw hu hf h

theorem withLock_some {α : Type} (s : Orderbook) (body : Orderbook → Option (α × Orderbook))
    (r : α × Orderbook) (h : withLock s body = some r) :
    s._ordersMutex = false ∧
    ∃ s2, body { s with _ordersMutex := true } = some (r.1, s2) ∧
      r.2 = { s2 with _ordersMutex := false } := by
  unfold withLock at h
  by_cases hm : s._ordersMutex = true
  · simp [hm] at h
  · simp only [hm, if_false, Bool.false_eq_true] at h
    cases hb : body { s with _ordersMutex := true } with
    | none => simp [hb] at h
    | some r2 =>
      simp only [hb, Option.map_some', Option.some.injEq] at h
      refine ⟨by simpa using hm, r2.2, ?_, ?_⟩
      · rw [← h]
      · rw [← h]

/-- The book invariant of this section: well formed, uncrossed and unlocked. -/
theorem addOrder_invariant (s s1 : Orderbook) (order : Order) (t : Trades)
    (hw : s.WellFormed) (hu : s.uncrossed) (h : addOrder s order = some (t, s1)) :
    s1.WellFormed ∧ s1.uncrossed ∧ s1._ordersMutex = false := by
  obtain ⟨_, s2, hb, hs⟩ := withLock_some s _ (t, s1) h
  have := addOrderLocked_invariant { s with _ordersMutex := true } s2 order t rfl
    (wellFormed_congr s _ rfl rfl rfl hw) (uncrossed_congr s _ rfl rfl hu) hb
  simp only at hs
  subst hs
  exact ⟨wellFormed_congr s2 _ rfl rfl rfl this.1, uncrossed_congr s2 _ rfl rfl this.2.1, rfl⟩

theorem uncrossed_of_sublists (s s1 : Orderbook)
    (hb : (s1._bids.map Prod.fst).Sublist (s._bids.map Prod.fst))
    (ha : (s1._asks.map Prod.fst).Sublist (s._asks.map Prod.fst))
    (hu : s.uncrossed) : s1.uncrossed := by
  intro b hb1 a ha1
  obtain ⟨b0, hb0, hbe⟩ := List.mem_map.mp (hb.subset (List.mem_map_of_mem Prod.fst hb1))
  obtain ⟨a0, ha0, hae⟩ := List.mem_map.mp (ha.subset (List.mem_map_of_mem Prod.fst ha1))
  rw [← hbe, ← hae]
  exact hu b0 hb0 a0 ha0

theorem cancelOrder_some (s s1 : Orderbook) (orderId : OrderId)
    (h : cancelOrder s orderId = some s1) :
    s._ordersMutex = false ∧
    ∃ s2, cancelOrderInternal { s with _ordersMutex := true } orderId = some s2 ∧
      s1 = { s2 with _ordersMutex := false } := by
  unfold cancelOrder at h
  cases hl : withLock s (fun s1 => (cancelOrderInternal s1 orderId).map (fun s2 => ((), s2))) with
  | none => simp [hl] at h
  | some r =>
    simp only [hl, Option.map_some', Option.some.injEq] at h
    obtain ⟨hm, s2, hb, hs⟩ := withLock_some s _ r hl
    refine ⟨hm, s2, ?_, by rw [← h, hs]⟩
    cases hc : cancelOrderInternal { s with _ordersMutex := true } orderId with
    | none => simp [hc] at hb
    | some s3 =>
      simp only [hc, Option.map_some', Option.some.injEq, Prod.mk.injEq, true_and] at hb
      rw [hb]

theorem cancelOrder_invariant (s s1 : Orderbook) (orderId : OrderId)
    (hw : s.WellFormed) (hu : s.uncrossed) (h : cancelOrder s orderId = some s1) :
    s1.WellFormed ∧ s1.uncrossed ∧ s1._ordersMutex = false := by
  obtain ⟨_, s2, hc, hs⟩ := cancelOrder_some s s1 orderId h
  obtain ⟨hw2, _, hb, ha, _⟩ := cancelOrderInternal_facts _ s2 orderId
    (wellFormed_congr s { s with _ordersMutex := true } rfl rfl rfl hw) hc
  subst hs
  refine ⟨wellFormed_congr s2 _ rfl rfl rfl hw2, ?_, rfl⟩
  exact uncrossed_of_sublists s _ hb ha hu

theorem matchOrder_invariant (s s1 : Orderbook) (order : OrderModify) (t : Trades)
    (hw : s.WellFormed) (hu : s.uncrossed) (hm : s._ordersMutex = false)
    (h : matchOrder s order = some (t, s1)) :
    s1.WellFormed ∧ s1.uncrossed ∧ s1._ordersMutex = false := by
  unfold matchOrder at h
  cases hf : findKey order._orderId s._orders with
  | none =>
    simp only [hf, Option.some.injEq, Prod.mk.injEq] at h
    obtain ⟨_, h⟩ := h; subst h
    exact ⟨hw, hu, hm⟩
  | some existing =>
    simp only [hf] at h
    cases hc : cancelOrder s order._orderId with
    | none => simp [hc] at h
    | some s2 =>
      simp only [hc, Option.some_bind] at h
      obtain ⟨hw2, hu2, _⟩ := cancelOrder_invariant s s2 _ hw hu hc
      exact addOrder_invariant s2 s1 _ t hw2 hu2 h

theorem wellFormed_empty : Orderbook.empty.WellFormed := by
  refine ⟨by simp [Orderbook.empty], by simp [Orderbook.empty], ?_, ?_, ?_⟩
  · intro e he; simp [Orderbook.empty] at he
  · intro e he; simp [Orderbook.empty] at he
  · refine ⟨by simp [Orderbook.empty], by simp [Orderbook.empty, Orderbook.restingOrders,
      ladderOrders], ?_⟩
    intro k o
    simp [Orderbook.empty, Orderbook.restingOrders, ladderOrders]

/-- Every reachable book is well formed, uncrossed and unlocked. -/
theorem reachable_invariant (s : Orderbook) (h : Reachable s) :
    s.WellFormed ∧ s.uncrossed ∧ s._ordersMutex = false := by
  induction h with
  | init =>
    refine ⟨wellFormed_empty, ?_, rfl⟩
    intro b hb; simp [Orderbook.empty] at hb
  | add s s1 order trades _ hadd ih => exact addOrder_invariant s s1 order trades ih.1 ih.2.1 hadd
  | cancel s s1 orderId _ hc ih => exact cancelOrder_invariant s s1 orderId ih.1 ih.2.1 hc
  | modify s s1 order trades _ hmod ih =>
    exact matchOrder_invariant s s1 order trades ih.1 ih.2.1 ih.2.2 hmod

/-! ### The inner loop with a single order on one side -/

theorem matchInner_of_no_fronts (fuel : Nat) (s : Orderbook) (t : Trades)
    (h : bothFronts s = false) : matchInner fuel s t = some (s, t) := by
  cases fuel <;> simp [matchInner, h]

theorem leftover_self (x : Order) : leftover x (some x._remainingQuantity) = [x] := by
  cases x; rfl

theorem bidAfter_isFilled (x a : Order) :
    (bidAfter x a).isFilled = decide (x._remainingQuantity ≤ a._remainingQuantity) := by
  show ((x._remainingQuantity - min x._remainingQuantity a._remainingQuantity) == 0) = _
  rcases Nat.lt_or_ge a._remainingQuantity x._remainingQuantity with h | h
  · rw [Nat.min_eq_right (le_of_lt h)]
    have h1 : x._remainingQuantity - a._remainingQuantity ≠ 0 := Nat.sub_ne_zero_of_lt h
    simp [h1, Nat.not_le.mpr h]
  · rw [Nat.min_eq_left h]
    simp [h]

theorem askAfter_isFilled (x a : Order) :
    (askAfter x a).isFilled = decide (a._remainingQuantity ≤ x._remainingQuantity) := by
  show ((a._remainingQuantity - min x._remainingQuantity a._remainingQuantity) == 0) = _
  rcases Nat.lt_or_ge x._remainingQuantity a._remainingQuantity with h | h
  · rw [Nat.min_eq_left (le_of_lt h)]
    have h1 : a._remainingQuantity - x._remainingQuantity ≠ 0 := Nat.sub_ne_zero_of_lt h
    simp [h1, Nat.not_le.mpr h]
  · rw [Nat.min_eq_right h]
    simp [h]

/-- The inner loop when the first bid bucket holds the single order `x`: the first ask
bucket is swept in queue order. -/
theorem matchInner_buy (P ap : Price) (rb al : Ladder) :
    ∀ (fuel : Nat) (s : Orderbook) (t : Trades) (x : Order) (bucket : OrderPointers)
      (r : Orderbook × Trades),
      s._bids = (P, [x]) :: rb → s._asks = (ap, bucket) :: al →
      matchInner fuel s t = some r →
      r.1._bids = (P, leftover x (sweepLeft x._remainingQuantity bucket)) :: rb ∧
      r.1._asks = (ap, sweepRest x._remainingQuantity bucket) :: al ∧
      r.2 = t ++ (sweepFills x._remainingQuantity bucket).map
        (fun f => frontTrade x f.1 f.2) := by
  intro fuel
  induction fuel with
  | zero =>
    intro s t x bucket r hb ha h
    cases bucket with
    | nil =>
      have hbf : bothFronts s = false := by simp [bothFronts, hb, ha]
      rw [matchInner_of_no_fronts 0 s t hbf] at h
      simp only [Option.some.injEq] at h
      subst h
      simp [sweepLeft, sweepRest, sweepFills, leftover_self, hb, ha]
    | cons a rest =>
      have hbf : bothFronts s = true := by simp [bothFronts, hb, ha]
      simp [matchInner, hbf] at h
  | succ n ih =>
    intro s t x bucket r hb ha h
    cases bucket with
    | nil =>
      have hbf : bothFronts s = false := by simp [bothFronts, hb, ha]
      rw [matchInner_of_no_fronts _ s t hbf] at h
      simp only [Option.some.injEq] at h
      subst h
      simp [sweepLeft, sweepRest, sweepFills, leftover_self, hb, ha]
    | cons a rest =>
      have hbf : bothFronts s = true := by simp [bothFronts, hb, ha]
      unfold matchInner at h
      simp only [hbf, if_true, fillFront_eq s t P x [] rb ap a rest al hb ha,
        Option.some_bind] at h
      by_cases hlt : a._remainingQuantity < x._remainingQuantity
      · have hmin : min x._remainingQuantity a._remainingQuantity = a._remainingQuantity :=
          Nat.min_eq_right (le_of_lt hlt)
        have hbf1 : (bidAfter x a).isFilled = false := by
          rw [bidAfter_isFilled]; simp [hlt]
        have haf1 : (askAfter x a).isFilled = true := by
          rw [askAfter_isFilled]; simp [le_of_lt hlt]
        have hb1 : (settleFront s P (bidAfter x a) [] rb ap (askAfter x a) rest al
            (min x._remainingQuantity a._remainingQuantity))._bids
              = (P, [bidAfter x a]) :: rb := by
          rw [settleFront_bids, hbf1]; rfl
        have ha1 : (settleFront s P (bidAfter x a) [] rb ap (askAfter x a) rest al
            (min x._remainingQuantity a._remainingQuantity))._asks
              = (ap, rest) :: al := by
          rw [settleFront_asks, haf1]; rfl
        obtain ⟨e1, e2, e3⟩ := ih _ _ (bidAfter x a) rest r hb1 ha1 h
        have hrem : (bidAfter x a)._remainingQuantity
            = x._remainingQuantity - a._remainingQuantity := by
          simp [bidAfter, hmin]
        rw [hrem] at e1 e2 e3
        refine ⟨?_, ?_, ?_⟩
        · rw [e1]; simp only [sweepLeft, hlt, if_true]
          cases sweepLeft (x._remainingQuantity - a._remainingQuantity) rest <;> rfl
        · rw [e2]; simp only [sweepRest, hlt, if_true]
        · rw [e3]; simp only [sweepFills, hlt, if_true, List.map_cons, hmin]
          simp [frontTrade, bidAfter, askAfter]
      · have hle : x._remainingQuantity ≤ a._remainingQuantity := Nat.not_lt.mp hlt
        have hmin : min x._remainingQuantity a._remainingQuantity = x._remainingQuantity :=
          Nat.min_eq_left hle
        have hbf1 : (bidAfter x a).isFilled = true := by
          rw [bidAfter_isFilled]; simp [hle]
        have hb1 : (settleFront s P (bidAfter x a) [] rb ap (askAfter x a) rest al
            (min x._remainingQuantity a._remainingQuantity))._bids
              = (P, []) :: rb := by
          rw [settleFront_bids, hbf1]; rfl
        have hnf : bothFronts (settleFront s P (bidAfter x a) [] rb ap (askAfter x a) rest al
            (min x._remainingQuantity a._remainingQuantity)) = false := by
          simp [bothFronts, hb1]
        rw [matchInner_of_no_fronts _ _ _ hnf] at h
        simp only [Option.some.injEq] at h
        subst h
        refine ⟨?_, ?_, ?_⟩
        · rw [hb1]; simp only [sweepLeft, hlt, if_false]; rfl
        · show (settleFront _ _ _ _ _ _ _ _ _ _)._asks = _
          rw [settleFront_asks]
          simp only [sweepRest, hlt, if_false]
          by_cases heq : a._remainingQuantity = x._remainingQuantity
          · have : (askAfter x a).isFilled = true := by
              rw [askAfter_isFilled]; simp [heq]
            simp [this, heq]
          · have : (askAfter x a).isFilled = false := by
              rw [askAfter_isFilled]
              simp only [decide_eq_false_iff_not, not_le]
              exact lt_of_le_of_ne hle (fun h => heq h.symm)
            rw [this]
            simp [heq, askAfter, hmin]
        · simp only [sweepFills, hlt, if_false, List.map_cons, List.map_nil, hmin]
          simp [frontTrade, bidAfter, askAfter]

/-- The inner loop when the first ask bucket holds the single order `x`: the first bid
bucket is swept in queue order. -/
theorem matchInner_sell (P bp : Price) (ra bl : Ladder) :
    ∀ (fuel : Nat) (s : Orderbook) (t : Trades) (x : Order) (bucket : OrderPointers)
      (r : Orderbook × Trades),
      s._asks = (P, [x]) :: ra → s._bids = (bp, bucket) :: bl →
      matchInner fuel s t = some r →
      r.1._asks = (P, leftover x (sweepLeft x._remainingQuantity bucket)) :: ra ∧
      r.1._bids = (bp, sweepRest x._remainingQuantity bucket) :: bl ∧
      r.2 = t ++ (sweepFills x._remainingQuantity bucket).map
        (fun f => frontTrade f.1 x f.2) := by
  intro fuel
  induction fuel with
  | zero =>
    intro s t x bucket r ha hb h
    cases bucket with
    | nil =>
      have hbf : bothFronts s = false := by simp [bothFronts, hb, ha]
      rw [matchInner_of_no_fronts 0 s t hbf] at h
      simp only [Option.some.injEq] at h
      subst h
      simp [sweepLeft, sweepRest, sweepFills, leftover_self, hb, ha]
    | cons b rest =>
      have hbf : bothFronts s = true := by simp [bothFronts, hb, ha]
      simp [matchInner, hbf] at h
  | succ n ih =>
    intro s t x bucket r ha hb h
    cases bucket with
    | nil =>
      have hbf : bothFronts s = false := by simp [bothFronts, hb, ha]
      rw [matchInner_of_no_fronts _ s t hbf] at h
      simp only [Option.some.injEq] at h
      subst h
      simp [sweepLeft, sweepRest, sweepFills, leftover_self, hb, ha]
    | cons b rest =>
      have hbf : bothFronts s = true := by simp [bothFronts, hb, ha]
      unfold matchInner at h
      simp only [hbf, if_true, fillFront_eq s t bp b rest bl P x [] ra hb ha,
        Option.some_bind] at h
      by_cases hlt : b._remainingQuantity < x._remainingQuantity
      · have hmin : min b._remainingQuantity x._remainingQuantity = b._remainingQuantity :=
          Nat.min_eq_left (le_of_lt hlt)
        have haf1 : (askAfter b x).isFilled = false := by
          rw [askAfter_isFilled]; simp [hlt]
        have hbf1 : (bidAfter b x).isFilled = true := by
          rw [bidAfter_isFilled]; simp [le_of_lt hlt]
        have ha1 : (settleFront s bp (bidAfter b x) rest bl P (askAfter b x) [] ra
            (min b._remainingQuantity x._remainingQuantity))._asks
              = (P, [askAfter b x]) :: ra := by
          rw [settleFront_asks, haf1]; rfl
        have hb1 : (settleFront s bp (bidAfter b x) rest bl P (askAfter b x) [] ra
            (min b._remainingQuantity x._remainingQuantity))._bids
              = (bp, rest) :: bl := by
          rw [settleFront_bids, hbf1]; rfl
        obtain ⟨e1, e2, e3⟩ := ih _ _ (askAfter b x) rest r ha1 hb1 h
        have hrem : (askAfter b x)._remainingQuantity
            = x._remainingQuantity - b._remainingQuantity := by
          simp [askAfter, hmin]
        rw [hrem] at e1 e2 e3
        refine ⟨?_, ?_, ?_⟩
        · rw [e1]; simp only [sweepLeft, hlt, if_true]
          cases sweepLeft (x._remainingQuantity - b._remainingQuantity) rest <;> rfl
        · rw [e2]; simp only [sweepRest, hlt, if_true]
        · rw [e3]; simp only [sweepFills, hlt, if_true, List.map_cons, hmin]
          simp [frontTrade, bidAfter, askAfter]
      · have hle : x._remainingQuantity ≤ b._remainingQuantity := Nat.not_lt.mp hlt
        have hmin : min b._remainingQuantity x._remainingQuantity = x._remainingQuantity :=
          Nat.min_eq_right hle
        have haf1 : (askAfter b x).isFilled = true := by
          rw [askAfter_isFilled]; simp [hle]
        have ha1 : (settleFront s bp (bidAfter b x) rest bl P (askAfter b x) [] ra
            (min b._remainingQuantity x._remainingQuantity))._asks
              = (P, []) :: ra := by
          rw [settleFront_asks, haf1]; rfl
        have hnf : bothFronts (settleFront s bp (bidAfter b x) rest bl P (askAfter b x) [] ra
            (min b._remainingQuantity x._remainingQuantity)) = false := by
          unfold bothFronts
          rw [ha1]
          split
          · next h1 h2 => simp at h2
          · rfl
        rw [matchInner_of_no_fronts _ _ _ hnf] at h
        simp only [Option.some.injEq] at h
        subst h
        refine ⟨?_, ?_, ?_⟩
        · rw [ha1]; simp only [sweepLeft, hlt, if_false]; rfl
        · show (settleFront _ _ _ _ _ _ _ _ _ _)._bids = _
          rw [settleFront_bids]
          simp only [sweepRest, hlt, if_false]
          by_cases heq : b._remainingQuantity = x._remainingQuantity
          · have : (bidAfter b x).isFilled = true := by
              rw [bidAfter_isFilled]; simp [heq]
            simp [this, heq]
          · have : (bidAfter b x).isFilled = false := by
              rw [bidAfter_isFilled]
              simp only [decide_eq_false_iff_not, not_le]
              exact lt_of_le_of_ne hle (fun h => heq h.symm)
            rw [this]
            simp [heq, bidAfter, hmin]
        · simp only [sweepFills, hlt, if_false, List.map_cons, List.map_nil, hmin]
          simp [frontTrade, bidAfter, askAfter]

/-! ### The sweep functions on concatenated queues -/

theorem sweepLeft_append (Q1 Q2 : List Order) : ∀ (r : Quantity),
    sweepLeft r (Q1 ++ Q2) = (sweepLeft r Q1).bind (fun q => sweepLeft q Q2) := by
  induction Q1 with
  | nil => intro r; simp [sweepLeft]
  | cons a rest ih =>
    intro r
    simp only [List.cons_append, sweepLeft]
    by_cases h : a._remainingQuantity < r
    · simp only [h, if_true]; exact ih _
    · simp [h]

theorem sweepRest_of_left (Q : List Order) : ∀ (r q : Quantity),
    sweepLeft r Q = some q → sweepRest r Q = [] := by
  induction Q with
  | nil => intro r q _; rfl
  | cons a rest ih =>
    intro r q h
    simp only [sweepLeft] at h
    by_cases hlt : a._remainingQuantity < r
    · simp only [hlt, if_true] at h
      simp only [sweepRest, hlt, if_true]
      exact ih _ q h
    · simp [hlt] at h

theorem sweepFills_append (Q1 Q2 : List Order) : ∀ (r : Quantity),
    sweepFills r (Q1 ++ Q2) =
      sweepFills r Q1 ++ (match sweepLeft r Q1 with
        | none => []
        | some q => sweepFills q Q2) := by
  induction Q1 with
  | nil => intro r; simp [sweepFills, sweepLeft]
  | cons a rest ih =>
    intro r
    simp only [List.cons_append, sweepFills, sweepLeft]
    by_cases h : a._remainingQuantity < r
    · simp only [h, if_true, List.cons_append]; exact congrArg _ (ih _)
    · simp [h]

theorem sweepRest_append (Q1 Q2 : List Order) : ∀ (r : Quantity),
    sweepRest r (Q1 ++ Q2) =
      (match sweepLeft r Q1 with
        | none => sweepRest r Q1 ++ Q2
        | some q => sweepRest q Q2) := by
  induction Q1 with
  | nil => intro r; simp [sweepRest, sweepLeft]
  | cons a rest ih =>
    intro r
    simp only [List.cons_append, sweepRest, sweepLeft]
    by_cases h : a._remainingQuantity < r
    · simp only [h, if_true]; exact ih _
    · simp only [h, if_false]
      by_cases h2 : a._remainingQuantity = r <;> simp [h2]

theorem order_with_remaining (x : Order) (q q1 : Quantity) :
    ({ ({ x with _remainingQuantity := q } : Order) with _remainingQuantity := q1 } : Order)
      = { x with _remainingQuantity := q1 } := rfl

theorem ladderWith_self (P : Price) (x : Order) (levels : Ladder) :
    ladderWith P x levels (some x._remainingQuantity) = (P, [x]) :: levels := by
  cases x; rfl

theorem matchLoop_of_quiet (fuel : Nat) (s : Orderbook) (t : Trades) (h : s.quiet) :
    matchLoop (fuel + 1) s t = some (s, t) := by
  unfold matchLoop
  unfold Orderbook.quiet at h
  split
  · rfl
  · rfl
  · next bp bb bl ap ab al hb ha =>
    rw [hb, ha] at h
    simp only at h
    simp [h]

theorem ladderOrders_take_drop (l : Ladder) (p : Price × OrderPointers → Bool) :
    ladderOrders (l.takeWhile p) ++ ladderOrders (l.dropWhile p) = ladderOrders l := by
  rw [← ladderOrders_append, List.takeWhile_append_dropWhile]

theorem quiet_iff (s : Orderbook) :
    s.quiet ↔ ∀ bp bb bl ap ab al, s._bids = (bp, bb) :: bl → s._asks = (ap, ab) :: al →
      bp < ap := by
  unfold Orderbook.quiet
  constructor
  · intro h bp bb bl ap ab al hb ha
    rw [hb, ha] at h
    exact h
  · intro h
    split
    · next bp bb bl ap ab al hb ha => exact h bp bb bl ap ab al hb ha
    · trivial

theorem matchLoop_step (fuel : Nat) (s : Orderbook) (t : Trades) (bp ap : Price)
    (bb ab : OrderPointers) (bl al : Ladder)
    (hb : s._bids = (bp, bb) :: bl) (ha : s._asks = (ap, ab) :: al) (h : ¬ bp < ap) :
    matchLoop (fuel + 1) s t =
      (matchInner (frontSize s) s t).bind fun r =>
        matchLoop fuel (dropEmptyAsk (dropEmptyBid r.1)) r.2 := by
  conv_lhs => unfold matchLoop
  split
  · next h1 => rw [hb] at h1; simp at h1
  · next h1 h2 => rw [ha] at h2; simp at h2
  · next bp1 bb1 bl1 ap1 ab1 al1 h1 h2 =>
    rw [hb] at h1; rw [ha] at h2
    simp only [List.cons.injEq, Prod.mk.injEq] at h1 h2
    obtain ⟨⟨e1, _⟩, _⟩ := h1
    obtain ⟨⟨e2, _⟩, _⟩ := h2
    subst e1; subst e2
    simp [h]

/-- The outer loop when the bid ladder starts with a bucket holding the single order `x`
and every other bid price is below every ask price: the ask levels priced at or below the
price of `x` are swept in priority order. -/
theorem matchLoop_buy (P : Price) (rb : Ladder) :
    ∀ (fuel : Nat) (s : Orderbook) (t : Trades) (x : Order) (r : Orderbook × Trades),
      s.WellFormed → s._bids = (P, [x]) :: rb →
      (∀ b ∈ rb, ∀ k ∈ s._asks.map Prod.fst, b.1 < k) →
      matchLoop fuel s t = some r →
      r.1._bids = ladderWith P x rb (sweepLeft x._remainingQuantity
          (ladderOrders (s._asks.takeWhile fun e => decide (e.1 ≤ P)))) ∧
      ladderOrders r.1._asks =
        sweepRest x._remainingQuantity
          (ladderOrders (s._asks.takeWhile fun e => decide (e.1 ≤ P))) ++
          ladderOrders (s._asks.dropWhile fun e => decide (e.1 ≤ P)) ∧
      r.2 = t ++ (sweepFills x._remainingQuantity
          (ladderOrders (s._asks.takeWhile fun e => decide (e.1 ≤ P)))).map
            (fun f => frontTrade x f.1 f.2) ∧
      ((∀ e ∈ s._asks, e.2 ≠ []) → ∀ e ∈ r.1._asks, e.2 ≠ []) := by
  intro fuel
  induction fuel with
  | zero => intro s t x r _ _ _ h; simp [matchLoop] at h
  | succ n ih =>
    intro s t x r hw hb hx h
    cases hasks : s._asks with
    | nil =>
      have hq : s.quiet := by simp [Orderbook.quiet, hb, hasks]
      rw [matchLoop_of_quiet n s t hq] at h
      simp only [Option.some.injEq] at h
      subst h
      simp [hasks, ladderOrders, sweepLeft, sweepRest, sweepFills, ladderWith_self, hb]
    | cons e al =>
      obtain ⟨ap, ab⟩ := e
      by_cases hlt : P < ap
      · have hq : s.quiet := by simp [Orderbook.quiet, hb, hasks, hlt]
        rw [matchLoop_of_quiet n s t hq] at h
        simp only [Option.some.injEq] at h
        subst h
        have hd : decide (ap ≤ P) = false := by simpa using hlt
        simp [hasks, List.takeWhile, List.dropWhile, hd, ladderOrders_nil, sweepLeft, sweepRest,
          sweepFills, ladderWith_self, hb]
      · have hle : ap ≤ P := not_lt.mp hlt
        have hd : decide (ap ≤ P) = true := by simpa using hle
        rw [matchLoop_step n s t P ap [x] ab rb al hb hasks hlt] at h
        cases hi : matchInner (frontSize s) s t with
        | none => simp [hi] at h
        | some r1 =>
          simp only [hi, Option.some_bind] at h
          obtain ⟨e1, e2, e3⟩ := matchInner_buy P ap rb al _ s t x ab r1 hb hasks hi
          have hw1 := wellFormed_matchInner _ s t r1 hw hi
          have htake : ladderOrders (List.takeWhile (fun e => decide (e.1 ≤ P)) ((ap, ab) :: al))
              = ab ++ ladderOrders (List.takeWhile (fun e => decide (e.1 ≤ P)) al) := by
            simp [List.takeWhile, hd, ladderOrders_cons]
          have hdrop : List.dropWhile (fun e => decide (e.1 ≤ P)) ((ap, ab) :: al)
              = List.dropWhile (fun e => decide (e.1 ≤ P)) al := by
            simp [List.dropWhile, hd]
          rw [htake, hdrop, sweepLeft_append, sweepRest_append, sweepFills_append]
          cases hl : sweepLeft x._remainingQuantity ab with
          | some q =>
            rw [hl] at e1
            have hrest := sweepRest_of_left ab _ q hl
            rw [hrest] at e2
            have hdb : dropEmptyBid r1.1 = r1.1 :=
              dropEmptyBid_of_front r1.1 P _ [] rb e1
            have hw2 := wellFormed_dropEmptyAsk _ (wellFormed_dropEmptyBid _ hw1)
            have hb2 : (dropEmptyAsk (dropEmptyBid r1.1))._bids
                = (P, [{ x with _remainingQuantity := q }]) :: rb := by
              rw [dropEmptyAsk_bids, hdb, e1]; rfl
            have ha2 : (dropEmptyAsk (dropEmptyBid r1.1))._asks = al := by
              rw [hdb]; exact dropEmptyAsk_asks_eq r1.1 hw1 ap al e2
            have hx2 : ∀ b ∈ rb, ∀ k ∈ (dropEmptyAsk (dropEmptyBid r1.1))._asks.map Prod.fst,
                b.1 < k := by
              intro b hbm k hk
              rw [ha2] at hk
              exact hx b hbm k (by rw [hasks]; exact List.mem_cons_of_mem _ hk)
            obtain ⟨f1, f2, f3, f4⟩ := ih _ r1.2 { x with _remainingQuantity := q } r hw2 hb2 hx2 h
            rw [ha2] at f1 f2 f3 f4
            simp only [Option.some_bind]
            refine ⟨?_, ?_, ?_, ?_⟩
            · rw [f1]
              cases sweepLeft q (ladderOrders (List.takeWhile (fun e => decide (e.1 ≤ P)) al))
                <;> rfl
            · rw [f2]
            · rw [f3, e3, List.map_append, List.append_assoc]
              rfl
            · intro hne
              exact f4 (fun e he => hne e (List.mem_cons_of_mem _ he))
          | none =>
            rw [hl] at e1
            have hb1 : r1.1._bids = (P, []) :: rb := e1
            have hbd : (dropEmptyBid r1.1)._bids = rb := dropEmptyBid_bids_eq r1.1 hw1 P rb hb1
            have hw2 := wellFormed_dropEmptyBid _ hw1
            have ha1 : (dropEmptyBid r1.1)._asks
                = (ap, sweepRest x._remainingQuantity ab) :: al := by
              rw [dropEmptyBid_asks, e2]
            have hb2 : (dropEmptyAsk (dropEmptyBid r1.1))._bids = rb := by
              rw [dropEmptyAsk_bids, hbd]
            have hkeys : ∀ k ∈ (dropEmptyAsk (dropEmptyBid r1.1))._asks.map Prod.fst,
                k ∈ ((ap, ab) :: al).map Prod.fst := by
              intro k hk
              have := ((dropEmptyAsk_sublist (dropEmptyBid r1.1)).map Prod.fst).subset hk
              rw [ha1] at this
              simpa using this
            have hq : (dropEmptyAsk (dropEmptyBid r1.1)).quiet := by
              rw [quiet_iff]
              intro bp1 bb1 bl1 ap1 ab1 al1 h1 h2
              have hk1 : ap1 ∈ (dropEmptyAsk (dropEmptyBid r1.1))._asks.map Prod.fst := by
                rw [h2]; simp
              rw [hb2] at h1
              exact hx (bp1, bb1) (by rw [h1]; exact List.mem_cons_self _ _) ap1
                (by rw [hasks]; exact hkeys ap1 hk1)
            cases n with
            | zero => simp [matchLoop] at h
            | succ m =>
              rw [matchLoop_of_quiet m _ _ hq] at h
              simp only [Option.some.injEq] at h
              subst h
              simp only [Option.none_bind]
              have hlo : ladderOrders (dropEmptyAsk (dropEmptyBid r1.1))._asks
                  = sweepRest x._remainingQuantity ab ++ ladderOrders al := by
                rw [ladderOrders_dropEmptyAsk _ hw2, ha1, ladderOrders_cons]
              refine ⟨?_, ?_, ?_, ?_⟩
              · show (dropEmptyAsk (dropEmptyBid r1.1))._bids = _
                rw [hb2]; rfl
              · show ladderOrders (dropEmptyAsk (dropEmptyBid r1.1))._asks = _
                rw [hlo, List.append_assoc, ladderOrders_take_drop]
              · show r1.2 = _
                rw [e3]; simp
              · intro hne e he
                have he' : e ∈ (dropEmptyAsk (dropEmptyBid r1.1))._asks := he
                cases hsr : sweepRest x._remainingQuantity ab with
                | nil =>
                  rw [hsr] at ha1
                  rw [dropEmptyAsk_asks_eq _ hw2 ap al ha1] at he'
                  exact hne e (List.mem_cons_of_mem _ he')
                | cons o more =>
                  rw [hsr] at ha1
                  rw [dropEmptyAsk_of_front _ ap o more al ha1, ha1] at he'
                  rcases List.mem_cons.mp he' with he' | he'
                  · rw [he']; simp
                  · exact hne e (List.mem_cons_of_mem _ he')

/-- The outer loop when the ask ladder starts with a bucket holding the single order `x`
and every other ask price is above every bid price: the bid levels priced at or above the
price of `x` are swept in priority order. -/
theorem matchLoop_sell (P : Price) (ra : Ladder) :
    ∀ (fuel : Nat) (s : Orderbook) (t : Trades) (x : Order) (r : Orderbook × Trades),
      s.WellFormed → s._asks = (P, [x]) :: ra →
      (∀ a ∈ ra, ∀ k ∈ s._bids.map Prod.fst, k < a.1) →
      matchLoop fuel s t = some r →
      r.1._asks = ladderWith P x ra (sweepLeft x._remainingQuantity
          (ladderOrders (s._bids.takeWhile fun e => decide (P ≤ e.1)))) ∧
      ladderOrders r.1._bids =
        sweepRest x._remainingQuantity
          (ladderOrders (s._bids.takeWhile fun e => decide (P ≤ e.1))) ++
          ladderOrders (s._bids.dropWhile fun e => decide (P ≤ e.1)) ∧
      r.2 = t ++ (sweepFills x._remainingQuantity
          (ladderOrders (s._bids.takeWhile fun e => decide (P ≤ e.1)))).map
            (fun f => frontTrade f.1 x f.2) ∧
      ((∀ e ∈ s._bids, e.2 ≠ []) → ∀ e ∈ r.1._bids, e.2 ≠ []) := by
  intro fuel
  induction fuel with
  | zero => intro s t x r _ _ _ h; simp [matchLoop] at h
  | succ n ih =>
    intro s t x r hw ha hx h
    cases hbids : s._bids with
    | nil =>
      have hq : s.quiet := by
        rw [quiet_iff]; intro bp bb bl ap ab al h1 _; rw [hbids] at h1; simp at h1
      rw [matchLoop_of_quiet n s t hq] at h
      simp only [Option.some.injEq] at h
      subst h
      simp [hbids, ladderOrders, sweepLeft, sweepRest, sweepFills, ladderWith_self, ha]
    | cons e bl =>
      obtain ⟨bp, bb⟩ := e
      by_cases hlt : bp < P
      · have hq : s.quiet := by
          rw [quiet_iff]; intro bp1 bb1 bl1 ap1 ab1 al1 h1 h2
          rw [hbids] at h1; rw [ha] at h2
          simp only [List.cons.injEq, Prod.mk.injEq] at h1 h2
          rw [← h1.1.1, ← h2.1.1]; exact hlt
        rw [matchLoop_of_quiet n s t hq] at h
        simp only [Option.some.injEq] at h
        subst h
        have hd : decide (P ≤ bp) = false := by simpa using hlt
        simp [hbids, List.takeWhile, List.dropWhile, hd, ladderOrders_nil, sweepLeft, sweepRest,
          sweepFills, ladderWith_self, ha]
      · have hle : P ≤ bp := not_lt.mp hlt
        have hd : decide (P ≤ bp) = true := by simpa using hle
        rw [matchLoop_step n s t bp P bb [x] bl ra hbids ha hlt] at h
        cases hi : matchInner (frontSize s) s t with
        | none => simp [hi] at h
        | some r1 =>
          simp only [hi, Option.some_bind] at h
          obtain ⟨e1, e2, e3⟩ := matchInner_sell P bp ra bl _ s t x bb r1 ha hbids hi
          have hw1 := wellFormed_matchInner _ s t r1 hw hi
          have htake : ladderOrders (List.takeWhile (fun e => decide (P ≤ e.1)) ((bp, bb) :: bl))
              = bb ++ ladderOrders (List.takeWhile (fun e => decide (P ≤ e.1)) bl) := by
            simp [List.takeWhile, hd, ladderOrders_cons]
          have hdrop : List.dropWhile (fun e => decide (P ≤ e.1)) ((bp, bb) :: bl)
              = List.dropWhile (fun e => decide (P ≤ e.1)) bl := by
            simp [List.dropWhile, hd]
          rw [htake, hdrop, sweepLeft_append, sweepRest_append, sweepFills_append]
          have hw2 := wellFormed_dropEmptyBid _ hw1
          have ha1 : (dropEmptyBid r1.1)._asks = r1.1._asks := dropEmptyBid_asks r1.1
          cases hl : sweepLeft x._remainingQuantity bb with
          | some q =>
            rw [hl] at e1
            have hrest := sweepRest_of_left bb _ q hl
            rw [hrest] at e2
            have hbd : (dropEmptyBid r1.1)._bids = bl := dropEmptyBid_bids_eq r1.1 hw1 bp bl e2
            have hda : dropEmptyAsk (dropEmptyBid r1.1) = dropEmptyBid r1.1 :=
              dropEmptyAsk_of_front _ P _ [] ra (ha1.trans e1)
            have hb2 : (dropEmptyAsk (dropEmptyBid r1.1))._bids = bl := by rw [hda, hbd]
            have ha2 : (dropEmptyAsk (dropEmptyBid r1.1))._asks
                = (P, [{ x with _remainingQuantity := q }]) :: ra := by
              rw [hda, ha1, e1]; rfl
            have hx2 : ∀ a ∈ ra, ∀ k ∈ (dropEmptyAsk (dropEmptyBid r1.1))._bids.map Prod.fst,
                k < a.1 := by
              intro a ham k hk
              rw [hb2] at hk
              exact hx a ham k (by rw [hbids]; exact List.mem_cons_of_mem _ hk)
            obtain ⟨f1, f2, f3, f4⟩ :=
              ih _ r1.2 { x with _remainingQuantity := q } r
                (wellFormed_dropEmptyAsk _ hw2) ha2 hx2 h
            rw [hb2] at f1 f2 f3 f4
            simp only [Option.some_bind]
            refine ⟨?_, ?_, ?_, ?_⟩
            · rw [f1]
              cases sweepLeft q (ladderOrders (List.takeWhile (fun e => decide (P ≤ e.1)) bl))
                <;> rfl
            · rw [f2]
            · rw [f3, e3, List.map_append, List.append_assoc]
              rfl
            · intro hne
              exact f4 (fun e he => hne e (List.mem_cons_of_mem _ he))
          | none =>
            rw [hl] at e1
            have hae : (dropEmptyBid r1.1)._asks = (P, []) :: ra := ha1.trans e1
            have ha2 : (dropEmptyAsk (dropEmptyBid r1.1))._asks = ra :=
              dropEmptyAsk_asks_eq _ hw2 P ra hae
            have hkeys : ∀ k ∈ (dropEmptyAsk (dropEmptyBid r1.1))._bids.map Prod.fst,
                k ∈ ((bp, bb) :: bl).map Prod.fst := by
              intro k hk
              rw [dropEmptyAsk_bids] at hk
              have := ((dropEmptyBid_sublist r1.1).map Prod.fst).subset hk
              rw [e2] at this
              simpa using this
            have hq : (dropEmptyAsk (dropEmptyBid r1.1)).quiet := by
              rw [quiet_iff]
              intro bp1 bb1 bl1 ap1 ab1 al1 h1 h2
              have hk1 : bp1 ∈ (dropEmptyAsk (dropEmptyBid r1.1))._bids.map Prod.fst := by
                rw [h1]; simp
              rw [ha2] at h2
              exact hx (ap1, ab1) (by rw [h2]; exact List.mem_cons_self _ _) bp1
                (by rw [hbids]; exact hkeys bp1 hk1)
            cases n with
            | zero => simp [matchLoop] at h
            | succ m =>
              rw [matchLoop_of_quiet m _ _ hq] at h
              simp only [Option.some.injEq] at h
              subst h
              simp only [Option.none_bind]
              have hlo : ladderOrders (dropEmptyAsk (dropEmptyBid r1.1))._bids
                  = sweepRest x._remainingQuantity bb ++ ladderOrders bl := by
                rw [dropEmptyAsk_bids, ladderOrders_dropEmptyBid _ hw1, e2, ladderOrders_cons]
              refine ⟨?_, ?_, ?_, ?_⟩
              · show (dropEmptyAsk (dropEmptyBid r1.1))._asks = _
                rw [ha2]; rfl
              · show ladderOrders (dropEmptyAsk (dropEmptyBid r1.1))._bids = _
                rw [hlo, List.append_assoc, ladderOrders_take_drop]
              · show r1.2 = _
                rw [e3]; simp
              · intro hne e he
                have he' : e ∈ (dropEmptyAsk (dropEmptyBid r1.1))._bids := he
                rw [dropEmptyAsk_bids] at he'
                cases hsr : sweepRest x._remainingQuantity bb with
                | nil =>
                  rw [hsr] at e2
                  rw [dropEmptyBid_bids_eq _ hw1 bp bl e2] at he'
                  exact hne e (List.mem_cons_of_mem _ he')
                | cons o more =>
                  rw [hsr] at e2
                  rw [dropEmptyBid_of_front _ bp o more bl e2, e2] at he'
                  rcases List.mem_cons.mp he' with he' | he'
                  · rw [he']; simp
                  · exact hne e (List.mem_cons_of_mem _ he')

/-! ### Insertion followed by the matching loop -/

theorem pushBack_top_bid (P : Price) (x : Order) (l : Ladder)
    (h : ∀ k ∈ l.map Prod.fst, k < P) : pushBack bidBefore P x l = (P, [x]) :: l := by
  cases l with
  | nil => rfl
  | cons e rest =>
    obtain ⟨p, b⟩ := e
    have hp : p < P := h p (by simp)
    unfold pushBack
    have h1 : p ≠ P := ne_of_lt hp
    have h2 : bidBefore P p = true := by simp [bidBefore, hp]
    simp [h1, h2]

theorem pushBack_top_ask (P : Price) (x : Order) (l : Ladder)
    (h : ∀ k ∈ l.map Prod.fst, P < k) : pushBack askBefore P x l = (P, [x]) :: l := by
  cases l with
  | nil => rfl
  | cons e rest =>
    obtain ⟨p, b⟩ := e
    have hp : P < p := h p (by simp)
    unfold pushBack
    have h1 : p ≠ P := ne_of_gt hp
    have h2 : askBefore P p = true := by simp [askBefore, hp]
    simp [h1, h2]

theorem pushBack_nonempty (before : Price → Price → Bool) (P : Price) (x : Order) (l : Ladder)
    (h : ∀ e ∈ l, e.2 ≠ []) : ∀ e ∈ pushBack before P x l, e.2 ≠ [] := by
  induction l with
  | nil => intro e he; simp [pushBack] at he; subst he; simp
  | cons e0 rest ih =>
    obtain ⟨p, b⟩ := e0
    have hrest : ∀ e ∈ rest, e.2 ≠ [] := fun e he => h e (List.mem_cons_of_mem _ he)
    intro e he
    unfold pushBack at he
    by_cases h1 : p = P
    · simp only [h1, if_true] at he
      rcases List.mem_cons.mp he with he | he
      · subst he; simp
      · exact hrest e he
    · simp only [h1, if_false] at he
      by_cases h2 : before P p = true
      · simp only [h2, if_true] at he
        rcases List.mem_cons.mp he with he | he
        · subst he; simp
        · exact h e he
      · simp only [h2, if_false, Bool.false_eq_true] at he
        rcases List.mem_cons.mp he with he | he
        · subst he; exact h (p, b) (List.mem_cons_self _ _)
        · exact ih hrest e he

theorem order_eta (x : Order) : ({ x with _remainingQuantity := x._remainingQuantity } : Order) = x := by
  cases x; rfl

/-- An incoming bid `x` with a fresh id is inserted in a well-formed, uncrossed book and the
matching loop runs: the ask levels priced at or below the price of `x` are swept in
priority order, and `x` rests with what it has left. -/
theorem matchLoop_insert_buy (s : Orderbook) (x : Order) (fuel : Nat) (r : Orderbook × Trades)
    (hw : s.WellFormed) (hu : s.uncrossed) (hside : x._side = Side.BUY)
    (hf : findKey x._orderId s._orders = none)
    (h : matchLoop fuel (insertOrder s x) [] = some r) :
    r.1._bids = (match sweepLeft x._remainingQuantity
        (ladderOrders (s._asks.takeWhile fun e => decide (e.1 ≤ x._price))) with
      | none => s._bids
      | some q => pushBack bidBefore x._price { x with _remainingQuantity := q } s._bids) ∧
    ladderOrders r.1._asks =
      sweepRest x._remainingQuantity
        (ladderOrders (s._asks.takeWhile fun e => decide (e.1 ≤ x._price))) ++
        ladderOrders (s._asks.dropWhile fun e => decide (e.1 ≤ x._price)) ∧
    r.2 = (sweepFills x._remainingQuantity
        (ladderOrders (s._asks.takeWhile fun e => decide (e.1 ≤ x._price)))).map
          (fun f => frontTrade x f.1 f.2) ∧
    ((∀ e ∈ s._asks, e.2 ≠ []) → ∀ e ∈ r.1._asks, e.2 ≠ []) := by
  have hw1 := wellFormed_insertOrder s x hw hf
  have hb1 : (insertOrder s x)._bids = pushBack bidBefore x._price x s._bids := by
    rw [insertOrder_bids, if_pos hside]
  have ha1 : (insertOrder s x)._asks = s._asks := by
    rw [insertOrder_asks, if_pos hside]
  have hquiet : (s._asks = [] ∨ ∃ ap ab al, s._asks = (ap, ab) :: al ∧ x._price < ap) →
      r = (insertOrder s x, []) ∧
      ladderOrders (s._asks.takeWhile fun e => decide (e.1 ≤ x._price)) = [] ∧
      (s._asks.dropWhile fun e => decide (e.1 ≤ x._price)) = s._asks := by
    intro hcase
    have hq : (insertOrder s x).quiet := by
      rw [quiet_iff]
      intro bp bb bl ap ab al h1 h2
      rw [ha1] at h2
      rcases hcase with h0 | ⟨ap0, ab0, al0, h0, hlt⟩
      · rw [h0] at h2; simp at h2
      · rw [h0] at h2
        simp only [List.cons.injEq, Prod.mk.injEq] at h2
        rw [← h2.1.1]
        have hk : bp ∈ (pushBack bidBefore x._price x s._bids).map Prod.fst := by
          rw [← hb1, h1]; simp
        rcases pushBack_keys_subset _ _ _ _ bp hk with hk | hk
        · rw [hk]; exact hlt
        · obtain ⟨b, hb, hbe⟩ := List.mem_map.mp hk
          rw [← hbe]
          exact hu b hb (ap0, ab0) (by rw [h0]; exact List.mem_cons_self _ _)
    cases fuel with
    | zero => simp [matchLoop] at h
    | succ n =>
      rw [matchLoop_of_quiet n _ _ hq] at h
      simp only [Option.some.injEq] at h
      refine ⟨h.symm, ?_, ?_⟩
      · rcases hcase with h0 | ⟨ap0, ab0, al0, h0, hlt⟩
        · rw [h0]; rfl
        · have hd : decide (ap0 ≤ x._price) = false := by simpa using hlt
          rw [h0]; simp [List.takeWhile, hd, ladderOrders_nil]
      · rcases hcase with h0 | ⟨ap0, ab0, al0, h0, hlt⟩
        · rw [h0]; rfl
        · have hd : decide (ap0 ≤ x._price) = false := by simpa using hlt
          rw [h0]; simp [List.dropWhile, hd]
  by_cases hcase : s._asks = [] ∨ ∃ ap ab al, s._asks = (ap, ab) :: al ∧ x._price < ap
  · obtain ⟨e1, e2, e3⟩ := hquiet hcase
    subst e1
    rw [e2, e3]
    simp only [sweepLeft, sweepRest, sweepFills, List.map_nil, List.nil_append, order_eta]
    exact ⟨hb1, by rw [ha1], trivial, fun hne => by rw [ha1]; exact hne⟩
  · cases hasks : s._asks with
    | nil => exact absurd (Or.inl hasks) hcase
    | cons e al =>
      obtain ⟨ap, ab⟩ := e
      have hle : ap ≤ x._price := by
        by_contra hlt
        exact hcase (Or.inr ⟨ap, ab, al, hasks, not_le.mp hlt⟩)
      have hall : ∀ k ∈ s._bids.map Prod.fst, k < x._price := by
        intro k hk
        obtain ⟨b, hb, hbe⟩ := List.mem_map.mp hk
        rw [← hbe]
        exact lt_of_lt_of_le
          (hu b hb (ap, ab) (by rw [hasks]; exact List.mem_cons_self _ _)) hle
      have htop := pushBack_top_bid x._price x s._bids hall
      have hx : ∀ b ∈ s._bids, ∀ k ∈ (insertOrder s x)._asks.map Prod.fst, b.1 < k := by
        intro b hb k hk
        rw [ha1] at hk
        obtain ⟨a, ha, hae⟩ := List.mem_map.mp hk
        rw [← hae]
        exact hu b hb a ha
      obtain ⟨f1, f2, f3, f4⟩ := matchLoop_buy x._price s._bids fuel (insertOrder s x) [] x r
        hw1 (hb1.trans htop) hx h
      rw [ha1, hasks] at f1 f2 f3 f4
      refine ⟨?_, f2, by simpa using f3, f4⟩
      rw [f1]
      cases sweepLeft x._remainingQuantity
          (ladderOrders (List.takeWhile (fun e => decide (e.1 ≤ x._price)) ((ap, ab) :: al))) with
      | none => rfl
      | some q =>
        simp only [ladderWith]
        exact (pushBack_top_bid x._price _ s._bids hall).symm

/-- An incoming ask `x` with a fresh id is inserted in a well-formed, uncrossed book and the
matching loop runs: the bid levels priced at or above the price of `x` are swept in
priority order, and `x` rests with what it has left. -/
theorem matchLoop_insert_sell (s : Orderbook) (x : Order) (fuel : Nat) (r : Orderbook × Trades)
    (hw : s.WellFormed) (hu : s.uncrossed) (hside : x._side = Side.SELL)
    (hf : findKey x._orderId s._orders = none)
    (h : matchLoop fuel (insertOrder s x) [] = some r) :
    r.1._asks = (match sweepLeft x._remainingQuantity
        (ladderOrders (s._bids.takeWhile fun e => decide (x._price ≤ e.1))) with
      | none => s._asks
      | some q => pushBack askBefore x._price { x with _remainingQuantity := q } s._asks) ∧
    ladderOrders r.1._bids =
      sweepRest x._remainingQuantity
        (ladderOrders (s._bids.takeWhile fun e => decide (x._price ≤ e.1))) ++
        ladderOrders (s._bids.dropWhile fun e => decide (x._price ≤ e.1)) ∧
    r.2 = (sweepFills x._remainingQuantity
        (ladderOrders (s._bids.takeWhile fun e => decide (x._price ≤ e.1)))).map
          (fun f => frontTrade f.1 x f.2) ∧
    ((∀ e ∈ s._bids, e.2 ≠ []) → ∀ e ∈ r.1._bids, e.2 ≠ []) := by
  have hw1 := wellFormed_insertOrder s x hw hf
  have hnb : x._side ≠ Side.BUY := by rw [hside]; decide
  have ha1 : (insertOrder s x)._asks = pushBack askBefore x._price x s._asks := by
    rw [insertOrder_asks, if_neg hnb]
  have hb1 : (insertOrder s x)._bids = s._bids := by
    rw [insertOrder_bids, if_neg hnb]
  have hquiet : (s._bids = [] ∨ ∃ bp bb bl, s._bids = (bp, bb) :: bl ∧ bp < x._price) →
      r = (insertOrder s x, []) ∧
      ladderOrders (s._bids.takeWhile fun e => decide (x._price ≤ e.1)) = [] ∧
      (s._bids.dropWhile fun e => decide (x._price ≤ e.1)) = s._bids := by
    intro hcase
    have hq : (insertOrder s x).quiet := by
      rw [quiet_iff]
      intro bp bb bl ap ab al h1 h2
      rw [hb1] at h1
      rcases hcase with h0 | ⟨bp0, bb0, bl0, h0, hlt⟩
      · rw [h0] at h1; simp at h1
      · rw [h0] at h1
        simp only [List.cons.injEq, Prod.mk.injEq] at h1
        rw [← h1.1.1]
        have hk : ap ∈ (pushBack askBefore x._price x s._asks).map Prod.fst := by
          rw [← ha1, h2]; simp
        rcases pushBack_keys_subset _ _ _ _ ap hk with hk | hk
        · rw [hk]; exact hlt
        · obtain ⟨a, ha, hae⟩ := List.mem_map.mp hk
          rw [← hae]
          exact hu (bp0, bb0) (by rw [h0]; exact List.mem_cons_self _ _) a ha
    cases fuel with
    | zero => simp [matchLoop] at h
    | succ n =>
      rw [matchLoop_of_quiet n _ _ hq] at h
      simp only [Option.some.injEq] at h
      refine ⟨h.symm, ?_, ?_⟩
      · rcases hcase with h0 | ⟨bp0, bb0, bl0, h0, hlt⟩
        · rw [h0]; rfl
        · have hd : decide (x._price ≤ bp0) = false := by simpa using hlt
          rw [h0]; simp [List.takeWhile, hd, ladderOrders_nil]
      · rcases hcase with h0 | ⟨bp0, bb0, bl0, h0, hlt⟩
        · rw [h0]; rfl
        · have hd : decide (x._price ≤ bp0) = false := by simpa using hlt
          rw [h0]; simp [List.dropWhile, hd]
  by_cases hcase : s._bids = [] ∨ ∃ bp bb bl, s._bids = (bp, bb) :: bl ∧ bp < x._price
  · obtain ⟨e1, e2, e3⟩ := hquiet hcase
    subst e1
    rw [e2, e3]
    simp only [sweepLeft, sweepRest, sweepFills, List.map_nil, List.nil_append, order_eta]
    exact ⟨ha1, by rw [hb1], trivial, fun hne => by rw [hb1]; exact hne⟩
  · cases hbids : s._bids with
    | nil => exact absurd (Or.inl hbids) hcase
    | cons e bl =>
      obtain ⟨bp, bb⟩ := e
      have hle : x._price ≤ bp := by
        by_contra hlt
        exact hcase (Or.inr ⟨bp, bb, bl, hbids, not_le.mp hlt⟩)
      have hall : ∀ k ∈ s._asks.map Prod.fst, x._price < k := by
        intro k hk
        obtain ⟨a, ha, hae⟩ := List.mem_map.mp hk
        rw [← hae]
        exact lt_of_le_of_lt hle
          (hu (bp, bb) (by rw [hbids]; exact List.mem_cons_self _ _) a ha)
      have htop := pushBack_top_ask x._price x s._asks hall
      have hx : ∀ a ∈ s._asks, ∀ k ∈ (insertOrder s x)._bids.map Prod.fst, k < a.1 := by
        intro a ha k hk
        rw [hb1] at hk
        obtain ⟨b, hb, hbe⟩ := List.mem_map.mp hk
        rw [← hbe]
        exact hu b hb a ha
      obtain ⟨f1, f2, f3, f4⟩ := matchLoop_sell x._price s._asks fuel (insertOrder s x) [] x r
        hw1 (ha1.trans htop) hx h
      rw [hb1, hbids] at f1 f2 f3 f4
      refine ⟨?_, f2, by simpa using f3, f4⟩
      rw [f1]
      cases sweepLeft x._remainingQuantity
          (ladderOrders (List.takeWhile (fun e => decide (x._price ≤ e.1)) ((bp, bb) :: bl))) with
      | none => rfl
      | some q =>
        simp only [ladderWith]
        exact (pushBack_top_ask x._price _ s._asks hall).symm

/-! ### Both sides at once -/

/-- Insertion of an incoming order with a fresh id followed by the matching loop, for either
side: the reachable opposite orders are swept in priority order. -/
theorem matchLoop_insert (s : Orderbook) (x : Order) (fuel : Nat) (r : Orderbook × Trades)
    (hw : s.WellFormed) (hu : s.uncrossed) (hf : findKey x._orderId s._orders = none)
    (h : matchLoop fuel (insertOrder s x) [] = some r) :
    r.1.own x._side = (match sweepLeft x._remainingQuantity (reachQueue s x) with
      | none => s.own x._side
      | some q => pushBack (ownBefore x._side) x._price { x with _remainingQuantity := q }
          (s.own x._side)) ∧
    ladderOrders (r.1.opposite x._side) =
      sweepRest x._remainingQuantity (reachQueue s x) ++ beyondReach s x ∧
    r.2 = (sweepFills x._remainingQuantity (reachQueue s x)).map (tradeOf x) ∧
    ((∀ e ∈ s.opposite x._side, e.2 ≠ []) → ∀ e ∈ r.1.opposite x._side, e.2 ≠ []) := by
  by_cases hside : x._side = Side.BUY
  · have hown : ∀ s1 : Orderbook, s1.own x._side = s1._bids := fun s1 => by
      simp [Orderbook.own, hside]
    have hopp : ∀ s1 : Orderbook, s1.opposite x._side = s1._asks := fun s1 => by
      simp [Orderbook.opposite, hside]
    have hbef : ownBefore x._side = bidBefore := by simp [ownBefore, hside]
    have hadm : (fun e : Price × OrderPointers => admissible x._side x._price e.1)
        = fun e => decide (e.1 ≤ x._price) := by
      funext e; simp [admissible, hside]
    have htr : tradeOf x = fun f => frontTrade x f.1 f.2 := by
      funext f; simp [tradeOf, hside]
    rw [hown, hown, hopp, hopp, hbef, htr]
    unfold reachQueue beyondReach
    rw [hopp, hadm]
    exact matchLoop_insert_buy s x fuel r hw hu hside hf h
  · have hs : x._side = Side.SELL := side_sell_of_ne_buy _ hside
    have hown : ∀ s1 : Orderbook, s1.own x._side = s1._asks := fun s1 => by
      simp [Orderbook.own, hside]
    have hopp : ∀ s1 : Orderbook, s1.opposite x._side = s1._bids := fun s1 => by
      simp [Orderbook.opposite, hside]
    have hbef : ownBefore x._side = askBefore := by simp [ownBefore, hside]
    have hadm : (fun e : Price × OrderPointers => admissible x._side x._price e.1)
        = fun e => decide (x._price ≤ e.1) := by
      funext e; simp [admissible, hside]
    have htr : tradeOf x = fun f => frontTrade f.1 x f.2 := by
      funext f; simp [tradeOf, hside]
    rw [hown, hown, hopp, hopp, hbef, htr]
    unfold reachQueue beyondReach
    rw [hopp, hadm]
    exact matchLoop_insert_sell s x fuel r hw hu hs hf h

theorem mem_ladders_iff (s : Orderbook) (side : Side) (e : Price × OrderPointers) :
    e ∈ s._bids ++ s._asks ↔ e ∈ s.own side ∨ e ∈ s.opposite side := by
  cases side <;> simp [Orderbook.own, Orderbook.opposite, List.mem_append, or_comm]

theorem mem_resting_iff (s : Orderbook) (side : Side) (o : Order) :
    o ∈ s.restingOrders ↔ o ∈ ladderOrders (s.own side) ∨ o ∈ ladderOrders (s.opposite side) := by
  cases side <;>
    simp [Orderbook.restingOrders, Orderbook.own, Orderbook.opposite, List.mem_append, or_comm]

theorem canMatch_iff (s : Orderbook) (side : Side) (price : Price) :
    canMatch s side price = true ↔
      ∃ p bucket rest, s.opposite side = (p, bucket) :: rest ∧ admissible side price p = true := by
  cases side
  · simp only [canMatch, Orderbook.opposite, admissible, if_true]
    cases s._asks with
    | nil => simp
    | cons e rest => obtain ⟨p, b⟩ := e; simp
  · have hne : Side.SELL ≠ Side.BUY := by decide
    simp only [canMatch, Orderbook.opposite, admissible, hne, if_false]
    cases s._bids with
    | nil => simp
    | cons e rest => obtain ⟨p, b⟩ := e; simp

/-- In an uncrossed book an order that can match is inserted at the top of its own ladder,
in a bucket of its own. -/
theorem pushBack_top_of_canMatch (s : Orderbook) (hu : s.uncrossed) (side : Side) (price : Price)
    (y : Order) (hc : canMatch s side price = true) :
    pushBack (ownBefore side) price y (s.own side) = (price, [y]) :: s.own side := by
  obtain ⟨p, bucket, rest, hopp, hadm⟩ := (canMatch_iff s side price).mp hc
  cases side
  · simp only [Orderbook.opposite, admissible, if_true, decide_eq_true_eq] at hopp hadm
    simp only [ownBefore, Orderbook.own, if_true]
    apply pushBack_top_bid
    intro k hk
    obtain ⟨b, hb, hbe⟩ := List.mem_map.mp hk
    rw [← hbe]
    exact lt_of_lt_of_le (hu b hb (p, bucket) (by rw [hopp]; exact List.mem_cons_self _ _)) hadm
  · have hne : Side.SELL ≠ Side.BUY := by decide
    simp only [Orderbook.opposite, admissible, hne, if_false, decide_eq_true_eq] at hopp hadm
    simp only [ownBefore, Orderbook.own, hne, if_false]
    apply pushBack_top_ask
    intro k hk
    obtain ⟨a, ha, hae⟩ := List.mem_map.mp hk
    rw [← hae]
    exact lt_of_le_of_lt hadm (hu (p, bucket) (by rw [hopp]; exact List.mem_cons_self _ _) a ha)

theorem mem_sweepRest (Q : List Order) : ∀ (r : Quantity) (o : Order), o ∈ sweepRest r Q →
    ∃ o0 ∈ Q, ∃ q, o = { o0 with _remainingQuantity := q } := by
  induction Q with
  | nil => intro r o h; simp [sweepRest] at h
  | cons a rest ih =>
    intro r o h
    simp only [sweepRest] at h
    by_cases h1 : a._remainingQuantity < r
    · simp only [h1, if_true] at h
      obtain ⟨o0, ho0, q, hq⟩ := ih _ o h
      exact ⟨o0, List.mem_cons_of_mem _ ho0, q, hq⟩
    · simp only [h1, if_false] at h
      by_cases h2 : a._remainingQuantity = r
      · simp only [h2, if_true] at h
        exact ⟨o, List.mem_cons_of_mem _ h, o._remainingQuantity, (order_eta o).symm⟩
      · simp only [h2, if_false] at h
        rcases List.mem_cons.mp h with h | h
        · exact ⟨a, List.mem_cons_self _ _, _, h⟩
        · exact ⟨o, List.mem_cons_of_mem _ h, o._remainingQuantity, (order_eta o).symm⟩

theorem reachQueue_subset (s : Orderbook) (x : Order) :
    ∀ o ∈ reachQueue s x, o ∈ ladderOrders (s.opposite x._side) := by
  intro o ho
  unfold reachQueue at ho
  obtain ⟨e, he, hoe⟩ := (mem_ladderOrders o _).mp ho
  exact (mem_ladderOrders o _).mpr ⟨e, (List.takeWhile_sublist _).subset he, hoe⟩

theorem beyondReach_subset (s : Orderbook) (x : Order) :
    ∀ o ∈ beyondReach s x, o ∈ ladderOrders (s.opposite x._side) := by
  intro o ho
  unfold beyondReach at ho
  obtain ⟨e, he, hoe⟩ := (mem_ladderOrders o _).mp ho
  exact (mem_ladderOrders o _).mpr ⟨e, (List.dropWhile_sublist _).subset he, hoe⟩

theorem killFront_own (side : Side) (s : Orderbook)
    (h1 : killFront s s._bids = some s) (h2 : killFront s s._asks = some s) :
    killFront s (s.own side) = some s := by
  cases side <;> simp [Orderbook.own, h1, h2]

/-- What a `matchOrders` that returns has done after the insertion of an incoming order `x`
with a fresh id into a good book held under the lock. -/
theorem matchOrders_insert_spec (s s2 : Orderbook) (x : Order) (t : Trades)
    (hm : s._ordersMutex = true) (hw : s.WellFormed) (hu : s.uncrossed)
    (hne : s.noEmptyBucket) (hnf : s.noFillAndKill)
    (hf : findKey x._orderId s._orders = none)
    (hfak : x._orderType = OrderType.FILLANDKILL → canMatch s x._side x._price = true)
    (h : matchOrders (insertOrder s x) = some (t, s2)) :
    s2.own x._side = (match sweepLeft x._remainingQuantity (reachQueue s x) with
      | none => s.own x._side
      | some q => pushBack (ownBefore x._side) x._price { x with _remainingQuantity := q }
          (s.own x._side)) ∧
    ladderOrders (s2.opposite x._side) =
      sweepRest x._remainingQuantity (reachQueue s x) ++ beyondReach s x ∧
    t = (sweepFills x._remainingQuantity (reachQueue s x)).map (tradeOf x) ∧
    s2.noEmptyBucket ∧ s2.noFillAndKill ∧
    (x._orderType = OrderType.FILLANDKILL →
      sweepLeft x._remainingQuantity (reachQueue s x) = none) := by
  obtain ⟨hl, hk1, hk2⟩ := matchOrders_locked _ s2 t ((insertOrder_mutex s x).trans hm) h
  obtain ⟨hw2, _⟩ := wellFormed_matchLoop _ _ _ _ (wellFormed_insertOrder s x hw hf) hl
  have hm2 : s2._ordersMutex = true :=
    (matchLoop_mutex _ _ _ _ hl).trans ((insertOrder_mutex s x).trans hm)
  obtain ⟨f1, f2, f3, f4⟩ := matchLoop_insert s x _ (s2, t) hw hu hf hl
  have hfakLeft : x._orderType = OrderType.FILLANDKILL →
      sweepLeft x._remainingQuantity (reachQueue s x) = none := by
    intro ht
    cases hsl : sweepLeft x._remainingQuantity (reachQueue s x) with
    | none => rfl
    | some q =>
      exfalso
      rw [hsl] at f1
      simp only at f1
      rw [pushBack_top_of_canMatch s hu x._side x._price _ (hfak ht)] at f1
      have hk := killFront_own x._side s2 hk1 hk2
      rcases (killFront_locked s2 s2 _ hm2 hk).2 with h0 | ⟨p, o, rest, more, h0, hto⟩
      · rw [f1] at h0; simp at h0
      · rw [f1] at h0
        simp only [List.cons.injEq, Prod.mk.injEq] at h0
        apply hto
        rw [← h0.1.2.1]
        exact ht
  refine ⟨f1, f2, f3, ?_, ?_, hfakLeft⟩
  · intro e he
    rcases (mem_ladders_iff s2 x._side e).mp he with he | he
    · rw [f1] at he
      have hown : ∀ e ∈ s.own x._side, e.2 ≠ [] := fun e he =>
        hne e ((mem_ladders_iff s x._side e).mpr (Or.inl he))
      cases hsl : sweepLeft x._remainingQuantity (reachQueue s x) with
      | none => rw [hsl] at he; exact hown e he
      | some q => rw [hsl] at he; exact pushBack_nonempty _ _ _ _ hown e he
    · exact f4 (fun e he => hne e ((mem_ladders_iff s x._side e).mpr (Or.inr he))) e he
  · intro o ho
    rcases (mem_resting_iff s2 x._side o).mp ho with ho | ho
    · rw [f1] at ho
      have hown : ∀ o ∈ ladderOrders (s.own x._side), o._orderType ≠ OrderType.FILLANDKILL :=
        fun o ho => hnf o ((mem_resting_iff s x._side o).mpr (Or.inl ho))
      cases hsl : sweepLeft x._remainingQuantity (reachQueue s x) with
      | none => rw [hsl] at ho; exact hown o ho
      | some q =>
        rw [hsl] at ho
        rcases List.mem_cons.mp ((pushBack_perm _ _ _ _).subset ho) with ho | ho
        · intro ht
          rw [ho] at ht
          have := hfakLeft ht
          rw [hsl] at this
          exact Option.noConfusion this
        · exact hown o ho
    · rw [f2] at ho
      have hopp : ∀ o ∈ ladderOrders (s.opposite x._side),
          o._orderType ≠ OrderType.FILLANDKILL :=
        fun o ho => hnf o ((mem_resting_iff s x._side o).mpr (Or.inr ho))
      rcases List.mem_append.mp ho with ho | ho
      · obtain ⟨o0, ho0, q, hq⟩ := mem_sweepRest _ _ o ho
        rw [hq]
        exact hopp o0 (reachQueue_subset s x o0 ho0)
      · exact hopp o (beyondReach_subset s x o ho)

/-! ### Admission -/

theorem canMatch_lock (s : Orderbook) (b : Bool) (side : Side) (price : Price) :
    canMatch { s with _ordersMutex := b } side price = canMatch s side price := rfl

theorem canFullyFill_lock (s : Orderbook) (b : Bool) (side : Side) (price : Price)
    (q : Quantity) :
    canFullyFill { s with _ordersMutex := b } side price q = canFullyFill s side price q := rfl

theorem relock_eq (s : Orderbook) (h : s._ordersMutex = false) :
    { ({ s with _ordersMutex := true } : Orderbook) with _ordersMutex := false } = s := by
  cases s; simp_all

theorem rejects_lock (s : Orderbook) (b : Bool) (order : Order) :
    Orderbook.rejects { s with _ordersMutex := b } order ↔ Orderbook.rejects s order := Iff.rfl

/-- In each of its four rejecting situations the body of `addOrder` returns no trade and the
book it was given. -/
theorem addOrderLocked_of_rejected (s : Orderbook) (order : Order)
    (h : Orderbook.rejects s order) : addOrderLocked s order = some ([], s) := by
  unfold addOrderLocked
  cases hf : findKey order._orderId s._orders with
  | some o => simp
  | none =>
    simp only
    rcases h with h | h | h | h
    · exact absurd hf h
    · obtain ⟨ht, hs⟩ := h
      have hc : convertMarket s order = none := by
        unfold convertMarket
        rcases hs with ⟨h1, h2⟩ | ⟨h1, h2⟩ <;> simp [h1, h2]
      simp [ht, hc]
    · obtain ⟨ht, hc⟩ := h
      simp [ht, admitOrder, hc]
    · obtain ⟨ht, hc⟩ := h
      simp [ht, admitOrder, hc]

theorem addOrder_of_rejected (s : Orderbook) (order : Order)
    (hm : s._ordersMutex = false) (h : Orderbook.rejects s order) :
    addOrder s order = some ([], s) := by
  unfold addOrder withLock
  simp [hm, addOrderLocked_of_rejected _ order ((rejects_lock s true order).mpr h),
    relock_eq s hm]

theorem effective_of_not_market (s : Orderbook) (order : Order)
    (h : order._orderType ≠ OrderType.MARKET) : effective s order = order := by
  simp [effective, h]

/-- The order `addOrder` goes on with is the incoming order, or, for a MARKET order that is
not rejected, the incoming order repriced to the last price of the opposite ladder and
turned into GOODTILLCANCEL. -/
theorem effective_cases (s : Orderbook) (order : Order) :
    effective s order = order ∨
    (order._orderType = OrderType.MARKET ∧
      ∃ price bucket, (s.opposite order._side).getLast? = some (price, bucket) ∧
        convertMarket s order = some (some
          { order with _price := price, _orderType := OrderType.GOODTILLCANCEL }) ∧
        effective s order =
          { order with _price := price, _orderType := OrderType.GOODTILLCANCEL }) := by
  by_cases ht : order._orderType = OrderType.MARKET
  · cases hc : convertMarket s order with
    | none => left; simp [effective, ht, hc]
    | some oo =>
      cases oo with
      | none => left; simp [effective, ht, hc]
      | some order1 =>
        right
        obtain ⟨price, ho, hcase⟩ := convertMarket_some s order order1 hc
        refine ⟨ht, price, ?_⟩
        rcases hcase with ⟨hs, bucket, hl⟩ | ⟨hs, bucket, hl⟩
        · refine ⟨bucket, by simp [Orderbook.opposite, hs, hl], by rw [ho], ?_⟩
          simp [effective, ht, hc, ho]
        · refine ⟨bucket, by simp [Orderbook.opposite, hs, hl], by rw [ho], ?_⟩
          simp [effective, ht, hc, ho]
  · left; exact effective_of_not_market s order ht

theorem effective_id (s : Orderbook) (order : Order) :
    (effective s order)._orderId = order._orderId := by
  rcases effective_cases s order with h | ⟨_, _, _, _, _, h⟩ <;> rw [h]

theorem effective_side (s : Orderbook) (order : Order) :
    (effective s order)._side = order._side := by
  rcases effective_cases s order with h | ⟨_, _, _, _, _, h⟩ <;> rw [h]

theorem effective_remaining (s : Orderbook) (order : Order) :
    (effective s order)._remainingQuantity = order._remainingQuantity := by
  rcases effective_cases s order with h | ⟨_, _, _, _, _, h⟩ <;> rw [h]

theorem effective_fak (s : Orderbook) (order : Order)
    (h : (effective s order)._orderType = OrderType.FILLANDKILL) :
    effective s order = order ∧ order._orderType = OrderType.FILLANDKILL := by
  rcases effective_cases s order with h1 | ⟨_, _, _, _, _, h1⟩
  · rw [h1] at h; exact ⟨h1, h⟩
  · rw [h1] at h; simp at h

theorem getLast?_ne_none {α : Type} (l : List α) (h : l ≠ []) : ∃ a, l.getLast? = some a := by
  cases hl : l.getLast? with
  | none => exact absurd (List.getLast?_eq_none_iff.mp hl) h
  | some a => exact ⟨a, rfl⟩

/-- A MARKET order is rejected exactly when the opposite ladder is empty; otherwise its
conversion succeeds. -/
theorem convertMarket_of_opposite (s : Orderbook) (order : Order)
    (ht : order._orderType = OrderType.MARKET) (hopp : s.opposite order._side ≠ []) :
    ∃ price bucket, (s.opposite order._side).getLast? = some (price, bucket) ∧
      convertMarket s order = some (some
        { order with _price := price, _orderType := OrderType.GOODTILLCANCEL }) := by
  obtain ⟨⟨price, bucket⟩, hl⟩ := getLast?_ne_none _ hopp
  refine ⟨price, bucket, hl, ?_⟩
  have htg : order.toGoodTillCancel price = some
      { order with _price := price, _orderType := OrderType.GOODTILLCANCEL } := by
    simp [Order.toGoodTillCancel, ht]
  unfold convertMarket
  by_cases hs : order._side = Side.BUY
  · simp only [Orderbook.opposite, hs, if_true] at hopp hl
    rw [if_pos ⟨hs, hopp⟩, hl]
    simp [htg]
  · have hs2 := side_sell_of_ne_buy _ hs
    simp only [Orderbook.opposite, hs, if_false] at hopp hl
    rw [if_neg (fun h => hs h.1), if_pos ⟨hs2, hopp⟩, hl]
    simp [htg]

/-- An order that is not rejected goes through insertion and `matchOrders` as its
effective order. -/
theorem addOrderLocked_of_admitted (s : Orderbook) (order : Order)
    (h : ¬ Orderbook.rejects s order) :
    addOrderLocked s order = matchOrders (insertOrder s (effective s order)) ∧
    findKey order._orderId s._orders = none := by
  unfold Orderbook.rejects at h
  simp only [not_or, not_and, ne_eq, not_not] at h
  obtain ⟨hf, hmk, hfak, hfok⟩ := h
  refine ⟨?_, hf⟩
  unfold addOrderLocked
  rw [hf]
  by_cases ht : order._orderType = OrderType.MARKET
  · have hopp : s.opposite order._side ≠ [] := by
      have := hmk ht
      simp only [not_or, not_and] at this
      by_cases hs : order._side = Side.BUY
      · simp only [Orderbook.opposite, hs, if_true]; exact this.1 hs
      · simp only [Orderbook.opposite, hs, if_false]
        exact this.2 (side_sell_of_ne_buy _ hs)
    obtain ⟨price, bucket, hl, hc⟩ := convertMarket_of_opposite s order ht hopp
    have he : effective s order =
        { order with _price := price, _orderType := OrderType.GOODTILLCANCEL } := by
      simp [effective, ht, hc]
    simp only [ht, if_true, hc]
    rw [he]
    simp [admitOrder]
  · simp only [ht, if_false]
    rw [effective_of_not_market s order ht]
    unfold admitOrder
    have h1 : ¬ (order._orderType = OrderType.FILLANDKILL ∧
        (!canMatch s order._side order._price) = true) := by
      rintro ⟨h1, h2⟩
      have := hfak h1
      simp [this] at h2
    have h2 : ¬ (order._orderType = OrderType.FILLORKILL ∧
        (!canFullyFill s order._side order._price order._initialQuantity) = true) := by
      rintro ⟨h1, h2⟩
      have := hfok h1
      simp [this] at h2
    rw [if_neg h1, if_neg h2]

theorem addOrder_unlocked (s : Orderbook) (order : Order) (hm : s._ordersMutex = false) :
    addOrder s order =
      (addOrderLocked { s with _ordersMutex := true } order).map
        (fun r => (r.1, { r.2 with _ordersMutex := false })) := by
  unfold addOrder withLock
  simp [hm]

theorem effective_lock (s : Orderbook) (b : Bool) (order : Order) :
    effective { s with _ordersMutex := b } order = effective s order := rfl

theorem reachQueue_lock (s : Orderbook) (b : Bool) (x : Order) :
    reachQueue { s with _ordersMutex := b } x = reachQueue s x := by
  cases hs : x._side <;> simp [reachQueue, Orderbook.opposite, hs]

theorem beyondReach_lock (s : Orderbook) (b : Bool) (x : Order) :
    beyondReach { s with _ordersMutex := b } x = beyondReach s x := by
  cases hs : x._side <;> simp [beyondReach, Orderbook.opposite, hs]

theorem own_lock (s : Orderbook) (b : Bool) (side : Side) :
    ({ s with _ordersMutex := b } : Orderbook).own side = s.own side := by
  cases side <;> rfl

theorem opposite_lock (s : Orderbook) (b : Bool) (side : Side) :
    ({ s with _ordersMutex := b } : Orderbook).opposite side = s.opposite side := by
  cases side <;> rfl

/-- What `addOrder` does on a good book: a rejected order changes nothing; an admitted
order sweeps the reachable opposite orders in priority order and rests with what it has
left; the book stays good. -/
theorem addOrder_spec (s s1 : Orderbook) (order : Order) (t : Trades) (hg : s.Good)
    (h : addOrder s order = some (t, s1)) :
    s1.Good ∧
    ((Orderbook.rejects s order ∧ t = [] ∧ s1 = s) ∨
     (¬ Orderbook.rejects s order ∧
      findKey order._orderId s._orders = none ∧
      s1.own (effective s order)._side =
        (match sweepLeft (effective s order)._remainingQuantity
            (reachQueue s (effective s order)) with
        | none => s.own (effective s order)._side
        | some q => pushBack (ownBefore (effective s order)._side) (effective s order)._price
            { effective s order with _remainingQuantity := q }
            (s.own (effective s order)._side)) ∧
      ladderOrders (s1.opposite (effective s order)._side) =
        sweepRest (effective s order)._remainingQuantity (reachQueue s (effective s order)) ++
          beyondReach s (effective s order) ∧
      t = (sweepFills (effective s order)._remainingQuantity
          (reachQueue s (effective s order))).map (tradeOf (effective s order)) ∧
      ((effective s order)._orderType = OrderType.FILLANDKILL →
        sweepLeft (effective s order)._remainingQuantity
          (reachQueue s (effective s order)) = none))) := by
  obtain ⟨hw, hu, hm, hne, hnf⟩ := hg
  by_cases hr : Orderbook.rejects s order
  · rw [addOrder_of_rejected s order hm hr] at h
    simp only [Option.some.injEq, Prod.mk.injEq] at h
    obtain ⟨h1, h2⟩ := h
    subst h1; subst h2
    exact ⟨⟨hw, hu, hm, hne, hnf⟩, Or.inl ⟨hr, rfl, rfl⟩⟩
  · rw [addOrder_unlocked s order hm] at h
    obtain ⟨hal, hf⟩ := addOrderLocked_of_admitted { s with _ordersMutex := true } order
      ((rejects_lock s true order).not.mpr hr)
    rw [hal, effective_lock] at h
    cases hmo : matchOrders (insertOrder { s with _ordersMutex := true } (effective s order)) with
    | none => simp [hmo] at h
    | some r2 =>
      obtain ⟨t2, s2⟩ := r2
      simp only [hmo, Option.map_some', Option.some.injEq, Prod.mk.injEq] at h
      obtain ⟨ht, hs⟩ := h
      subst ht
      have hw0 := wellFormed_congr s { s with _ordersMutex := true } rfl rfl rfl hw
      have hu0 := uncrossed_congr s { s with _ordersMutex := true } rfl rfl hu
      have hf0 : findKey (effective s order)._orderId
          ({ s with _ordersMutex := true } : Orderbook)._orders = none := by
        rw [effective_id]; exact hf
      have hfak : (effective s order)._orderType = OrderType.FILLANDKILL →
          canMatch { s with _ordersMutex := true } (effective s order)._side
            (effective s order)._price = true := by
        intro hty
        obtain ⟨he, hty2⟩ := effective_fak s order hty
        rw [he, canMatch_lock]
        by_contra hc
        apply hr
        exact Or.inr (Or.inr (Or.inl ⟨hty2, by simpa using hc⟩))
      obtain ⟨g1, g2, g3, g4, g5, g6⟩ := matchOrders_insert_spec _ s2 (effective s order) t2
        rfl hw0 hu0 hne hnf hf0 hfak hmo
      obtain ⟨hw2, hu2, _⟩ := matchOrders_invariant _ s2 t2
        ((insertOrder_mutex _ _).trans rfl) (wellFormed_insertOrder _ _ hw0 hf0) hmo
      simp only [reachQueue_lock, beyondReach_lock, own_lock] at g1 g2 g3 g6
      subst hs
      refine ⟨⟨wellFormed_congr s2 _ rfl rfl rfl hw2, uncrossed_congr s2 _ rfl rfl hu2, rfl,
        g4, g5⟩, Or.inr ⟨hr, hf, ?_, ?_, g3, g6⟩⟩
      · rw [own_lock]; exact g1
      · rw [opposite_lock]; exact g2

/-! ### Reachable books are good -/

theorem removeFromLadder_nonempty (ladder ladder1 : Ladder) (price : Price) (orderId : OrderId)
    (hn : (ladder.map Prod.fst).Nodup)
    (h : removeFromLadder ladder price orderId = some ladder1)
    (hne : ∀ e ∈ ladder, e.2 ≠ []) : ∀ e ∈ ladder1, e.2 ≠ [] := by
  obtain ⟨L1, L2, front, x, back, hl, _, _, hcase⟩ :=
    removeFromLadder_spec ladder ladder1 price orderId hn h
  intro e he
  rcases hcase with ⟨_, hl1⟩ | ⟨hfb, hl1⟩
  · rw [hl1] at he
    apply hne e
    rw [hl]
    rcases List.mem_append.mp he with he | he
    · exact List.mem_append_left _ he
    · exact List.mem_append_right _ (List.mem_cons_of_mem _ he)
  · rw [hl1] at he
    rcases List.mem_append.mp he with he | he
    · exact hne e (by rw [hl]; exact List.mem_append_left _ he)
    · rcases List.mem_cons.mp he with he | he
      · rw [he]; exact hfb
      · exact hne e (by rw [hl]; exact List.mem_append_right _ (List.mem_cons_of_mem _ he))

theorem cancelOrderInternal_good (s s1 : Orderbook) (orderId : OrderId) (hw : s.WellFormed)
    (hne : s.noEmptyBucket) (hnf : s.noFillAndKill)
    (h : cancelOrderInternal s orderId = some s1) :
    s1.noEmptyBucket ∧ s1.noFillAndKill := by
  obtain ⟨_, _, _, _, _, hb, ha⟩ := cancelOrderInternal_facts s s1 orderId hw h
  constructor
  · rcases cancelOrderInternal_fields s s1 orderId h with h0 | ⟨order, _, _, _, _, hcase⟩
    · rw [h0]; exact hne
    · intro e he
      have hneb : ∀ e ∈ s._bids, e.2 ≠ [] := fun e he => hne e (List.mem_append_left _ he)
      have hnea : ∀ e ∈ s._asks, e.2 ≠ [] := fun e he => hne e (List.mem_append_right _ he)
      rcases hcase with ⟨_, hbe, hr⟩ | ⟨_, hae, hr⟩
      · rcases List.mem_append.mp he with he | he
        · rw [hbe] at he; exact hneb e he
        · exact removeFromLadder_nonempty _ _ _ _ (nodup_of_asc _ hw.asksSorted) hr hnea e he
      · rcases List.mem_append.mp he with he | he
        · exact removeFromLadder_nonempty _ _ _ _ (nodup_of_desc _ hw.bidsSorted) hr hneb e he
        · rw [hae] at he; exact hnea e he
  · intro o ho
    apply hnf o
    unfold Orderbook.restingOrders at ho ⊢
    rcases List.mem_append.mp ho with ho | ho
    · exact List.mem_append_left _ (hb.subset ho)
    · exact List.mem_append_right _ (ha.subset ho)

theorem noEmptyBucket_congr (s s1 : Orderbook) (hb : s1._bids = s._bids)
    (ha : s1._asks = s._asks) (h : s.noEmptyBucket) : s1.noEmptyBucket := by
  unfold Orderbook.noEmptyBucket at *
  rw [hb, ha]; exact h

theorem noFillAndKill_congr (s s1 : Orderbook) (hb : s1._bids = s._bids)
    (ha : s1._asks = s._asks) (h : s.noFillAndKill) : s1.noFillAndKill := by
  unfold Orderbook.noFillAndKill Orderbook.restingOrders at *
  rw [hb, ha]; exact h

theorem cancelOrder_good (s s1 : Orderbook) (orderId : OrderId) (hg : s.Good)
    (h : cancelOrder s orderId = some s1) : s1.Good := by
  obtain ⟨hw, hu, hm, hne, hnf⟩ := hg
  obtain ⟨h1, h2, h3⟩ := cancelOrder_invariant s s1 orderId hw hu h
  obtain ⟨_, s2, hc, hs⟩ := cancelOrder_some s s1 orderId h
  obtain ⟨g1, g2⟩ := cancelOrderInternal_good _ s2 orderId
    (wellFormed_congr s { s with _ordersMutex := true } rfl rfl rfl hw)
    (noEmptyBucket_congr s _ rfl rfl hne) (noFillAndKill_congr s _ rfl rfl hnf) hc
  subst hs
  exact ⟨h1, h2, h3, noEmptyBucket_congr s2 _ rfl rfl g1, noFillAndKill_congr s2 _ rfl rfl g2⟩

theorem matchOrder_good (s s1 : Orderbook) (order : OrderModify) (t : Trades) (hg : s.Good)
    (h : matchOrder s order = some (t, s1)) : s1.Good := by
  unfold matchOrder at h
  cases hf : findKey order._orderId s._orders with
  | none =>
    simp only [hf, Option.some.injEq, Prod.mk.injEq] at h
    obtain ⟨_, h⟩ := h; subst h
    exact hg
  | some existing =>
    simp only [hf] at h
    cases hc : cancelOrder s order._orderId with
    | none => simp [hc] at h
    | some s2 =>
      simp only [hc, Option.some_bind] at h
      exact (addOrder_spec s2 s1 _ t (cancelOrder_good s s2 _ hg hc) h).1

theorem good_empty : Orderbook.empty.Good := by
  refine ⟨wellFormed_empty, ?_, rfl, ?_, ?_⟩
  · intro b hb; simp [Orderbook.empty] at hb
  · intro e he; simp [Orderbook.empty] at he
  · intro o ho; simp [Orderbook.empty, Orderbook.restingOrders, ladderOrders] at ho

/-- Every reachable book is good: well formed, uncrossed, unlocked, without empty buckets
and without resting FILLANDKILL orders. -/
theorem reachable_good (s : Orderbook) (h : Reachable s) : s.Good := by
  induction h with
  | init => exact good_empty
  | add s s1 order trades _ hadd ih => exact (addOrder_spec s s1 order trades ih hadd).1
  | cancel s s1 orderId _ hc ih => exact cancelOrder_good s s1 orderId ih hc
  | modify s s1 order trades _ hmod ih => exact matchOrder_good s s1 order trades ih hmod

/-! ### `addOrder` returns -/

theorem killFront_ok (s : Orderbook) (ladder : Ladder) (hne : ∀ e ∈ ladder, e.2 ≠ [])
    (hnf : ∀ o ∈ ladderOrders ladder, o._orderType ≠ OrderType.FILLANDKILL) :
    killFront s ladder = some s := by
  unfold killFront
  split
  · rfl
  · next p more => exact absurd rfl (hne (p, []) (List.mem_cons_self _ _))
  · next p o rest more =>
    have : o._orderType ≠ OrderType.FILLANDKILL :=
      hnf o ((mem_ladderOrders o _).mpr ⟨(p, o :: rest), List.mem_cons_self _ _,
        List.mem_cons_self _ _⟩)
    simp [this]

/-- On a good book held under the lock, `matchOrders` after the insertion of an order with
a fresh id returns, unless a FILLANDKILL order is left with a remainder. -/
theorem matchOrders_insert_returns (s : Orderbook) (x : Order)
    (hw : s.WellFormed) (hu : s.uncrossed)
    (hne : s.noEmptyBucket) (hnf : s.noFillAndKill)
    (hf : findKey x._orderId s._orders = none)
    (hx : x._orderType ≠ OrderType.FILLANDKILL ∨
      sweepLeft x._remainingQuantity (reachQueue s x) = none) :
    ∃ t s2, matchOrders (insertOrder s x) = some (t, s2) := by
  obtain ⟨r, hl⟩ := matchLoop_total
    ((insertOrder s x)._bids.length + (insertOrder s x)._asks.length + 1) (insertOrder s x) []
    (by unfold Orderbook.levels; omega)
  obtain ⟨f1, f2, _, f4⟩ := matchLoop_insert s x _ r hw hu hf hl
  have hown1 : ∀ e ∈ r.1.own x._side, e.2 ≠ [] := by
    intro e he
    rw [f1] at he
    have hown : ∀ e ∈ s.own x._side, e.2 ≠ [] := fun e he =>
      hne e ((mem_ladders_iff s x._side e).mpr (Or.inl he))
    cases hsl : sweepLeft x._remainingQuantity (reachQueue s x) with
    | none => rw [hsl] at he; exact hown e he
    | some q => rw [hsl] at he; exact pushBack_nonempty _ _ _ _ hown e he
  have hopp1 : ∀ e ∈ r.1.opposite x._side, e.2 ≠ [] :=
    f4 (fun e he => hne e ((mem_ladders_iff s x._side e).mpr (Or.inr he)))
  have hown2 : ∀ o ∈ ladderOrders (r.1.own x._side),
      o._orderType ≠ OrderType.FILLANDKILL := by
    intro o ho
    rw [f1] at ho
    have hown : ∀ o ∈ ladderOrders (s.own x._side), o._orderType ≠ OrderType.FILLANDKILL :=
      fun o ho => hnf o ((mem_resting_iff s x._side o).mpr (Or.inl ho))
    cases hsl : sweepLeft x._remainingQuantity (reachQueue s x) with
    | none => rw [hsl] at ho; exact hown o ho
    | some q =>
      rw [hsl] at ho
      rcases List.mem_cons.mp ((pushBack_perm _ _ _ _).subset ho) with ho | ho
      · rcases hx with hx | hx
        · rw [ho]; exact hx
        · rw [hsl] at hx; exact Option.noConfusion hx
      · exact hown o ho
  have hopp2 : ∀ o ∈ ladderOrders (r.1.opposite x._side),
      o._orderType ≠ OrderType.FILLANDKILL := by
    intro o ho
    rw [f2] at ho
    have hopp : ∀ o ∈ ladderOrders (s.opposite x._side),
        o._orderType ≠ OrderType.FILLANDKILL :=
      fun o ho => hnf o ((mem_resting_iff s x._side o).mpr (Or.inr ho))
    rcases List.mem_append.mp ho with ho | ho
    · obtain ⟨o0, ho0, q, hq⟩ := mem_sweepRest _ _ o ho
      rw [hq]
      exact hopp o0 (reachQueue_subset s x o0 ho0)
    · exact hopp o (beyondReach_subset s x o ho)
  have hk : killFront r.1 r.1._bids = some r.1 ∧ killFront r.1 r.1._asks = some r.1 := by
    cases hs : x._side
    · rw [hs] at hown1 hown2 hopp1 hopp2
      exact ⟨killFront_ok _ _ hown1 hown2, killFront_ok _ _ hopp1 hopp2⟩
    · rw [hs] at hown1 hown2 hopp1 hopp2
      exact ⟨killFront_ok _ _ hopp1 hopp2, killFront_ok _ _ hown1 hown2⟩
  refine ⟨r.2, r.1, ?_⟩
  unfold matchOrders
  simp [hl, hk.1, hk.2]

/-- On a good book `addOrder` returns, unless the order is a FILLANDKILL that would be left
with a remainder. -/
theorem addOrder_returns (s : Orderbook) (order : Order) (hg : s.Good)
    (hx : (effective s order)._orderType ≠ OrderType.FILLANDKILL ∨
      sweepLeft (effective s order)._remainingQuantity (reachQueue s (effective s order))
        = none) :
    ∃ t s1, addOrder s order = some (t, s1) := by
  obtain ⟨hw, hu, hm, hne, hnf⟩ := hg
  by_cases hr : Orderbook.rejects s order
  · exact ⟨[], s, addOrder_of_rejected s order hm hr⟩
  · rw [addOrder_unlocked s order hm]
    obtain ⟨hal, hf⟩ := addOrderLocked_of_admitted { s with _ordersMutex := true } order
      ((rejects_lock s true order).not.mpr hr)
    rw [hal, effective_lock]
    obtain ⟨t, s2, hmo⟩ := matchOrders_insert_returns { s with _ordersMutex := true }
      (effective s order)
      (wellFormed_congr s _ rfl rfl rfl hw) (uncrossed_congr s _ rfl rfl hu)
      (noEmptyBucket_congr s _ rfl rfl hne) (noFillAndKill_congr s _ rfl rfl hnf)
      (by rw [effective_id]; exact hf)
      (by rw [reachQueue_lock]; exact hx)
    exact ⟨t, { s2 with _ordersMutex := false }, by rw [hmo]; rfl⟩

/-! ### Properties of a sweep -/

theorem remainingSum_cons (a : Order) (rest : List Order) :
    remainingSum (a :: rest) = a._remainingQuantity + remainingSum rest := by
  simp [remainingSum]

theorem remainingSum_append (l1 l2 : List Order) :
    remainingSum (l1 ++ l2) = remainingSum l1 + remainingSum l2 := by
  simp [remainingSum]

theorem nat_min_step (a r s : Nat) (h : a < r) : a + min (r - a) s = min r (a + s) := by
  omega

theorem nat_min_stop (a r s : Nat) (h : ¬ a < r) : r = min r (a + s) := by
  omega

theorem nat_left_step (a r s q : Nat) (h : a < r) (hq : q = r - a - s) (hs : s = 0 ∨ s < r - a) :
    q = r - (a + s) ∧ a + s < r := by
  omega

theorem nat_none_step (a r s : Nat) (h : a < r) (hs : r - a ≤ s) : r ≤ a + s := by
  omega

theorem nat_none_stop (a r s : Nat) (h : ¬ a < r) : r ≤ a + s := by
  omega

/-- The quantities of a sweep add up to the smaller of the incoming quantity and the
quantity of the queue. -/
theorem sweepFills_sum (Q : List Order) : ∀ (r : Quantity),
    ((sweepFills r Q).map Prod.snd).sum = min r (remainingSum Q) := by
  induction Q with
  | nil => intro r; simp [sweepFills, remainingSum]
  | cons a rest ih =>
    intro r
    rw [remainingSum_cons]
    simp only [sweepFills]
    by_cases h : a._remainingQuantity < r
    · simp only [h, if_true, List.map_cons, List.sum_cons, ih]
      exact nat_min_step _ _ _ h
    · simp only [h, if_false, List.map_cons, List.map_nil, List.sum_cons, List.sum_nil,
        Nat.add_zero]
      exact nat_min_stop _ _ _ h

theorem sweepFills_length_le (Q : List Order) : ∀ (r : Quantity),
    (sweepFills r Q).length ≤ Q.length := by
  induction Q with
  | nil => intro r; simp [sweepFills]
  | cons a rest ih =>
    intro r
    simp only [sweepFills]
    by_cases h : a._remainingQuantity < r
    · simp only [h, if_true, List.length_cons]; exact Nat.succ_le_succ (ih _)
    · simp [h]

/-- The orders met by a sweep are a prefix of the queue. -/
theorem sweepFills_prefix (Q : List Order) : ∀ (r : Quantity),
    (sweepFills r Q).map Prod.fst = Q.take (sweepFills r Q).length := by
  induction Q with
  | nil => intro r; simp [sweepFills]
  | cons a rest ih =>
    intro r
    simp only [sweepFills]
    by_cases h : a._remainingQuantity < r
    · simp only [h, if_true, List.map_cons, List.length_cons, List.take_succ_cons, ih]
    · simp [h]

/-- Every order met by a sweep, except possibly the last, is filled completely. -/
theorem sweepFills_full (Q : List Order) : ∀ (r : Quantity),
    (sweepFills r Q).dropLast.map Prod.snd =
      (Q.take ((sweepFills r Q).length - 1)).map (fun o => o._remainingQuantity) := by
  induction Q with
  | nil => intro r; simp [sweepFills]
  | cons a rest ih =>
    intro r
    simp only [sweepFills]
    by_cases h : a._remainingQuantity < r
    · simp only [h, if_true, List.length_cons, Nat.add_sub_cancel]
      cases hs : sweepFills (r - a._remainingQuantity) rest with
      | nil => simp
      | cons f more =>
        have := ih (r - a._remainingQuantity)
        rw [hs] at this
        simp only [List.length_cons, Nat.add_sub_cancel] at this
        simp only [List.dropLast_cons₂, List.map_cons, List.length_cons, List.take_succ_cons,
          this]
    · simp [h]

/-- The last order met by a sweep is filled at most completely. -/
theorem sweepFills_le (Q : List Order) : ∀ (r : Quantity) (f : Order × Quantity),
    f ∈ sweepFills r Q → f.2 ≤ f.1._remainingQuantity := by
  induction Q with
  | nil => intro r f h; simp [sweepFills] at h
  | cons a rest ih =>
    intro r f hf
    simp only [sweepFills] at hf
    by_cases h : a._remainingQuantity < r
    · simp only [h, if_true] at hf
      rcases List.mem_cons.mp hf with hf | hf
      · rw [hf]
      · exact ih _ f hf
    · simp only [h, if_false, List.mem_singleton] at hf
      rw [hf]; exact Nat.not_lt.mp h

/-- What a sweep leaves of the queue: the orders behind those it met, untouched and in
order, preceded by the last order met if that one was filled only in part. -/
theorem sweepRest_eq (Q : List Order) : ∀ (r : Quantity),
    sweepRest r Q = Q.drop (sweepFills r Q).length ∨
    ∃ last q, (sweepFills r Q).getLast? = some (last, q) ∧
      Q.get? ((sweepFills r Q).length - 1) = some last ∧ q < last._remainingQuantity ∧
      sweepRest r Q =
        { last with _remainingQuantity := last._remainingQuantity - q } ::
          Q.drop (sweepFills r Q).length := by
  induction Q with
  | nil => intro r; left; simp [sweepRest, sweepFills]
  | cons a rest ih =>
    intro r
    simp only [sweepRest, sweepFills]
    by_cases h : a._remainingQuantity < r
    · simp only [h, if_true, List.length_cons, List.drop_succ_cons]
      rcases ih (r - a._remainingQuantity) with h1 | ⟨last, q, h1, h0, h2, h3⟩
      · left; exact h1
      · right
        refine ⟨last, q, ?_, ?_, h2, h3⟩
        · cases hs : sweepFills (r - a._remainingQuantity) rest with
          | nil => rw [hs] at h1; simp at h1
          | cons f more => rw [hs] at h1; simpa [List.getLast?_cons_cons] using h1
        · cases hs : sweepFills (r - a._remainingQuantity) rest with
          | nil => rw [hs] at h1; simp at h1
          | cons f more =>
            rw [hs] at h0
            simpa using h0
    · simp only [h, if_false, List.length_singleton, List.drop_succ_cons, List.drop_zero]
      by_cases h2 : a._remainingQuantity = r
      · left; simp [h2]
      · right
        refine ⟨a, r, by simp, by simp, ?_, by simp [h2]⟩
        exact lt_of_le_of_ne (Nat.not_lt.mp h) (fun h3 => h2 h3.symm)

/-- The first fill of a sweep is with the first order of the queue. -/
theorem sweepFills_head (a : Order) (rest : List Order) (r : Quantity) :
    (sweepFills r (a :: rest)).head? = some (a, min r a._remainingQuantity) := by
  simp only [sweepFills]
  by_cases h : a._remainingQuantity < r
  · simp [h, Nat.min_eq_right (le_of_lt h)]
  · simp [h, Nat.min_eq_left (Nat.not_lt.mp h)]

/-- What the incoming order has left after a sweep that does not fill it. -/
theorem sweepLeft_some (Q : List Order) : ∀ (r q : Quantity), sweepLeft r Q = some q →
    q = r - remainingSum Q ∧ (Q = [] ∨ remainingSum Q < r) := by
  induction Q with
  | nil => intro r q h; simp [sweepLeft] at h; simp [remainingSum, h]
  | cons a rest ih =>
    intro r q h
    simp only [sweepLeft] at h
    rw [remainingSum_cons]
    by_cases h1 : a._remainingQuantity < r
    · simp only [h1, if_true] at h
      obtain ⟨e1, e2⟩ := ih _ q h
      have e3 : remainingSum rest = 0 ∨
          remainingSum rest < r - a._remainingQuantity := by
        rcases e2 with e2 | e2
        · left; rw [e2]; rfl
        · right; exact e2
      obtain ⟨g1, g2⟩ := nat_left_step _ _ _ _ h1 e1 e3
      exact ⟨g1, Or.inr g2⟩
    · simp [h1] at h

theorem sweepLeft_none (Q : List Order) : ∀ (r : Quantity), sweepLeft r Q = none →
    Q ≠ [] ∧ r ≤ remainingSum Q := by
  induction Q with
  | nil => intro r h; simp [sweepLeft] at h
  | cons a rest ih =>
    intro r h
    simp only [sweepLeft] at h
    rw [remainingSum_cons]
    refine ⟨by simp, ?_⟩
    by_cases h1 : a._remainingQuantity < r
    · simp only [h1, if_true] at h
      exact nat_none_step _ _ _ h1 (ih _ h).2
    · exact nat_none_stop _ _ _ h1

/-! ### Trades of a sweep -/

theorem tradedQuantity_tradeOf (x : Order) (fills : List (Order × Quantity)) :
    tradedQuantity (fills.map (tradeOf x)) = (fills.map Prod.snd).sum := by
  unfold tradedQuantity
  congr 1
  rw [List.map_map]
  apply List.map_congr_left
  intro f _
  by_cases h : x._side = Side.BUY <;>
    simp [tradeOf, frontTrade, Trade.ofTemporaries, Trade.new, Reference.expire, h]

/-! ### The reachable queue in terms of order prices -/

theorem filter_ladderOrders_takeWhile (p : Price → Bool) (l : Ladder)
    (hk : ∀ e ∈ l, ∀ o ∈ e.2, o._price = e.1)
    (hm : l.Pairwise (fun e f => p f.1 = true → p e.1 = true)) :
    (ladderOrders l).filter (fun o => p o._price) = ladderOrders (l.takeWhile fun e => p e.1) := by
  induction l with
  | nil => rfl
  | cons e rest ih =>
    obtain ⟨k, b⟩ := e
    rw [List.pairwise_cons] at hm
    have hkr : ∀ e ∈ rest, ∀ o ∈ e.2, o._price = e.1 :=
      fun e he => hk e (List.mem_cons_of_mem _ he)
    have hb : ∀ o ∈ b, o._price = k := hk (k, b) (List.mem_cons_self _ _)
    rw [ladderOrders_cons, List.filter_append]
    by_cases hp : p k = true
    · have h1 : b.filter (fun o => p o._price) = b := by
        rw [List.filter_eq_self]
        intro o ho
        rw [hb o ho]; exact hp
      rw [h1, ih hkr hm.2]
      simp [List.takeWhile, hp, ladderOrders_cons]
    · have h1 : b.filter (fun o => p o._price) = [] := by
        rw [List.filter_eq_nil_iff]
        intro o ho
        rw [hb o ho]; exact hp
      have h2 : (ladderOrders rest).filter (fun o => p o._price) = [] := by
        rw [List.filter_eq_nil_iff]
        intro o ho
        obtain ⟨f, hf, hof⟩ := (mem_ladderOrders o rest).mp ho
        rw [hkr f hf o hof]
        intro hpf
        exact hp (hm.1 f hf hpf)
      rw [h1, h2]
      have hp2 : p k = false := by simpa using hp
      simp [List.takeWhile, hp2, ladderOrders_nil]

theorem opposite_keyed (s : Orderbook) (hw : s.WellFormed) (side : Side) :
    ∀ e ∈ s.opposite side, ∀ o ∈ e.2, o._price = e.1 := by
  intro e he o ho
  cases side
  · exact (hw.asksKeyed e he o ho).1
  · exact (hw.bidsKeyed e he o ho).1

theorem opposite_monotone (s : Orderbook) (hw : s.WellFormed) (side : Side) (limit : Price) :
    (s.opposite side).Pairwise
      (fun e f => admissible side limit f.1 = true → admissible side limit e.1 = true) := by
  cases side
  · have := List.pairwise_map.mp hw.asksSorted
    simp only [Orderbook.opposite, if_true]
    refine this.imp ?_
    intro e f hef
    simp only [admissible, if_true, decide_eq_true_eq]
    intro h
    exact le_of_lt (lt_of_lt_of_le hef h)
  · have := List.pairwise_map.mp hw.bidsSorted
    have hne : Side.SELL ≠ Side.BUY := by decide
    simp only [Orderbook.opposite, hne, if_false]
    refine this.imp ?_
    intro e f hef
    simp only [admissible, hne, if_false, decide_eq_true_eq]
    intro h
    exact le_of_lt (lt_of_le_of_lt h hef)

/-- In a well-formed book the queue an incoming order can reach consists of the opposite
orders at admissible prices, in priority order. -/
theorem reachQueue_eq_filter (s : Orderbook) (hw : s.WellFormed) (x : Order) :
    reachQueue s x =
      (ladderOrders (s.opposite x._side)).filter
        (fun o => admissible x._side x._price o._price) :=
  (filter_ladderOrders_takeWhile (fun k => admissible x._side x._price k) _
    (opposite_keyed s hw x._side) (opposite_monotone s hw x._side x._price)).symm

theorem reach_append_beyond (s : Orderbook) (x : Order) :
    reachQueue s x ++ beyondReach s x = ladderOrders (s.opposite x._side) := by
  unfold reachQueue beyondReach
  exact ladderOrders_take_drop _ _

/-- In a well-formed book every opposite price is admissible for the last price of the
opposite ladder: that price is the highest ask, or the lowest bid. -/
theorem worst_price_admits_all (s : Orderbook) (hw : s.WellFormed) (side : Side)
    (worst : Price) (bucket : OrderPointers)
    (h : (s.opposite side).getLast? = some (worst, bucket)) :
    ∀ e ∈ s.opposite side, admissible side worst e.1 = true := by
  obtain ⟨init, hinit⟩ := List.getLast?_eq_some_iff.mp h
  intro e he
  rw [hinit] at he
  cases side
  · have hs := List.pairwise_map.mp hw.asksSorted
    simp only [Orderbook.opposite, if_true] at hinit
    rw [hinit, List.pairwise_append] at hs
    simp only [admissible, if_true, decide_eq_true_eq]
    rcases List.mem_append.mp he with he | he
    · exact le_of_lt (hs.2.2 e he (worst, bucket) (List.mem_singleton_self _))
    · rw [List.mem_singleton.mp he]
  · have hs := List.pairwise_map.mp hw.bidsSorted
    have hne : Side.SELL ≠ Side.BUY := by decide
    simp only [Orderbook.opposite, hne, if_false] at hinit
    rw [hinit, List.pairwise_append] at hs
    simp only [admissible, hne, if_false, decide_eq_true_eq]
    rcases List.mem_append.mp he with he | he
    · exact le_of_lt (hs.2.2 e he (worst, bucket) (List.mem_singleton_self _))
    · rw [List.mem_singleton.mp he]

theorem reachQueue_of_all (s : Orderbook) (hw : s.WellFormed) (x : Order)
    (h : ∀ e ∈ s.opposite x._side, admissible x._side x._price e.1 = true) :
    reachQueue s x = ladderOrders (s.opposite x._side) := by
  rw [reachQueue_eq_filter s hw x, List.filter_eq_self]
  intro o ho
  obtain ⟨e, he, hoe⟩ := (mem_ladderOrders o _).mp ho
  rw [opposite_keyed s hw x._side e he o hoe]
  exact h e he

/-! ### Concrete reachable books -/

theorem reachable_of_orders (orders : List Order) :
    ∀ (s s1 : Orderbook), Reachable s → addOrders orders s = some s1 → Reachable s1 := by
  induction orders with
  | nil =>
    intro s s1 hr h
    simp only [addOrders, Option.some.injEq] at h
    exact h ▸ hr
  | cons o rest ih =>
    intro s s1 hr h
    unfold addOrders at h
    cases ha : addOrder s o with
    | none => simp [ha] at h
    | some r =>
      simp only [ha, Option.some_bind] at h
      exact ih r.2 s1 (Reachable.add s r.2 o r.1 hr ha) h

theorem twoBidsBook_reachable : Reachable twoBidsBook :=
  reachable_of_orders
    [Order.new OrderType.GOODTILLCANCEL 1 Side.BUY 100 10,
     Order.new OrderType.GOODTILLCANCEL 2 Side.BUY 100 5]
    Orderbook.empty twoBidsBook Reachable.init (by rfl)

theorem twoAsksBook_reachable : Reachable twoAsksBook :=
  reachable_of_orders
    [Order.new OrderType.GOODTILLCANCEL 1 Side.SELL 100 5,
     Order.new OrderType.GOODTILLCANCEL 2 Side.SELL 105 5]
    Orderbook.empty twoAsksBook Reachable.init (by rfl)


theorem twoSidedBook_reachable : Reachable twoSidedBook :=
  reachable_of_orders
    [Order.new OrderType.GOODTILLCANCEL 1 Side.BUY 99 10,
     Order.new OrderType.GOODTILLCANCEL 2 Side.SELL 101 5]
    Orderbook.empty twoSidedBook Reachable.init (by rfl)

theorem partialCrossBook_reachable : Reachable partialCrossBook :=
  reachable_of_orders partialCrossOrders Orderbook.empty partialCrossBook Reachable.init (by rfl)

theorem oneBidBook_reachable : Reachable oneBidBook :=
  reachable_of_orders [Order.new OrderType.GOODTILLCANCEL 1 Side.BUY 100 5]
    Orderbook.empty oneBidBook Reachable.init (by rfl)

theorem mainBook_reachable : Reachable mainBook :=
  reachable_of_orders mainOrders Orderbook.empty mainBook Reachable.init (by rfl)

theorem wideBidsBook_reachable : Reachable wideBidsBook :=
  reachable_of_orders
    [Order.new OrderType.GOODTILLCANCEL 1 Side.BUY 100 2147483648,
     Order.new OrderType.GOODTILLCANCEL 2 Side.BUY 100 2147483648]
    Orderbook.empty wideBidsBook Reachable.init (by rfl)

theorem dayBook_reachable : Reachable dayBook :=
  reachable_of_orders dayOrders Orderbook.empty dayBook Reachable.init (by rfl)

/-! ### References whose referent is gone -/

/-- Both legs of the element one pass of the inner loop leaves in `trades` are references
to temporaries that are gone. -/
theorem frontTrade_legs (bid ask : Order) (quantity : Quantity) :
    (frontTrade bid ask quantity).getBidTrade = none ∧
    (frontTrade bid ask quantity).getAskTrade = none := ⟨rfl, rfl⟩

theorem matchInner_legs (fuel : Nat) (s : Orderbook) (t : Trades) (r : Orderbook × Trades)
    (ht : ∀ x ∈ t, x.getBidTrade = none ∧ x.getAskTrade = none)
    (h : matchInner fuel s t = some r) :
    ∀ x ∈ r.2, x.getBidTrade = none ∧ x.getAskTrade = none :=
  (matchInner_induct (fun _ t1 => ∀ x ∈ t1, x.getBidTrade = none ∧ x.getAskTrade = none)
    (fun _ t1 _ b0 _ _ _ a0 _ _ hP _ _ x hx => by
      rcases List.mem_append.mp hx with hx | hx
      · exact hP x hx
      · rw [List.mem_singleton] at hx
        rw [hx]
        exact frontTrade_legs _ _ _) fuel s t r ht h).1

theorem matchLoop_legs (fuel : Nat) (s : Orderbook) (t : Trades) (r : Orderbook × Trades)
    (ht : ∀ x ∈ t, x.getBidTrade = none ∧ x.getAskTrade = none)
    (h : matchLoop fuel s t = some r) :
    ∀ x ∈ r.2, x.getBidTrade = none ∧ x.getAskTrade = none :=
  (matchLoop_induct (fun _ t1 => ∀ x ∈ t1, x.getBidTrade = none ∧ x.getAskTrade = none)
    (fun s1 t1 r1 _ _ _ _ _ _ hQ _ _ _ hi => matchInner_legs _ s1 t1 r1 hQ hi)
    fuel s t r ht h).1

theorem matchOrders_legs (s s1 : Orderbook) (trades : Trades)
    (h : matchOrders s = some (trades, s1)) :
    ∀ x ∈ trades, x.getBidTrade = none ∧ x.getAskTrade = none := by
  unfold matchOrders at h
  obtain ⟨r, hr, h1⟩ := Option.bind_eq_some.mp h
  obtain ⟨s2, _, h2⟩ := Option.bind_eq_some.mp h1
  obtain ⟨s3, _, h3⟩ := Option.map_eq_some'.mp h2
  have ht : trades = r.2 := (congrArg Prod.fst h3).symm
  rw [ht]
  exact matchLoop_legs _ s [] r (fun x hx => absurd hx (List.not_mem_nil _)) hr

theorem admitOrder_legs (s s1 : Orderbook) (order : Order) (trades : Trades)
    (h : admitOrder s order = some (trades, s1)) :
    ∀ x ∈ trades, x.getBidTrade = none ∧ x.getAskTrade = none := by
  unfold admitOrder at h
  split at h
  · simp only [Option.some.injEq, Prod.mk.injEq] at h
    intro x hx; rw [← h.1] at hx; exact absurd hx (List.not_mem_nil _)
  · split at h
    · simp only [Option.some.injEq, Prod.mk.injEq] at h
      intro x hx; rw [← h.1] at hx; exact absurd hx (List.not_mem_nil _)
    · exact matchOrders_legs _ s1 trades h

theorem addOrderLocked_legs (s s1 : Orderbook) (order : Order) (trades : Trades)
    (h : addOrderLocked s order = some (trades, s1)) :
    ∀ x ∈ trades, x.getBidTrade = none ∧ x.getAskTrade = none := by
  have hnil : ∀ (t : Trades) (s2 : Orderbook), (some (([] : Trades), s) = some (t, s2)) →
      ∀ x ∈ t, x.getBidTrade = none ∧ x.getAskTrade = none := by
    intro t s2 h0 x hx
    simp only [Option.some.injEq, Prod.mk.injEq] at h0
    rw [← h0.1] at hx; exact absurd hx (List.not_mem_nil _)
  unfold addOrderLocked at h
  split at h
  · exact hnil trades s1 h
  · split at h
    · split at h
      · exact hnil trades s1 h
      · exact absurd h (by simp)
      · exact admitOrder_legs s s1 _ trades h
    · exact admitOrder_legs s s1 order trades h

/-- No leg of a `Trade` that `addOrder` returns can be read: each is a reference to a
temporary of `matchOrders` that ended with the statement that built the `Trade`. -/
theorem addOrder_legs (s s1 : Orderbook) (order : Order) (trades : Trades)
    (h : addOrder s order = some (trades, s1)) :
    ∀ x ∈ trades, x.getBidTrade = none ∧ x.getAskTrade = none := by
  obtain ⟨_, s2, h2, _⟩ := withLock_some s (fun s1 => addOrderLocked s1 order) (trades, s1) h
  exact addOrderLocked_legs _ s2 order trades h2

/-- With the lifetime of the entry followed, `cancelOrderInternal` has no result for an
indexed id: its first read of `order` goes through the entry it has just erased. -/
theorem cancelOrderInternalStrict_of_indexed (s : Orderbook) (orderId : OrderId)
    (order : Order) (h : findKey orderId s._orders = some order) :
    cancelOrderInternalStrict s orderId = none := by
  unfold cancelOrderInternalStrict
  rw [h]
  rfl

theorem cancelOrderInternalStrict_of_absent (s : Orderbook) (orderId : OrderId)
    (h : findKey orderId s._orders = none) :
    cancelOrderInternalStrict s orderId = some s := by
  unfold cancelOrderInternalStrict
  rw [h]

theorem cancelOrderStrict_of_indexed (s : Orderbook) (orderId : OrderId)
    (order : Order) (h : findKey orderId s._orders = some order) :
    cancelOrderStrict s orderId = none := by
  have h1 : cancelOrderInternalStrict { s with _ordersMutex := true } orderId = none :=
    cancelOrderInternalStrict_of_indexed _ orderId order h
  unfold cancelOrderStrict withLock
  split
  · rfl
  · simp only [h1, Option.map_none']

theorem cancelOrderStrict_of_absent (s : Orderbook) (orderId : OrderId)
    (hm : s._ordersMutex = false) (h : findKey orderId s._orders = none) :
    cancelOrderStrict s orderId = some s := by
  have h1 : cancelOrderInternalStrict { s with _ordersMutex := true } orderId
      = some { s with _ordersMutex := true } := cancelOrderInternalStrict_of_absent _ orderId h
  unfold cancelOrderStrict withLock
  simp [hm, h1, relock_eq s hm]

theorem matchOrderStrict_of_indexed (s : Orderbook) (m : OrderModify) (order : Order)
    (h : findKey m._orderId s._orders = some order) : matchOrderStrict s m = none := by
  unfold matchOrderStrict
  rw [h]
  simp only [cancelOrderStrict_of_indexed s m._orderId order h, Option.none_bind]

/-! ### Counting orders, trades and levels in the matching loops -/

theorem foldl_wrapped_sum (l : List Order) : ∀ (a : Nat),
    l.foldl (fun runningSum order => (runningSum + order._remainingQuantity) % quantityModulus)
      (a % quantityModulus) = (a + remainingSum l) % quantityModulus := by
  induction l with
  | nil => intro a; simp [remainingSum]
  | cons x rest ih =>
    intro a
    rw [List.foldl_cons, ih (a % quantityModulus + x._remainingQuantity), remainingSum_cons,
      ← Nat.add_assoc, Nat.add_mod (a % quantityModulus + x._remainingQuantity),
      Nat.add_mod (a % quantityModulus), Nat.mod_mod, ← Nat.add_mod a, ← Nat.add_mod]

theorem createLevelInfos_quantity (price : Price) (orders : OrderPointers) :
    (createLevelInfos price orders)._quantity = remainingSum orders % quantityModulus := by
  have h := foldl_wrapped_sum orders 0
  simp only [Nat.zero_mod, Nat.zero_add] at h
  exact h

theorem snapshot_prices (s : Orderbook) :
    s.getOrderInfo._bids.map (fun i => i._price) = s._bids.map Prod.fst ∧
    s.getOrderInfo._asks.map (fun i => i._price) = s._asks.map Prod.fst := by
  constructor <;> simp [getOrderInfo, createLevelInfos, List.map_map, Function.comp_def]

/-! ### Fills of one order -/

theorem Order.fill_none_iff (o : Order) (q : Quantity) :
    o.fill q = none ↔ q > o._remainingQuantity := by
  unfold Order.fill
  split <;> simp_all

theorem Order.fills_fields (qs : List Quantity) : ∀ (o : Order),
    (o.fills qs)._orderType = o._orderType ∧ (o.fills qs)._orderId = o._orderId ∧
    (o.fills qs)._side = o._side ∧ (o.fills qs)._price = o._price ∧
    (o.fills qs)._initialQuantity = o._initialQuantity ∧
    (o.fills qs)._remainingQuantity ≤ o._remainingQuantity := by
  induction qs with
  | nil => intro o; exact ⟨rfl, rfl, rfl, rfl, rfl, le_refl _⟩
  | cons q rest ih =>
    intro o
    have h := ih ((o.fill q).getD o)
    have hstep : ((o.fill q).getD o)._orderType = o._orderType ∧
        ((o.fill q).getD o)._orderId = o._orderId ∧ ((o.fill q).getD o)._side = o._side ∧
        ((o.fill q).getD o)._price = o._price ∧
        ((o.fill q).getD o)._initialQuantity = o._initialQuantity ∧
        ((o.fill q).getD o)._remainingQuantity ≤ o._remainingQuantity := by
      unfold Order.fill
      split
      · exact ⟨rfl, rfl, rfl, rfl, rfl, le_refl _⟩
      · exact ⟨rfl, rfl, rfl, rfl, rfl, Nat.sub_le _ _⟩
    show (Order.fills ((o.fill q).getD o) rest)._orderType = _ ∧ _
    obtain ⟨a1, a2, a3, a4, a5, a6⟩ := h
    obtain ⟨b1, b2, b3, b4, b5, b6⟩ := hstep
    exact ⟨a1.trans b1, a2.trans b2, a3.trans b3, a4.trans b4, a5.trans b5, le_trans a6 b6⟩

theorem nat_wrapped_sub (m a b : Nat) (ha : a < m) (hb : b ≤ a) :
    (a + (m - b % m)) % m = a - b := by
  have hbm : b < m := lt_of_le_of_lt hb ha
  rw [Nat.mod_eq_of_lt hbm]
  have : a + (m - b) = (a - b) + m := by omega
  rw [this, Nat.add_mod_right]
  exact Nat.mod_eq_of_lt (by omega)

theorem Order.getFilledQuantity_eq (o : Order) (h : o._remainingQuantity ≤ o._initialQuantity)
    (hq : o._initialQuantity < quantityModulus) :
    o.getFilledQuantity = o._initialQuantity - o._remainingQuantity := by
  unfold Order.getFilledQuantity
  exact nat_wrapped_sub quantityModulus o._initialQuantity o._remainingQuantity hq h
/-! ### The level cache after a cross at one price -/

/-- C1 (the code at the failing input): after BUY 1 100x10, BUY 2 100x5 and SELL 3 100x7
two orders with remaining quantities 3 and 5 rest at price 100, and the level cache has no
entry at 100. -/
theorem cache_entry_lost_at_shared_price :
    addOrders partialCrossOrders Orderbook.empty = some partialCrossBook ∧
    (restingAt partialCrossBook 100).length = 2 ∧
    remainingSum (restingAt partialCrossBook 100) = 8 ∧
    findKey 100 partialCrossBook._data = none := by
  refine ⟨by rfl, by rfl, by rfl, by rfl⟩

/-- C2 (the code at the failing input): from the partial-fill book, after `cancelOrder(1)` the
cache entry at 100 holds a wrapped quantity, `canFullyFill` accepts FILLORKILL SELL 4 100x50
against 5 units of bids, and the order trades 5 and rests with 45 remaining. -/
theorem fillOrKill_admitted_without_liquidity :
    ∃ s s1 trades,
      (addOrders partialCrossOrders Orderbook.empty).bind (fun s0 => Orderbook.cancelOrder s0 1)
        = some s ∧
      findKey 100 s._data = some { _quantity := 4294967293, _count := 4294967295 } ∧
      remainingSum (ladderOrders s._bids) = 5 ∧
      Orderbook.canFullyFill s Side.SELL 100 50 = true ∧
      Orderbook.addOrder s (Order.new OrderType.FILLORKILL 4 Side.SELL 100 50) = some (trades, s1) ∧
      tradedQuantity trades = 5 ∧
      (findKey 4 s1._orders).map (fun o => o._remainingQuantity) = some 45 := by
  refine ⟨_, _, _, by rfl, by rfl, by rfl, by rfl, by rfl, by rfl, by rfl⟩

/-- C3 (the code at the failing input): in the partial-fill book the bids at 100 hold 8 units,
yet `canFullyFill` is false for FILLORKILL SELL 4 100x3 and `addOrder` drops the order. -/
theorem fillOrKill_rejected_despite_liquidity :
    addOrders partialCrossOrders Orderbook.empty = some partialCrossBook ∧
    remainingSum ((ladderOrders partialCrossBook._bids).filter fun o => decide (o._price ≥ 100)) = 8 ∧
    Orderbook.canFullyFill partialCrossBook Side.SELL 100 3 = false ∧
    Orderbook.addOrder partialCrossBook (Order.new OrderType.FILLORKILL 4 Side.SELL 100 3)
      = some ([], partialCrossBook) := by
  refine ⟨by rfl, by rfl, by rfl, by rfl⟩

/-! ### The book is never crossed -/

/-- C4: in every reachable book (so after every completed `addOrder`, `cancelOrder` or
`matchOrder` call) with both ladders non-empty, the first bid price is the highest bid price,
the first ask price is the lowest ask price, and the first bid price is strictly below the
first ask price. -/
theorem reachable_best_bid_below_best_ask (s : Orderbook) (h : Reachable s)
    (bestBid bestAsk : Price) (bids asks : OrderPointers) (bidLevels askLevels : Ladder)
    (hb : s._bids = (bestBid, bids) :: bidLevels)
    (ha : s._asks = (bestAsk, asks) :: askLevels) :
    (∀ e ∈ s._bids, e.1 ≤ bestBid) ∧ (∀ e ∈ s._asks, bestAsk ≤ e.1) ∧ bestBid < bestAsk := by
  obtain ⟨hw, hu, _⟩ := reachable_invariant s h
  have hbs := hw.bidsSorted
  have has := hw.asksSorted
  rw [hb] at hbs
  rw [ha] at has
  simp only [List.map_cons, List.pairwise_cons] at hbs has
  refine ⟨?_, ?_, ?_⟩
  · intro e he
    rw [hb] at he
    rcases List.mem_cons.mp he with he | he
    · subst he; exact le_refl _
    · exact le_of_lt (hbs.1 e.1 (List.mem_map_of_mem Prod.fst he))
  · intro e he
    rw [ha] at he
    rcases List.mem_cons.mp he with he | he
    · subst he; exact le_refl _
    · exact le_of_lt (has.1 e.1 (List.mem_map_of_mem Prod.fst he))
  · exact hu (bestBid, bids) (by rw [hb]; exact List.mem_cons_self _ _)
      (bestAsk, asks) (by rw [ha]; exact List.mem_cons_self _ _)

/-- C4 at a concrete book: BUY 1 99x10 and SELL 2 101x5 rest, and 99 < 101. -/
theorem reachable_best_bid_below_best_ask_witness :
    (∀ e ∈ twoSidedBook._bids, e.1 ≤ 99) ∧ (∀ e ∈ twoSidedBook._asks, (101 : Price) ≤ e.1) ∧
      (99 : Price) < 101 :=
  reachable_best_bid_below_best_ask twoSidedBook twoSidedBook_reachable 99 101 _ _ _ _ rfl rfl

/-! ### The order index and the ladders -/

theorem indexed_length (index : List (OrderId × Order)) (resting : List Order)
    (h : Indexed index resting) : index.length = resting.length := by
  obtain ⟨h1, h2, h3⟩ := h
  have hp : (index.map Prod.fst).Perm (resting.map fun o => o._orderId) := by
    rw [List.perm_ext_iff_of_nodup h1 h2]
    intro k
    constructor
    · intro hk
      obtain ⟨e, he, hek⟩ := List.mem_map.mp hk
      have : (k, e.2) ∈ index := by rw [← hek]; exact he
      obtain ⟨ho, hid⟩ := (h3 k e.2).mp this
      exact List.mem_map.mpr ⟨e.2, ho, hid⟩
    · intro hk
      obtain ⟨o, ho, hid⟩ := List.mem_map.mp hk
      exact List.mem_map.mpr ⟨(k, o), (h3 k o).mpr ⟨ho, hid⟩, rfl⟩
  simpa using hp.length_eq

/-- C5: in every reachable book no id occurs twice in the order index; every entry of the
index carries an order with that id which occurs exactly once among the orders of the two
ladders, in a bucket of its own side keyed by its own price; every order of a ladder is in
the index under its id; and `size()` is the number of orders in all buckets. -/
theorem reachable_index_matches_ladders (s : Orderbook) (h : Reachable s) :
    (s._orders.map Prod.fst).Nodup ∧
    (∀ orderId o, (orderId, o) ∈ s._orders →
      o._orderId = orderId ∧
      (s.restingOrders.map fun x => x._orderId).count orderId = 1 ∧
      ((o._side = Side.BUY ∧ ∃ bucket, (o._price, bucket) ∈ s._bids ∧ o ∈ bucket) ∨
       (o._side = Side.SELL ∧ ∃ bucket, (o._price, bucket) ∈ s._asks ∧ o ∈ bucket))) ∧
    (∀ o ∈ s.restingOrders, (o._orderId, o) ∈ s._orders) ∧
    s.size = (ladderOrders s._bids).length + (ladderOrders s._asks).length := by
  obtain ⟨hw, _, _⟩ := reachable_invariant s h
  obtain ⟨h1, h2, h3⟩ := hw.indexed
  refine ⟨h1, ?_, ?_, ?_⟩
  · intro k o hko
    obtain ⟨ho, hid⟩ := (h3 k o).mp hko
    refine ⟨hid, ?_, ?_⟩
    · exact List.count_eq_one_of_mem h2 (List.mem_map.mpr ⟨o, ho, hid⟩)
    · unfold Orderbook.restingOrders at ho
      rcases List.mem_append.mp ho with ho | ho
      · obtain ⟨e, he, hoe⟩ := (mem_ladderOrders o _).mp ho
        obtain ⟨hp, hs⟩ := hw.bidsKeyed e he o hoe
        exact Or.inl ⟨hs, e.2, by rw [hp]; exact he, hoe⟩
      · obtain ⟨e, he, hoe⟩ := (mem_ladderOrders o _).mp ho
        obtain ⟨hp, hs⟩ := hw.asksKeyed e he o hoe
        exact Or.inr ⟨hs, e.2, by rw [hp]; exact he, hoe⟩
  · intro o ho
    exact (h3 _ o).mpr ⟨ho, rfl⟩
  · have := indexed_length _ _ hw.indexed
    unfold Orderbook.size
    rw [this, Orderbook.restingOrders, List.length_append]

/-- C5 at a concrete book: the partial-fill book has two index entries and two resting
orders. -/
theorem reachable_index_matches_ladders_witness :
    partialCrossBook.size =
      (ladderOrders partialCrossBook._bids).length + (ladderOrders partialCrossBook._asks).length :=
  (reachable_index_matches_ladders partialCrossBook partialCrossBook_reachable).2.2.2

/-! ### Rejection leaves the book alone -/

/-- C6: when `addOrder` is called on an unlocked book in one of its four rejecting situations
(resting id, MARKET against an empty opposite ladder, FILLANDKILL with `canMatch` false,
FILLORKILL with `canFullyFill` false) it returns no trade and the very same book: cache,
ladders and order index are unchanged. -/
theorem addOrder_rejection_atomic (s : Orderbook) (order : Order)
    (hm : s._ordersMutex = false) (h : Orderbook.rejects s order) :
    Orderbook.addOrder s order = some ([], s) := by
  have key : Orderbook.addOrderLocked { s with _ordersMutex := true } order
      = some ([], { s with _ordersMutex := true }) :=
    addOrderLocked_of_rejected { s with _ordersMutex := true } order
      ((rejects_lock s true order).mpr h)
  unfold Orderbook.addOrder Orderbook.withLock
  simp [hm, key, relock_eq s hm]

/-- C6 at concrete inputs: a FILLORKILL buy into the empty book. -/
theorem addOrder_rejection_atomic_witness :
    Orderbook.addOrder Orderbook.empty (Order.new OrderType.FILLORKILL 4 Side.BUY 100 1)
      = some ([], Orderbook.empty) :=
  addOrder_rejection_atomic Orderbook.empty (Order.new OrderType.FILLORKILL 4 Side.BUY 100 1)
    rfl (Or.inr (Or.inr (Or.inr ⟨rfl, rfl⟩)))

/-! ### FILLANDKILL with a remainder -/

/-- C7 (the code at the failing input): with SELL 1 100x5 resting, FILLANDKILL BUY 2 100x10
trades 5 inside `matchOrders`, whose clean-up then calls the public `cancelOrder` while
`addOrder` still holds `_ordersMutex`: the call has no defined result. The same clean-up
through `cancelOrderInternal` would leave the book empty. -/
theorem fillAndKill_remainder_relocks_mutex :
    ∃ s r,
      Orderbook.addOrder Orderbook.empty (Order.new OrderType.GOODTILLCANCEL 1 Side.SELL 100 5)
        = some ([], s) ∧
      Orderbook.matchLoop 2
        (Orderbook.insertOrder { s with _ordersMutex := true }
          (Order.new OrderType.FILLANDKILL 2 Side.BUY 100 10)) [] = some r ∧
      tradedQuantity r.2 = 5 ∧
      (ladderOrders r.1._bids).map (fun o => o._orderId) = [2] ∧
      r.1._ordersMutex = true ∧
      Orderbook.cancelOrder r.1 2 = none ∧
      (Orderbook.cancelOrderInternal r.1 2).map (fun s1 => s1.size) = some 0 ∧
      Orderbook.addOrder s (Order.new OrderType.FILLANDKILL 2 Side.BUY 100 10) = none := by
  refine ⟨_, _, by rfl, by rfl, by rfl, by rfl, by rfl, by rfl, by rfl, by rfl⟩

/-! ### MARKET orders -/

/-- C8 (the code at the failing input): with the asks SELL 1 100x5 and SELL 2 105x5 resting,
the MARKET BUY 3 of 7 units is repriced to 105 and made GOODTILLCANCEL, and the book ends
with one order, ask 2 with 3 left. `matchOrders` builds the two trades on the temporaries
(3, 105, 5), (1, 100, 5) and (3, 105, 2), (2, 105, 2); the two `Trade` objects `addOrder`
returns hold references to these temporaries, which are gone, so no leg of them can be
read. -/
theorem market_order_trade_legs_dangle :
    addOrders [Order.new OrderType.GOODTILLCANCEL 1 Side.SELL 100 5,
               Order.new OrderType.GOODTILLCANCEL 2 Side.SELL 105 5] Orderbook.empty
      = some twoAsksBook ∧
    convertMarket twoAsksBook marketBuy
      = some (some (Order.new OrderType.GOODTILLCANCEL 3 Side.BUY 105 7)) ∧
    addOrder twoAsksBook marketBuy = some (marketBuyTrades, marketBuyBook) ∧
    marketBuyBook.size = 1 ∧
    (findKey 2 marketBuyBook._orders).map (fun o => o._remainingQuantity) = some 3 ∧
    marketBuyTrades.map (fun t => t._askTrade.referent)
      = [{ _orderId := 1, _price := 100, _quantity := 5 },
         { _orderId := 2, _price := 105, _quantity := 2 }] ∧
    marketBuyTrades.map Trade.getBidTrade = [none, none] ∧
    marketBuyTrades.map Trade.getAskTrade = [none, none] := by
  refine ⟨by rfl, by rfl, by rfl, by rfl, by rfl, by rfl, by rfl, by rfl⟩

/-! ### Price-time priority -/

/-- C9 (the code at the failing input): with the bids BUY 1 100x10 and BUY 2 100x5 resting,
SELL 3 100x7 leaves bid 1 with 3 and bid 2 with 5, in this order. `matchOrders` builds the
one trade on the temporaries (1, 100, 7) and (3, 100, 7); the `Trade` object `addOrder`
returns holds references to these temporaries, which are gone, so the id of the
counterparty cannot be read from it. -/
theorem priority_counterparty_leg_dangles :
    addOrder twoBidsBook (Order.new OrderType.GOODTILLCANCEL 3 Side.SELL 100 7)
      = some ([partialCrossTrade], partialCrossBook) ∧
    (ladderOrders partialCrossBook._bids).map (fun o => (o._orderId, o._remainingQuantity))
      = [(1, 3), (2, 5)] ∧
    partialCrossTrade._bidTrade.referent = { _orderId := 1, _price := 100, _quantity := 7 } ∧
    partialCrossTrade._bidTrade.alive = false ∧
    partialCrossTrade.getBidTrade = none ∧
    partialCrossTrade.getAskTrade = none := by
  refine ⟨by rfl, by rfl, by rfl, by rfl, by rfl, by rfl⟩

/-! ### The traded quantity -/

/-- C10 (the code at the failing input): with the bid BUY 1 100x5 resting, SELL 2 100x10
fills the bid and rests with 5. `matchOrders` builds the one trade on two temporaries of
quantity 5, the minimum of 10 and 5; the `Trade` object `addOrder` returns holds references
to these temporaries, which are gone, so no quantity can be read from it. -/
theorem traded_quantity_leg_dangles :
    (addOrder oneBidBook (Order.new OrderType.GOODTILLCANCEL 2 Side.SELL 100 10)).map
        (fun r => (r.1.map (fun t => t._bidTrade.referent._quantity),
                   r.1.map (fun t => t._askTrade.referent._quantity),
                   (ladderOrders r.2._bids).length,
                   (ladderOrders r.2._asks).map (fun o => (o._orderId, o._remainingQuantity))))
      = some ([5], [5], 0, [(2, 5)]) ∧
    (addOrder oneBidBook (Order.new OrderType.GOODTILLCANCEL 2 Side.SELL 100 10)).map
        (fun r => (r.1.map Trade.getBidTrade, r.1.map Trade.getAskTrade))
      = some ([none], [none]) := by
  refine ⟨by rfl, by rfl⟩

/-! ### The two legs of a trade -/

/-- C11 (the code at the failing input): in the basic cross of `main.cpp`, after BUY 1
100x10 the order SELL 2 100x10 empties the book. `matchOrders` builds the one trade on the
temporaries (1, 100, 10) and (2, 100, 10); the `Trade` object `addOrder` returns holds
references to these temporaries, which are gone, so neither leg can be read. The same is
true of every `Trade` any `addOrder` returns. -/
theorem trade_legs_dangle :
    addOrders [Order.new OrderType.GOODTILLCANCEL 1 Side.BUY 100 10] Orderbook.empty
      = some mainBook ∧
    addOrder mainBook (Order.new OrderType.GOODTILLCANCEL 2 Side.SELL 100 10)
      = some ([basicCrossTrade], Orderbook.empty) ∧
    Orderbook.empty.size = 0 ∧
    basicCrossTrade._bidTrade.referent = { _orderId := 1, _price := 100, _quantity := 10 } ∧
    basicCrossTrade._askTrade.referent = { _orderId := 2, _price := 100, _quantity := 10 } ∧
    basicCrossTrade._bidTrade.alive = false ∧
    basicCrossTrade._askTrade.alive = false ∧
    basicCrossTrade.getBidTrade = none ∧
    basicCrossTrade.getAskTrade = none ∧
    (∀ s order trades s1, addOrder s order = some (trades, s1) →
      ∀ t ∈ trades, t.getBidTrade = none ∧ t.getAskTrade = none) := by
  refine ⟨by rfl, by rfl, by rfl, by rfl, by rfl, by rfl, by rfl, by rfl, by rfl, ?_⟩
  intro s order trades s1 h
  exact addOrder_legs s s1 order trades h

/-! ### Modification -/

/-- C12 (the code at the failing input): with the bids BUY 1 100x10 and BUY 2 100x5 resting,
the modification of order 1 into a SELL of 4 at 100 finds the id, binds `existingOrder` to
its entry and calls `cancelOrder`, which erases the entry and goes on through it; then
`matchOrder` reads the type through `existingOrder`. With the lifetime of the entry followed
the call has no result. From the values the references were bound to the statements compute
what `cancelOrder` followed by `addOrder` of the fresh GOODTILLCANCEL order computes, one
trade and one resting order. A modification of an id that is not indexed returns no trade
and the same book. -/
theorem modify_reads_erased_entry :
    findKey 1 twoBidsBook._orders
      = some (Order.new OrderType.GOODTILLCANCEL 1 Side.BUY 100 10) ∧
    cancelOrderStrict twoBidsBook 1 = none ∧
    matchOrderStrict twoBidsBook
      { _orderId := 1, _price := 100, _side := Side.SELL, _quantity := 4 } = none ∧
    matchOrder twoBidsBook { _orderId := 1, _price := 100, _side := Side.SELL, _quantity := 4 }
      = (cancelOrder twoBidsBook 1).bind
          (fun s1 => addOrder s1 (Order.new OrderType.GOODTILLCANCEL 1 Side.SELL 100 4)) ∧
    (matchOrder twoBidsBook
        { _orderId := 1, _price := 100, _side := Side.SELL, _quantity := 4 }).map
        (fun r => (r.1.length, r.2.size)) = some (1, 1) ∧
    matchOrderStrict twoBidsBook
      { _orderId := 7, _price := 100, _side := Side.SELL, _quantity := 4 }
      = some ([], twoBidsBook) ∧
    (∀ s m order, findKey m._orderId s._orders = some order → matchOrderStrict s m = none) := by
  refine ⟨by rfl, by rfl, by rfl, by rfl, by rfl, by rfl, ?_⟩
  intro s m order h
  exact matchOrderStrict_of_indexed s m order h

/-! ### Cancelling twice -/

/-- C13 (the code at the failing input): with the bids BUY 1 100x10 and BUY 2 100x5 resting,
`cancelOrder` of 1 erases the entry of the id and then reads `order` and `iterator` through
it: with the lifetime of the entry followed the first call has no result, and so has the
sequence of two calls. From the values the references were bound to the statements compute
a book in which only order 2 rests, and the second call leaves that book as it is. For an id
that is not indexed the call returns the book it was given. -/
theorem cancel_twice_uses_erased_entry :
    findKey 1 twoBidsBook._orders
      = some (Order.new OrderType.GOODTILLCANCEL 1 Side.BUY 100 10) ∧
    cancelOrderStrict twoBidsBook 1 = none ∧
    (cancelOrderStrict twoBidsBook 1).bind (fun s1 => cancelOrderStrict s1 1) = none ∧
    cancelOrderStrict twoBidsBook 7 = some twoBidsBook ∧
    (cancelOrder twoBidsBook 1).map
        (fun s1 => (ladderOrders s1._bids).map (fun o => o._orderId)) = some [2] ∧
    (cancelOrder twoBidsBook 1).bind (fun s1 => cancelOrder s1 1) = cancelOrder twoBidsBook 1 ∧
    (∀ s orderId order, findKey orderId s._orders = some order →
      cancelOrderStrict s orderId = none) ∧
    (∀ s orderId, s._ordersMutex = false → findKey orderId s._orders = none →
      cancelOrderStrict s orderId = some s) := by
  refine ⟨by rfl, by rfl, by rfl, by rfl, by rfl, by rfl, ?_, ?_⟩
  · intro s orderId order h
    exact cancelOrderStrict_of_indexed s orderId order h
  · intro s orderId hm h
    exact cancelOrderStrict_of_absent s orderId hm h

/-! ### What a cancellation removes -/

/-- C14 (the code at the failing input): in the scenario with the single bid BUY 1 100x5 and
in the book of `main.cpp`, where BUY 1 100x10 rests alone, `cancelOrder` of 1 erases the entry
of the id and then reads the side and the price through it, erases through the iterator kept
in it, and copies the `shared_ptr` kept in it: with the lifetime of the entry followed the
call has no result. From the values the references were bound to the statements compute the
empty book, with no bid in the snapshot, no cache entry at 100 and size 0. -/
theorem cancel_scenario_uses_erased_entry :
    addOrders [Order.new OrderType.GOODTILLCANCEL 1 Side.BUY 100 5] Orderbook.empty
      = some oneBidBook ∧
    findKey 1 oneBidBook._orders = some (Order.new OrderType.GOODTILLCANCEL 1 Side.BUY 100 5) ∧
    cancelOrderInternalStrict { oneBidBook with _ordersMutex := true } 1 = none ∧
    cancelOrderStrict oneBidBook 1 = none ∧
    addOrders mainOrders Orderbook.empty = some mainBook ∧
    mainBook.size = 1 ∧
    cancelOrderStrict mainBook 1 = none ∧
    cancelOrder oneBidBook 1 = some Orderbook.empty ∧
    Orderbook.empty.getOrderInfo._bids = [] ∧
    findKey 100 Orderbook.empty._data = none ∧
    (cancelOrder mainBook 1).map Orderbook.size = some 0 := by
  refine ⟨by rfl, by rfl, by rfl, by rfl, by rfl, by rfl, by rfl, by rfl, by rfl, by rfl,
    by rfl⟩

/-! ### The snapshot -/

/-- C15, as the code has it: on every book whose ladders are sorted, `getOrderInfo` returns
bid prices strictly falling and ask prices strictly rising, one `LevelInfo` per bucket of the
ladder in the order of the ladder, and the quantity of each `LevelInfo` is the sum of the
remaining quantities of the bucket reduced modulo `quantityModulus`, which is that sum itself
whenever the sum is below `quantityModulus`. -/
theorem snapshot_levels (s : Orderbook)
    (hb : (s._bids.map Prod.fst).Pairwise (fun a b => a > b))
    (ha : (s._asks.map Prod.fst).Pairwise (fun a b => a < b)) :
    (s.getOrderInfo._bids.map fun i => i._price).Pairwise (fun a b => a > b) ∧
    (s.getOrderInfo._asks.map fun i => i._price).Pairwise (fun a b => a < b) ∧
    s.getOrderInfo._bids = s._bids.map
      (fun e => { _price := e.1, _quantity := remainingSum e.2 % quantityModulus }) ∧
    s.getOrderInfo._asks = s._asks.map
      (fun e => { _price := e.1, _quantity := remainingSum e.2 % quantityModulus }) ∧
    (∀ e ∈ s._bids ++ s._asks, remainingSum e.2 < quantityModulus →
      (createLevelInfos e.1 e.2)._quantity = remainingSum e.2) := by
  have hinfo : ∀ e : Price × OrderPointers, createLevelInfos e.1 e.2
      = { _price := e.1, _quantity := remainingSum e.2 % quantityModulus } := by
    intro e
    have h := createLevelInfos_quantity e.1 e.2
    unfold createLevelInfos at h ⊢
    simp only at h
    rw [h]
  have h1 : s.getOrderInfo._bids = s._bids.map
      (fun e => { _price := e.1, _quantity := remainingSum e.2 % quantityModulus }) := by
    unfold Orderbook.getOrderInfo
    exact List.map_congr_left fun e _ => hinfo e
  have h2 : s.getOrderInfo._asks = s._asks.map
      (fun e => { _price := e.1, _quantity := remainingSum e.2 % quantityModulus }) := by
    unfold Orderbook.getOrderInfo
    exact List.map_congr_left fun e _ => hinfo e
  refine ⟨?_, ?_, h1, h2, ?_⟩
  · rw [(snapshot_prices s).1]; exact hb
  · rw [(snapshot_prices s).2]; exact ha
  · intro e _ hlt
    rw [createLevelInfos_quantity, Nat.mod_eq_of_lt hlt]

/-- C15 as amended, on the book with the bids BUY 1 100x10 and BUY 2 100x5: one bid level at
100 with quantity 15. -/
theorem snapshot_levels_witness :
    twoBidsBook.getOrderInfo._bids = [{ _price := 100, _quantity := 15 }] ∧
    twoBidsBook.getOrderInfo._asks = [] ∧
    (twoBidsBook.getOrderInfo._bids.map fun i => i._price).Pairwise (fun a b => a > b) :=
  ⟨by rfl, rfl,
   (snapshot_levels twoBidsBook (by simp [twoBidsBook]) (by simp [twoBidsBook])).1⟩

/-- C15 as stated fails: after `addOrder` of BUY 1 and BUY 2, both at 100 for `2 ^ 31` units, the
bucket at 100 holds `2 ^ 32` units, and the snapshot reports the quantity 0 for that level. -/
theorem snapshot_quantity_wraps :
    Reachable wideBidsBook ∧
    wideBidsBook.getOrderInfo._bids = [{ _price := 100, _quantity := 0 }] ∧
    wideBidsBook._bids.map (fun e => remainingSum e.2) = [4294967296] ∧
    wideBidsBook.getOrderInfo._bids.map (fun i => i._quantity)
      ≠ wideBidsBook._bids.map (fun e => remainingSum e.2) :=
  ⟨wideBidsBook_reachable, by rfl, by rfl, by decide⟩

/-! ### No empty bucket -/

/-- C16: in every book reachable from the empty book by `addOrder`, `cancelOrder` and
`matchOrder` calls, every price of the bid ladder and every price of the ask ladder maps to a
non-empty list of orders. -/
theorem reachable_no_empty_bucket (s : Orderbook) (h : Reachable s) :
    (∀ e ∈ s._bids, e.2 ≠ []) ∧ (∀ e ∈ s._asks, e.2 ≠ []) :=
  ⟨fun e he => (reachable_good s h).noEmptyBucket e (List.mem_append_left _ he),
   fun e he => (reachable_good s h).noEmptyBucket e (List.mem_append_right _ he)⟩

/-- C16 on the book of the partial-fill scenario, where the ask level at 100 was emptied by
the match and is gone. -/
theorem reachable_no_empty_bucket_witness :
    ((∀ e ∈ partialCrossBook._bids, e.2 ≠ []) ∧ (∀ e ∈ partialCrossBook._asks, e.2 ≠ [])) ∧
    partialCrossBook._asks = [] :=
  ⟨reachable_no_empty_bucket partialCrossBook partialCrossBook_reachable, rfl⟩

/-! ### The contract of `Order::fill` -/

/-- C17: for every order and quantity, `fill` throws exactly when the quantity exceeds the
remaining quantity, and the order is then as it was; otherwise the remaining quantity goes
down by exactly the quantity and no other field changes. So for an order with
`_remainingQuantity ≤ _initialQuantity` (as after construction) and an initial quantity in
the range of `Quantity`, after any sequence of `fill` calls, throwing or not, the remaining
quantity is at most the initial quantity, `getFilledQuantity` is their difference, and
`isFilled` holds exactly when the remaining quantity is 0. -/
theorem fill_contract (o : Order) (q : Quantity) (qs : List Quantity)
    (h0 : o._remainingQuantity ≤ o._initialQuantity)
    (hq : o._initialQuantity < quantityModulus) :
    (o.fill q = none ↔ q > o._remainingQuantity) ∧
    (q > o._remainingQuantity → o.fills [q] = o) ∧
    (q ≤ o._remainingQuantity →
      o.fill q = some { o with _remainingQuantity := o._remainingQuantity - q } ∧
      o.fills [q] = { o with _remainingQuantity := o._remainingQuantity - q }) ∧
    (o.fills qs)._remainingQuantity ≤ (o.fills qs)._initialQuantity ∧
    (o.fills qs)._initialQuantity = o._initialQuantity ∧
    (o.fills qs).getFilledQuantity =
      (o.fills qs)._initialQuantity - (o.fills qs)._remainingQuantity ∧
    ((o.fills qs).isFilled = true ↔ (o.fills qs)._remainingQuantity = 0) := by
  have hf := Order.fills_fields qs o
  have hle : (o.fills qs)._remainingQuantity ≤ (o.fills qs)._initialQuantity := by
    rw [hf.2.2.2.2.1]; exact le_trans hf.2.2.2.2.2 h0
  refine ⟨Order.fill_none_iff o q, ?_, ?_, hle, hf.2.2.2.2.1, ?_, ?_⟩
  · intro hgt
    have : o.fill q = none := (Order.fill_none_iff o q).mpr hgt
    simp [Order.fills, this]
  · intro hle1
    have := Order.fill_le o q hle1
    exact ⟨this, by simp [Order.fills, this]⟩
  · exact Order.getFilledQuantity_eq _ hle (by rw [hf.2.2.2.2.1]; exact hq)
  · simp [Order.isFilled]

/-- C17 on the fresh order BUY 1 100x10: `fill 11` throws, and after `fill 7`, `fill 4` (which
throws) and `fill 3` the order has 0 left of 10, 10 filled, and is filled. -/
theorem fill_contract_witness :
    ((tenLotBid.fill 11 = none ↔ 11 > tenLotBid._remainingQuantity) ∧
      (11 > tenLotBid._remainingQuantity → tenLotBid.fills [11] = tenLotBid) ∧
      (11 ≤ tenLotBid._remainingQuantity →
        tenLotBid.fill 11
          = some { tenLotBid with _remainingQuantity := tenLotBid._remainingQuantity - 11 } ∧
        tenLotBid.fills [11]
          = { tenLotBid with _remainingQuantity := tenLotBid._remainingQuantity - 11 }) ∧
      (tenLotBid.fills [7, 4, 3])._remainingQuantity
        ≤ (tenLotBid.fills [7, 4, 3])._initialQuantity ∧
      (tenLotBid.fills [7, 4, 3])._initialQuantity = tenLotBid._initialQuantity ∧
      (tenLotBid.fills [7, 4, 3]).getFilledQuantity =
        (tenLotBid.fills [7, 4, 3])._initialQuantity
          - (tenLotBid.fills [7, 4, 3])._remainingQuantity ∧
      ((tenLotBid.fills [7, 4, 3]).isFilled = true
        ↔ (tenLotBid.fills [7, 4, 3])._remainingQuantity = 0)) ∧
    tenLotBid.fill 11 = none ∧
    tenLotBid.fills [7, 4, 3] = { tenLotBid with _remainingQuantity := 0 } ∧
    (tenLotBid.fills [7, 4, 3]).getFilledQuantity = 10 :=
  ⟨fill_contract tenLotBid 11 [7, 4, 3] (le_refl _) (by unfold quantityModulus; decide),
   rfl, rfl, by rfl⟩

/-! ### The end-of-day step -/

/-- C18 (the code at the failing input): with GOODFORDAY BUY 1 100x5, GOODTILLCANCEL BUY 2
100x3 and GOODFORDAY SELL 3 105x2 resting, one timed wake-up of the pruner collects the ids
1 and 3 and calls `cancelOrders`, whose first `cancelOrderInternal` erases the entry of 1 and
then goes on through it: with the lifetime of the entry followed the step has no result.
From the values the references were bound to the statements compute the book in which only
order 2 rests. -/
theorem prune_uses_erased_entry :
    addOrders dayOrders Orderbook.empty = some dayBook ∧
    dayBook.goodForDayIds = [1, 3] ∧
    cancelOrderInternalStrict { dayBook with _ordersMutex := true } 1 = none ∧
    cancelOrdersStrict dayBook [1, 3] = none ∧
    dayBook.pruneGoodForDayOrdersStrict = none ∧
    dayBook.pruneGoodForDayOrders = some dayBookPruned ∧
    (ladderOrders dayBookPruned._bids ++ ladderOrders dayBookPruned._asks).map
        (fun o => (o._orderId, o._orderType)) = [(2, OrderType.GOODTILLCANCEL)] := by
  refine ⟨by rfl, by rfl, by rfl, by rfl, by rfl, by rfl, by rfl⟩

/-! ### The bucket lookup of a cancellation -/

/-- C19 (the code at the failing input): with the asks SELL 1 100x5 and SELL 2 105x5
resting, `cancelOrder` of 2 erases the entry of the id and then takes the side and the price
for `_asks.at(price)` through `order`, a reference into that entry; once the entry is
gone the reference cannot be read, so the key of the lookup is no defined price and the call
has no result. The same holds for `cancelOrder` and for `matchOrder` on every book and every
indexed id. The price the reference was bound to, 105, has a bucket in the ask ladder. -/
theorem bucket_lookup_through_erased_entry :
    addOrders [Order.new OrderType.GOODTILLCANCEL 1 Side.SELL 100 5,
               Order.new OrderType.GOODTILLCANCEL 2 Side.SELL 105 5] Orderbook.empty
      = some twoAsksBook ∧
    findKey 2 twoAsksBook._orders
      = some (Order.new OrderType.GOODTILLCANCEL 2 Side.SELL 105 5) ∧
    (Reference.expire { referent := Order.new OrderType.GOODTILLCANCEL 2 Side.SELL 105 5,
                        alive := true }).read = none ∧
    cancelOrderInternalStrict { twoAsksBook with _ordersMutex := true } 2 = none ∧
    cancelOrderStrict twoAsksBook 2 = none ∧
    findKey 105 twoAsksBook._asks
      = some [Order.new OrderType.GOODTILLCANCEL 2 Side.SELL 105 5] ∧
    (∀ s orderId order, findKey orderId s._orders = some order →
      cancelOrderStrict s orderId = none) ∧
    (∀ s m order, findKey m._orderId s._orders = some order → matchOrderStrict s m = none) := by
  refine ⟨by rfl, by rfl, by rfl, by rfl, by rfl, by rfl, ?_, ?_⟩
  · intro s orderId order h
    exact cancelOrderStrict_of_indexed s orderId order h
  · intro s m order h
    exact matchOrderStrict_of_indexed s m order h

/-! ### The loops of `matchOrders` end -/

